import Mathlib

/-!
# Advance Map 1.92 importers (`src/core/advancemapparser.cpp`)

A shallow embedding of `AdvanceMapParser::parseLayout`, `AdvanceMapParser::parseMetatiles`
and `AdvanceMapParser::parsePalette`, and the properties of them that the specification
states.

Conventions of the embedding.

* A file's contents are a `QByteArray`: a list of bytes whose length fits a C++
  `int` (every length-dependent expression of the parser is an `int`).
* C++ `int` values are `Int`s; every `int` operation of the source is followed by
  `wrap32`, the two's-complement reduction to 32 bits. Signed overflow, which the
  language leaves undefined, is thereby given the value the compiled code computes.
* `in.at(k)` at an offset that an earlier size check guarantees is `QByteArray.at`;
  the loop reads `in[i]` and `in.at(i)`, whose index is computed from file contents,
  are `QByteArray.index` and `QByteArray.at?`, which have no value outside
  `[0, length)`.
* A run ends in one of three ways (`Outcome`): the error flag is raised and
  nothing is returned, a value is returned, or the run indexes outside the buffer.
* The decoders `parseLayout`, `parseMetatiles` and `parsePalette` start from the bytes
  read. The runs `parseLayoutRun`, `parseMetatilesRun` and `parsePaletteRun` add what
  surrounds them in the source: the file that cannot be opened, the caller's error
  flag as explicit state, and the diagnostic logged.
* `parseLayoutIn` is `parseLayout` with the loop reads of the compiled code: an index
  outside `[0, length)` reads the memory around the buffer, given as a parameter.
-/

namespace AdvanceMapParser

/-! ## Machine integers and the byte buffer -/

/-- Two's-complement reduction of an integer to the range of a 32-bit `int`. -/
def wrap32 (x : Int) : Int := (x + 2147483648) % 4294967296 - 2147483648

/-- Contents of a file as read by `file.readAll()`. -/
structure QByteArray where
  data : List (Fin 256)
  size_fits_int : data.length < 2147483648

/-- The value `in.length()`. -/
def QByteArray.length (a : QByteArray) : Int := (a.data.length : Int)

/-- The value `static_cast<unsigned char>(in.at(k))` for an offset `k` that is in range. -/
def QByteArray.at (a : QByteArray) (k : Nat) : Nat := (a.data.getD k 0).val

/-- The value `in[i] & 0xff` for a computed index: no value outside the buffer. -/
def QByteArray.index (a : QByteArray) (i : Int) : Option Nat :=
  if 0 ≤ i ∧ i < a.length then some ((a.data.getD i.toNat 0).val &&& 0xff) else none

/-- The `int` assembled from the four bytes at `o .. o+3`, least significant first. -/
def readInt32 (a : QByteArray) (o : Nat) : Int :=
  wrap32 ((a.at o ||| (a.at (o + 1) <<< 8) ||| (a.at (o + 2) <<< 16)
    ||| (a.at (o + 3) <<< 24) : Nat) : Int)

/-- The value `static_cast<uint16_t>(lo + (hi << 8))`. -/
def word16 (lo hi : Nat) : Nat := (lo + (hi <<< 8)) % 65536

/-! ## Results -/

/-- The diagnostics `parseLayout` logs when it raises the error flag. -/
inductive LayoutError where
  | unexpectedSize
  | tooLittleData (expected actual : Int)
deriving DecidableEq, Repr

/-- How a decoder run ends. -/
inductive Outcome (ε α : Type) where
  | failed (e : ε)
  | ok (v : α)
  | fault
deriving DecidableEq, Repr

/-- The fields of `Layout` that `parseLayout` assigns. -/
structure Layout where
  width : Int
  height : Int
  border_width : Int
  border_height : Int
  tileset_primary_label : String
  tileset_secondary_label : String
  blockdata : List Nat
  border : List Nat
deriving DecidableEq, Repr

/-- The members of `Project` that `parseLayout` reads; the two default labels are the
values returned by `getDefaultPrimaryTilesetLabel()` and `getDefaultSecondaryTilesetLabel()`. -/
structure Project where
  tilesetLabelsOrdered : List String
  primaryTilesetLabels : List String
  secondaryTilesetLabels : List String
  defaultPrimaryTilesetLabel : String
  defaultSecondaryTilesetLabel : String

/-- Modelled from the spec: the constant `DEFAULT_BORDER_WIDTH`, declared outside the
sources at hand; the specification fixes the default border at 2 by 2. -/
def DEFAULT_BORDER_WIDTH : Int := 2

/-- Modelled from the spec: the constant `DEFAULT_BORDER_HEIGHT`, declared outside the
sources at hand; the specification fixes the default border at 2 by 2. -/
def DEFAULT_BORDER_HEIGHT : Int := 2

/-- The call `QList::value(i, defaultValue)`: the element at `i`, or the default
when `i` is outside the list. -/
def listValue (l : List String) (i : Int) (d : String) : String :=
  if 0 ≤ i ∧ i < (l.length : Int) then l.getD i.toNat d else d

/-! ## `parseLayout` -/

/-- Locals of `parseLayout` computed from the 20-byte header (source lines 25 to 51). -/
structure Header where
  borderWidth : Int
  borderHeight : Int
  numBorderTiles : Int
  mapDataOffset : Int
  mapWidth : Int
  mapHeight : Int
  mapPrimaryTilesetNum : Int
  mapSecondaryTilesetNum : Int
  numMetatiles : Int
  baseMapSize : Int
  baseBorderSize : Int
  mapDataEnd : Int
deriving DecidableEq, Repr

/-- Source lines 25 to 51. -/
def readHeader (inp : QByteArray) : Header :=
  let borderWidth : Int := (inp.at 16 : Int)
  let borderHeight : Int := (inp.at 17 : Int)
  let numBorderTiles := wrap32 (borderWidth * borderHeight)
  let mapDataOffset := wrap32 (20 + wrap32 (numBorderTiles * 2))
  let mapWidth := readInt32 inp 0
  let mapHeight := readInt32 inp 4
  let mapPrimaryTilesetNum := readInt32 inp 8
  let mapSecondaryTilesetNum := readInt32 inp 12
  let numMetatiles := wrap32 (mapWidth * mapHeight)
  let baseMapSize := wrap32 (numMetatiles * 2)
  let baseBorderSize := wrap32 (numBorderTiles * 2)
  let mapDataEnd := wrap32 (mapDataOffset + baseMapSize)
  { borderWidth, borderHeight, numBorderTiles, mapDataOffset, mapWidth, mapHeight,
    mapPrimaryTilesetNum, mapSecondaryTilesetNum, numMetatiles, baseMapSize,
    baseBorderSize, mapDataEnd }

/-- The locals that the format-variant branch (source lines 59 to 91) may reassign. -/
structure BorderVars where
  doubleMap : Bool
  rseBorderOffset : Int
  borderWidth : Int
  borderHeight : Int
  numBorderTiles : Int
  baseBorderSize : Int
deriving DecidableEq, Repr

/-- The locals of the trailing-border candidate (source lines 67 to 73). -/
structure RseCandidate where
  borderWidthLE : Int
  borderHeightLE : Int
  rseNumBorderTiles : Int
  rseBorderSize : Int
  borderOffset : Int
deriving DecidableEq, Repr

/-- Source lines 67 to 73: the candidate read from the last four bytes of the file. -/
def rseCandidate (inp : QByteArray) : RseCandidate :=
  let n := inp.data.length
  let borderWidthLE : Int := ((inp.at (n - 4) ||| (inp.at (n - 3) <<< 8) : Nat) : Int)
  let borderHeightLE : Int := ((inp.at (n - 2) ||| (inp.at (n - 1) <<< 8) : Nat) : Int)
  let rseNumBorderTiles := wrap32 (borderWidthLE * borderHeightLE)
  let rseBorderSize := wrap32 (rseNumBorderTiles * 2)
  let borderOffset := wrap32 (inp.length - wrap32 (rseBorderSize + 4))
  { borderWidthLE, borderHeightLE, rseNumBorderTiles, rseBorderSize, borderOffset }

/-- Source lines 59 to 91: where the border is, in either format variant. -/
def locateBorder (inp : QByteArray) (h : Header) : BorderVars :=
  let init : BorderVars :=
    { doubleMap := false, rseBorderOffset := -1, borderWidth := h.borderWidth,
      borderHeight := h.borderHeight, numBorderTiles := h.numBorderTiles,
      baseBorderSize := h.baseBorderSize }
  if h.numBorderTiles = 0 then
    if inp.length ≥ wrap32 (h.mapDataEnd + 4) then
      let c := rseCandidate inp
      if c.borderOffset ≥ wrap32 (h.mapDataOffset + h.baseMapSize) then
        { doubleMap :=
            decide (c.borderOffset ≥ wrap32 (h.mapDataOffset + wrap32 (h.baseMapSize * 2))),
          rseBorderOffset := c.borderOffset, borderWidth := c.borderWidthLE,
          borderHeight := c.borderHeightLE, numBorderTiles := c.rseNumBorderTiles,
          baseBorderSize := c.rseBorderSize }
      else init
    else init
  else
    { init with
      doubleMap := decide (inp.length ≥ wrap32 (h.mapDataOffset + wrap32 (h.baseMapSize * 2))) }

/-- The two decoding loops (source lines 94 to 97 and 114 to 117): starting at `i`,
append one 16-bit word per step while `(i + 1) < stop && (i + 1) < in.length()`.
The first argument bounds the number of steps; `none` is a read outside the buffer
(or an exhausted bound; by `readWords_enough` the bound used, the length plus one,
is never exhausted). -/
def readWords (inp : QByteArray) (stop : Int) : Nat → Int → Option (List Nat)
  | 0, _ => none
  | fuel + 1, i =>
    if wrap32 (i + 1) < stop ∧ wrap32 (i + 1) < inp.length then
      match inp.index i, inp.index (wrap32 (i + 1)) with
      | some lo, some hi =>
        (readWords inp stop fuel (wrap32 (i + 2))).map (fun rest => word16 lo hi :: rest)
      | _, _ => none
    else some []

/-- Source lines 101 to 112: where the border words start. -/
def borderOffset (h : Header) (v : BorderVars) : Int :=
  if h.mapDataOffset = 20 then
    if v.rseBorderOffset ≥ 0 then v.rseBorderOffset
    else wrap32 (h.mapDataOffset + wrap32 (h.baseMapSize * (if v.doubleMap then 2 else 1)))
  else 20

/-- Source lines 99 to 118: the border words, read from `borderOffset` up to
`borderEnd = borderOffset + baseBorderSize` when `numBorderTiles != 0`. -/
def readBorder (inp : QByteArray) (h : Header) (v : BorderVars) : Option (List Nat) :=
  if v.numBorderTiles ≠ 0 then
    readWords inp (wrap32 (borderOffset h v + v.baseBorderSize)) (inp.data.length + 1)
      (borderOffset h v)
  else some []

/-- Source lines 126 to 139, for one slot: look the index up in the ordered labels and
fall back to the slot's default when the label is not one of the slot's labels. -/
def resolveTilesetLabel (tilesets slotLabels : List String) (num : Int) (dflt : String) :
    String :=
  let label := listValue tilesets num dflt
  if ¬ slotLabels.contains label then dflt else label

/-- Source lines 120 to 148: the layout assembled from the decoded parts. The border
of a fresh `Layout` is empty and is assigned only when border words were decoded. -/
def buildLayout (h : Header) (v : BorderVars) (project : Project)
    (blockdata border : List Nat) : Layout :=
  { width := h.mapWidth
    height := h.mapHeight
    border_width := if v.borderWidth = 0 then DEFAULT_BORDER_WIDTH else v.borderWidth
    border_height := if v.borderHeight = 0 then DEFAULT_BORDER_HEIGHT else v.borderHeight
    tileset_primary_label :=
      resolveTilesetLabel project.tilesetLabelsOrdered project.primaryTilesetLabels
        h.mapPrimaryTilesetNum project.defaultPrimaryTilesetLabel
    tileset_secondary_label :=
      resolveTilesetLabel project.tilesetLabelsOrdered project.secondaryTilesetLabels
        h.mapSecondaryTilesetNum project.defaultSecondaryTilesetLabel
    blockdata := blockdata
    border := if border.isEmpty then [] else border }

/-- The decoder `AdvanceMapParser::parseLayout`, from the bytes of the opened file:
the two size checks, the two loops, and the assembly of the layout. The locals of
the source are `readHeader inp` and `locateBorder inp (readHeader inp)`. -/
def parseLayout (inp : QByteArray) (project : Project) : Outcome LayoutError Layout :=
  if inp.length < 20 ∨ inp.length % 2 ≠ 0 then .failed .unexpectedSize
  else if inp.length < (readHeader inp).mapDataEnd then
    .failed (.tooLittleData (readHeader inp).mapDataEnd inp.length)
  else
    match readWords inp (readHeader inp).mapDataEnd (inp.data.length + 1)
        (readHeader inp).mapDataOffset with
    | none => .fault
    | some blockdata =>
      match readBorder inp (readHeader inp) (locateBorder inp (readHeader inp)) with
      | none => .fault
      | some border =>
        .ok (buildLayout (readHeader inp) (locateBorder inp (readHeader inp)) project
          blockdata border)

/-! ## The specification's quantities

The definitions below follow the words of the specification; the theorems compare
them with the decoder. -/

/-- The unsigned little-endian 32-bit word at offset `o`. -/
def le32 (inp : QByteArray) (o : Nat) : Nat :=
  inp.at o + 256 * inp.at (o + 1) + 65536 * inp.at (o + 2) + 16777216 * inp.at (o + 3)

/-- The specification's `mapDataEnd`, on the unsigned header words and without
any reduction: `20 + 2*borderWidth*borderHeight + 2*width*height`. -/
def specMapDataEnd (inp : QByteArray) : Nat :=
  20 + 2 * (inp.at 16 * inp.at 17) + 2 * (le32 inp 0 * le32 inp 4)

/-- The specification's three acceptance conditions of the layout decoder. -/
def specAccepts (inp : QByteArray) : Prop :=
  20 ≤ inp.data.length ∧ inp.data.length % 2 = 0 ∧ specMapDataEnd inp ≤ inp.data.length

/-- The quantity `20 + 2*borderWidth*borderHeight + 2*width*height` on the header
border bytes and the signed header width and height, without any reduction. -/
def exactMapDataEnd (inp : QByteArray) : Int :=
  20 + 2 * (((inp.at 16 : Nat) : Int) * ((inp.at 17 : Nat) : Int))
    + 2 * ((readHeader inp).mapWidth * (readHeader inp).mapHeight)

/-- The border width `bw`: the little-endian 16-bit value in the first two of the last
four bytes of the file. -/
def tailBorderWidth (inp : QByteArray) : Nat :=
  inp.at (inp.data.length - 4) + 256 * inp.at (inp.data.length - 3)

/-- The border height `bh`: the little-endian 16-bit value in the last two bytes of
the file. -/
def tailBorderHeight (inp : QByteArray) : Nat :=
  inp.at (inp.data.length - 2) + 256 * inp.at (inp.data.length - 1)

/-- The quantity `length - (bw*bh*2 + 4)` on the tail values, without any reduction. -/
def exactRseBorderOffset (inp : QByteArray) : Int :=
  (inp.data.length : Int) - (((tailBorderWidth inp * tailBorderHeight inp * 2 + 4 : Nat)) : Int)

/-- The words stored from byte `i` on, `n` of them, each two bytes, low byte first. -/
def wordsFrom (inp : QByteArray) : Nat → Nat → List Nat
  | _, 0 => []
  | i, n + 1 => (inp.at i + 256 * inp.at (i + 1)) :: wordsFrom inp (i + 2) n

/-- The label the specification assigns to one tileset slot: the ordered label at the
index when the index is in range and the label is one of the slot's labels; the
slot's default in every other case. -/
def specTilesetLabel (ordered slotLabels : List String) (index : Int) (dflt : String) :
    String :=
  if 0 ≤ index then
    match ordered.get? index.toNat with
    | some label => if label ∈ slotLabels then label else dflt
    | none => dflt
  else dflt

/-- The trailing-border candidate was accepted: the tests of source lines 63, 66 and 74
all passed. -/
def rseAccepted (inp : QByteArray) : Prop :=
  (readHeader inp).numBorderTiles = 0
    ∧ inp.length ≥ wrap32 ((readHeader inp).mapDataEnd + 4)
    ∧ (rseCandidate inp).borderOffset
        ≥ wrap32 ((readHeader inp).mapDataOffset + (readHeader inp).baseMapSize)

instance (inp : QByteArray) : Decidable (rseAccepted inp) := by
  unfold rseAccepted; infer_instance

/-- The effective border width: the tail value when the trailing-border candidate was
accepted, the header byte at offset 16 otherwise. -/
def effectiveBorderWidth (inp : QByteArray) : Int :=
  if rseAccepted inp then (tailBorderWidth inp : Int) else (inp.at 16 : Int)

/-- The effective border height: the tail value when the trailing-border candidate was
accepted, the header byte at offset 17 otherwise. -/
def effectiveBorderHeight (inp : QByteArray) : Int :=
  if rseAccepted inp then (tailBorderHeight inp : Int) else (inp.at 17 : Int)

/-! ## Sample inputs -/

/-- A tileset registry with one primary and one secondary tileset. -/
def sampleProject : Project :=
  { tilesetLabelsOrdered := ["gTileset_General", "gTileset_Petalburg"]
    primaryTilesetLabels := ["gTileset_General"]
    secondaryTilesetLabels := ["gTileset_Petalburg"]
    defaultPrimaryTilesetLabel := "gTileset_General"
    defaultSecondaryTilesetLabel := "gTileset_Petalburg" }

/-- A 20-byte file whose width word is `0xFFFFFFFF` and whose height word is 1. -/
def negativeWidthFile : QByteArray :=
  ⟨[255, 255, 255, 255, 1, 0, 0, 0, 0, 0, 0, 0, 0, 0, 0, 0, 0, 0, 0, 0], by decide⟩

/-- A 24-byte file: width word `0xFFFFFFFF`, height 100, no header border, and the
tail values 4 and 4. -/
def negativeOffsetFile : QByteArray :=
  ⟨[255, 255, 255, 255, 100, 0, 0, 0, 0, 0, 0, 0, 0, 0, 0, 0, 0, 0, 0, 0,
    4, 0, 4, 0], by decide⟩

/-- A 20-byte file whose width word is `0xFFFFFFFE` and whose height word is 3. -/
def negativeAreaFile : QByteArray :=
  ⟨[254, 255, 255, 255, 3, 0, 0, 0, 0, 0, 0, 0, 0, 0, 0, 0, 0, 0, 0, 0], by decide⟩

/-- A 24-byte file with a 2 by 2 header border, width word `0xFFFFFFFF`, height 2. -/
def shortBorderFile : QByteArray :=
  ⟨[255, 255, 255, 255, 2, 0, 0, 0, 0, 0, 0, 0, 0, 0, 0, 0, 2, 2, 0, 0,
    1, 0, 2, 0], by decide⟩

/-- A 22-byte file with a 1 by 1 header border, width 8 and height 134217727. -/
def wrappedEndFile : QByteArray :=
  ⟨[8, 0, 0, 0, 255, 255, 255, 7, 0, 0, 0, 0, 0, 0, 0, 0, 1, 1, 0, 0,
    9, 0], by decide⟩

/-- A 24-byte file of zeros: an empty map followed by the tail values 0 and 0. -/
def zeroTailFile : QByteArray :=
  ⟨[0, 0, 0, 0, 0, 0, 0, 0, 0, 0, 0, 0, 0, 0, 0, 0, 0, 0, 0, 0,
    0, 0, 0, 0], by decide⟩

/-- A 28-byte file: an empty map, four bytes, and the tail values 54161 and 39650. -/
def wrappedTailFile : QByteArray :=
  ⟨[0, 0, 0, 0, 0, 0, 0, 0, 0, 0, 0, 0, 0, 0, 0, 0, 0, 0, 0, 0,
    1, 0, 2, 0, 145, 211, 226, 154], by decide⟩

/-- A 20-byte file with no header border, width 65536 and height 65536. -/
def wrappedAreaFile : QByteArray :=
  ⟨[0, 0, 1, 0, 0, 0, 1, 0, 0, 0, 0, 0, 0, 0, 0, 0, 0, 0, 0, 0], by decide⟩

/-- A 26-byte file in the trailing-border layout: a 2 by 1 map, a 1 by 1 border and
the tail values 1 and 1. -/
def rseSampleFile : QByteArray :=
  ⟨[2, 0, 0, 0, 1, 0, 0, 0, 0, 0, 0, 0, 1, 0, 0, 0, 0, 0, 0, 0,
    17, 0, 18, 0, 3, 0, 1, 0, 1, 0], by decide⟩

/-- A 26-byte file in the header-border layout: a 1 by 2 border and a 1 by 1 map. -/
def frlgSampleFile : QByteArray :=
  ⟨[1, 0, 0, 0, 1, 0, 0, 0, 0, 0, 0, 0, 1, 0, 0, 0, 1, 2, 0, 0,
    3, 0, 4, 0, 5, 1], by decide⟩

/-- The file `frlgSampleFile` followed by a second copy of its map. -/
def frlgDoubleFile : QByteArray :=
  ⟨[1, 0, 0, 0, 1, 0, 0, 0, 0, 0, 0, 0, 1, 0, 0, 0, 1, 2, 0, 0,
    3, 0, 4, 0, 5, 1, 5, 1], by decide⟩

/-- A 20-byte file whose primary tileset index is 1 and whose secondary index is 0:
each slot points at a tileset of the other kind. -/
def swappedTilesetFile : QByteArray :=
  ⟨[0, 0, 0, 0, 0, 0, 0, 0, 1, 0, 0, 0, 0, 0, 0, 0, 0, 0, 0, 0], by decide⟩

/-- A 22-byte file with header border bytes 3 and 0, an empty map and two more bytes. -/
def halfBorderFile : QByteArray :=
  ⟨[0, 0, 0, 0, 0, 0, 0, 0, 0, 0, 0, 0, 0, 0, 0, 0, 3, 0, 0, 0, 7, 0], by decide⟩

/-! ## `parseMetatiles` -/

/-- The value `static_cast<unsigned char>(in.at(i))` at a computed offset: no value
outside the buffer. -/
def QByteArray.at? (a : QByteArray) (i : Int) : Option Nat :=
  if 0 ≤ i ∧ i < a.length then some (a.data.getD i.toNat 0).val else none

/-- The game families `parseMetatiles` tells apart by the trailing signature. -/
inductive BaseGameVersion where
  | pokeemerald
  | pokefirered
deriving DecidableEq, Repr

/-- Modelled from the spec: the class `Tile`, declared outside the sources at hand: a
tile id of 10 bits, two flip flags and a palette of 4 bits. -/
structure Tile where
  tileId : Nat
  xflip : Bool
  yflip : Bool
  palette : Nat
deriving DecidableEq, Repr

/-- Modelled from the spec: the constructor `Tile(uint16_t)`, defined outside the
sources at hand; the specification packs a tile as
`tileId | xflip<<10 | yflip<<11 | palette<<12`. -/
def Tile.ofRaw (w : Nat) : Tile :=
  { tileId := w % 1024
    xflip := decide (w / 1024 % 2 = 1)
    yflip := decide (w / 2048 % 2 = 1)
    palette := w / 4096 % 16 }

/-- Modelled from the spec: the default constructor `Tile()`, defined outside the
sources at hand; the specification calls its value the zero tile. -/
def Tile.zero : Tile := { tileId := 0, xflip := false, yflip := false, palette := 0 }

/-- Modelled from the spec: `Metatile::getDefaultAttributesSize`, defined outside the
sources at hand; the specification gives family A (`"RSE "`) attributes of 2 bytes and
family B (`"FRLG"`) attributes of 4 bytes. -/
def getDefaultAttributesSize : BaseGameVersion → Int
  | .pokeemerald => 2
  | .pokefirered => 4

/-- What `parseMetatiles` gives a `Metatile`: its tiles, and the raw attribute value
and the version passed to `setAttributes`. -/
structure Metatile where
  tiles : List Tile
  attributes : Nat
  version : BaseGameVersion
deriving DecidableEq, Repr

/-- The ambient values `parseMetatiles` reads: `Project::getNumMetatilesPrimary()`,
`Project::getNumMetatilesSecondary()` and `projectConfig.tripleLayerMetatilesEnabled`. -/
structure MetatileConfig where
  numMetatilesPrimary : Int
  numMetatilesSecondary : Int
  tripleLayerMetatilesEnabled : Bool

/-- The diagnostics `parseMetatiles` logs when it raises the error flag. -/
inductive MetatileError where
  | unexpectedSize
  | unsupportedGameType
  | tooManyMetatiles (numMetatiles maxMetatiles : Int)
  | noMetatileData
  | unexpectedFileSize (expectedSingleSize expectedDoubleSize actual : Int)
deriving DecidableEq, Repr

/-- The caller's error flag after a run: raised by a failed run, left as it was by
every other run. -/
def Outcome.errorFlag {ε α : Type} (o : Outcome ε α) (before : Bool) : Bool :=
  match o with
  | .failed _ => true
  | _ => before

/-- The list a run hands back: the decoded list, and the empty list when the run
failed. -/
def Outcome.returnedList {ε α : Type} : Outcome ε (List α) → List α
  | .ok v => v
  | _ => []

/-- Source lines 171 to 189: the game family named by the last four bytes. -/
def detectVersion (inp : QByteArray) : Option BaseGameVersion :=
  if inp.at (inp.data.length - 4 + 0) = 82 ∧ inp.at (inp.data.length - 4 + 1) = 83
      ∧ inp.at (inp.data.length - 4 + 2) = 69 ∧ inp.at (inp.data.length - 4 + 3) = 32 then
    some .pokeemerald
  else if inp.at (inp.data.length - 4 + 0) = 70 ∧ inp.at (inp.data.length - 4 + 1) = 82
      ∧ inp.at (inp.data.length - 4 + 2) = 76 ∧ inp.at (inp.data.length - 4 + 3) = 71 then
    some .pokefirered
  else none

/-- Source line 192. -/
def maxMetatiles (cfg : MetatileConfig) (primaryTileset : Bool) : Int :=
  if primaryTileset then cfg.numMetatilesPrimary else cfg.numMetatilesSecondary

/-- Source line 208, with `metatileSize = 16`. -/
def baseMetatileSize (numMetatiles : Int) : Int := wrap32 (16 * numMetatiles)

/-- Source line 209. -/
def baseAttrSize (attrSize numMetatiles : Int) : Int := wrap32 (attrSize * numMetatiles)

/-- Source line 210. -/
def expectedSingleSize (attrSize numMetatiles : Int) : Int :=
  wrap32 (wrap32 (baseMetatileSize numMetatiles + baseAttrSize attrSize numMetatiles) + 8)

/-- Source line 211. -/
def expectedDoubleSize (attrSize numMetatiles : Int) : Int :=
  wrap32 (wrap32 (wrap32 (baseMetatileSize numMetatiles * 2)
    + wrap32 (baseAttrSize attrSize numMetatiles * 2)) + 8)

/-- Source lines 221 to 232: where the tile words of the chosen tileset start. -/
def tilesOffset (doubleTileset primaryTileset : Bool) (numMetatiles : Int) : Int :=
  if doubleTileset then
    if primaryTileset then 4 else wrap32 (4 + baseMetatileSize numMetatiles)
  else 4

/-- Source lines 221 to 232: where the attributes of the chosen tileset start. -/
def attrsOffset (doubleTileset primaryTileset : Bool) (attrSize numMetatiles : Int) : Int :=
  if doubleTileset then
    if primaryTileset then wrap32 (4 + wrap32 (baseMetatileSize numMetatiles * 2))
    else wrap32 (wrap32 (4 + wrap32 (baseMetatileSize numMetatiles * 2))
      + baseAttrSize attrSize numMetatiles)
  else wrap32 (4 + baseMetatileSize numMetatiles)

/-- A `for` loop that appends one decoded element per step and ends the run at the
first read outside the buffer. -/
def collect {α β : Type} (f : α → Option β) : List α → Option (List β)
  | [] => some []
  | x :: xs =>
    match f x with
    | none => none
    | some y => (collect f xs).map (fun ys => y :: ys)

/-- Source lines 240 to 242: the tile built from the 16-bit word at `metatileOffset`. -/
def readTile (inp : QByteArray) (metatileOffset : Int) : Option Tile :=
  match inp.at? metatileOffset, inp.at? (wrap32 (metatileOffset + 1)) with
  | some lo, some hi => some (Tile.ofRaw ((lo ||| (hi <<< 8)) % 65536))
  | _, _ => none

/-- Source lines 238 to 244: the eight tiles of metatile `i`, tile `j` at
`tilesOffset + i * metatileSize + j * 2`. -/
def readTiles (inp : QByteArray) (tilesOffset i : Int) : Option (List Tile) :=
  collect
    (fun j : Nat =>
      readTile inp (wrap32 (wrap32 (tilesOffset + wrap32 (i * 16)) + wrap32 ((j : Int) * 2))))
    (List.range 8)

/-- Source lines 255 to 257: the loop `attributes |= byte << (8 * j)` with `r` steps to
go, at step `j`. -/
def readAttributes (inp : QByteArray) (attrOffset : Int) : Nat → Nat → Nat → Option Nat
  | 0, _, attributes => some attributes
  | r + 1, j, attributes =>
    match inp.at? (wrap32 (attrOffset + (j : Int))) with
    | none => none
    | some b =>
      readAttributes inp attrOffset r (j + 1) ((attributes ||| (b <<< (8 * j))) % 4294967296)

/-- Source lines 236 to 260: metatile `i`. -/
def readMetatile (inp : QByteArray) (tripleLayer : Bool) (version : BaseGameVersion)
    (attrSize tilesOffset attrsOffset : Int) (i : Int) : Option Metatile :=
  match readTiles inp tilesOffset i with
  | none => none
  | some tiles =>
    match readAttributes inp (wrap32 (attrsOffset + wrap32 (i * attrSize))) attrSize.toNat 0 0
    with
    | none => none
    | some attributes =>
      some
        { tiles := if tripleLayer then tiles ++ List.replicate 4 Tile.zero else tiles
          attributes := attributes
          version := version }

/-- Source lines 234 to 263: the loop over the metatiles. -/
def readMetatiles (inp : QByteArray) (tripleLayer : Bool) (version : BaseGameVersion)
    (attrSize tilesOffset attrsOffset numMetatiles : Int) :
    Outcome MetatileError (List Metatile) :=
  match collect
      (fun i : Nat =>
        readMetatile inp tripleLayer version attrSize tilesOffset attrsOffset (i : Int))
      (List.range numMetatiles.toNat) with
  | none => .fault
  | some metatiles => .ok metatiles

/-- Source lines 191 to 263: the decoder once the game family is known. The count
`numMetatiles` is `readInt32 inp 0`. -/
def decodeMetatiles (inp : QByteArray) (cfg : MetatileConfig) (primaryTileset : Bool)
    (version : BaseGameVersion) : Outcome MetatileError (List Metatile) :=
  if readInt32 inp 0 > maxMetatiles cfg primaryTileset then
    .failed (.tooManyMetatiles (readInt32 inp 0) (maxMetatiles cfg primaryTileset))
  else if readInt32 inp 0 < 1 then .failed .noMetatileData
  else if inp.length = expectedDoubleSize (getDefaultAttributesSize version) (readInt32 inp 0) then
    readMetatiles inp cfg.tripleLayerMetatilesEnabled version (getDefaultAttributesSize version)
      (tilesOffset true primaryTileset (readInt32 inp 0))
      (attrsOffset true primaryTileset (getDefaultAttributesSize version) (readInt32 inp 0))
      (readInt32 inp 0)
  else if inp.length ≠ expectedSingleSize (getDefaultAttributesSize version) (readInt32 inp 0)
  then
    .failed (.unexpectedFileSize
      (expectedSingleSize (getDefaultAttributesSize version) (readInt32 inp 0))
      (expectedDoubleSize (getDefaultAttributesSize version) (readInt32 inp 0)) inp.length)
  else
    readMetatiles inp cfg.tripleLayerMetatilesEnabled version (getDefaultAttributesSize version)
      (tilesOffset false primaryTileset (readInt32 inp 0))
      (attrsOffset false primaryTileset (getDefaultAttributesSize version) (readInt32 inp 0))
      (readInt32 inp 0)

/-- The decoder `AdvanceMapParser::parseMetatiles`, from the bytes of the opened file. -/
def parseMetatiles (inp : QByteArray) (cfg : MetatileConfig) (primaryTileset : Bool) :
    Outcome MetatileError (List Metatile) :=
  if inp.length < 9 ∨ inp.length % 2 ≠ 0 then .failed .unexpectedSize
  else
    match detectVersion inp with
    | none => .failed .unsupportedGameType
    | some version => decodeMetatiles inp cfg primaryTileset version

/-! ## `parsePalette` -/

/-- The diagnostic `parsePalette` logs when it raises the error flag. -/
inductive PaletteError where
  | unexpectedFormat (length : Int)
deriving DecidableEq, Repr

/-- The Qt function `qRgb`: an opaque colour from its three components. -/
def qRgb (r g b : Nat) : Nat :=
  (0xff <<< 24) ||| ((r &&& 0xff) <<< 16) ||| ((g &&& 0xff) <<< 8) ||| (b &&& 0xff)

/-- Source lines 284 to 291: the loop `while (i < in.length())`, one colour per step.
The first argument bounds the number of steps; `none` is a read outside the buffer (or
an exhausted bound; by `readColors_enough` the bound used, the length plus one, is
never exhausted). -/
def readColors (inp : QByteArray) : Nat → Int → Option (List Nat)
  | 0, _ => none
  | fuel + 1, i =>
    if i < inp.length then
      match inp.at? (wrap32 (i + 0)), inp.at? (wrap32 (i + 1)), inp.at? (wrap32 (i + 2)) with
      | some red, some green, some blue =>
        (readColors inp fuel (wrap32 (i + 4))).map (fun rest => qRgb red green blue :: rest)
      | _, _, _ => none
    else some []

/-- The decoder `AdvanceMapParser::parsePalette`, from the bytes of the opened file. -/
def parsePalette (inp : QByteArray) : Outcome PaletteError (List Nat) :=
  if inp.length % 4 ≠ 0 then .failed (.unexpectedFormat inp.length)
  else
    match readColors inp (inp.data.length + 1) 0 with
    | none => .fault
    | some palette => .ok palette

/-! ## The specification's quantities for the metatile and palette files -/

/-- The little-endian 16-bit word in the two bytes at `k` and `k + 1`. -/
def le16At (inp : QByteArray) (k : Nat) : Nat := inp.at k + 256 * inp.at (k + 1)

/-- The little-endian unsigned integer formed by the `a` bytes from `start` on: the
sum of `byte_j * 256^j` for `j < a`. -/
def leValue (inp : QByteArray) : Nat → Nat → Nat
  | _, 0 => 0
  | start, a + 1 => inp.at start + 256 * leValue inp (start + 1) a

/-- The eight tiles stored from byte `start` on, two bytes each. -/
def fileTiles (inp : QByteArray) (start : Nat) : List Tile :=
  (List.range 8).map (fun j => Tile.ofRaw (le16At inp (start + 2 * j)))

/-- The metatile whose tile words start at `tileStart` and whose attribute bytes start
at `attrStart`: the eight tiles of the file, four zero tiles more in triple-layer mode,
and the attribute bytes as a little-endian integer. -/
def specMetatile (inp : QByteArray) (tripleLayer : Bool) (version : BaseGameVersion)
    (a tileStart attrStart : Nat) : Metatile :=
  { tiles := fileTiles inp tileStart ++ (if tripleLayer then List.replicate 4 Tile.zero else [])
    attributes := leValue inp attrStart a
    version := version }

/-- The `n` metatiles whose tile records of 16 bytes start at `t0` and whose attribute
records of `a` bytes start at `a0`. -/
def specMetatiles (inp : QByteArray) (tripleLayer : Bool) (version : BaseGameVersion)
    (a t0 a0 n : Nat) : List Metatile :=
  (List.range n).map (fun i => specMetatile inp tripleLayer version a (t0 + 16 * i) (a0 + a * i))

/-- Where the specification puts the tile block of the chosen tileset: at offset 4, or
after the primary tile block for the secondary half of a double-tileset file. -/
def specTilesOffset (doubleTileset primaryTileset : Bool) (n : Nat) : Nat :=
  if doubleTileset && !primaryTileset then 4 + 16 * n else 4

/-- Where the specification puts the attribute block of the chosen tileset: after the
tile block of a single-tileset file; in a double-tileset file after both tile blocks
for the primary half and after both tile blocks and the primary attribute block for
the secondary half. -/
def specAttrsOffset (doubleTileset primaryTileset : Bool) (a n : Nat) : Nat :=
  if doubleTileset then
    if primaryTileset then 4 + 2 * (16 * n) else 4 + 2 * (16 * n) + a * n
  else 4 + 16 * n

/-- The attribute width in bytes of a game family, as a natural number. -/
def attrWidth (version : BaseGameVersion) : Nat := (getDefaultAttributesSize version).toNat

/-- The last four bytes of the file. -/
def trailingSignature (inp : QByteArray) : List Nat :=
  [inp.at (inp.data.length - 4), inp.at (inp.data.length - 3), inp.at (inp.data.length - 2),
    inp.at (inp.data.length - 1)]

/-- The bytes of the signature `"RSE "`. -/
def signatureRSE : List Nat := [82, 83, 69, 32]

/-- The bytes of the signature `"FRLG"`. -/
def signatureFRLG : List Nat := [70, 82, 76, 71]

/-- The colours stored from byte `i` on, `n` of them, four bytes each: red, green,
blue and one byte that is not used. -/
def colorsFrom (inp : QByteArray) : Nat → Nat → List Nat
  | _, 0 => []
  | i, n + 1 => qRgb (inp.at i) (inp.at (i + 1)) (inp.at (i + 2)) :: colorsFrom inp (i + 4) n


/-- The specification's size of a single-tileset file:
`4 + numMetatiles*16 + numMetatiles*attrSize`. -/
def specSingleSize (a n : Nat) : Nat := 4 + n * 16 + n * a

/-- The specification's size of a double-tileset file:
`4 + 2*(numMetatiles*16) + 2*(numMetatiles*attrSize)`. -/
def specDoubleSize (a n : Nat) : Nat := 4 + 2 * (n * 16) + 2 * (n * a)

/-- The size of a file that holds the count, `n` tile records of 16 bytes and `n`
attribute records of `a` bytes (both twice in a double-tileset file) and the
signature of four bytes. -/
def exactFileSize (doubleTileset : Bool) (a n : Nat) : Nat :=
  if doubleTileset then 8 + 2 * (16 * n) + 2 * (a * n) else 8 + 16 * n + a * n

/-! ## Sample metatile and palette files -/

/-- An ambient configuration with room for 512 metatiles in each tileset and
triple-layer metatiles disabled. -/
def sampleConfig : MetatileConfig :=
  { numMetatilesPrimary := 512, numMetatilesSecondary := 512,
    tripleLayerMetatilesEnabled := false }

/-- The configuration `sampleConfig` with triple-layer metatiles enabled. -/
def tripleLayerConfig : MetatileConfig :=
  { numMetatilesPrimary := 512, numMetatilesSecondary := 512,
    tripleLayerMetatilesEnabled := true }

/-- The 26-byte single-tileset file of family A with one metatile: the count 1, eight
tile words, the attribute bytes 34 12 and the signature `"RSE "`. -/
def rseMetatileFile : QByteArray :=
  ⟨[1, 0, 0, 0, 1, 0, 2, 4, 3, 8, 4, 28, 5, 240, 6, 0, 7, 0, 8, 0, 52, 18,
    82, 83, 69, 32], by decide⟩

/-- The 28-byte single-tileset file of family B with one metatile: the count 1, eight
tile words, the attribute bytes 34 12 56 F8 and the signature `"FRLG"`. -/
def frlgMetatileFile : QByteArray :=
  ⟨[1, 0, 0, 0, 1, 0, 2, 4, 3, 8, 4, 28, 5, 240, 6, 0, 7, 0, 8, 0, 52, 18, 86, 248,
    70, 82, 76, 71], by decide⟩

/-- The file `rseMetatileFile` with the signature `"XYZ "` in place of `"RSE "`. -/
def unknownSignatureFile : QByteArray :=
  ⟨[1, 0, 0, 0, 1, 0, 2, 4, 3, 8, 4, 28, 5, 240, 6, 0, 7, 0, 8, 0, 52, 18,
    88, 89, 90, 32], by decide⟩

/-- A 22-byte file of family A with the count 1: the size
`4 + 1*16 + 1*2` of the specification, the signature included. -/
def specSizedFile : QByteArray :=
  ⟨[1, 0, 0, 0, 1, 0, 2, 4, 3, 8, 4, 28, 5, 240, 6, 0, 52, 18, 82, 83, 69, 32], by decide⟩

/-- A 10-byte file of family A whose count word is `0xFFFFFFFF`. -/
def hugeCountFile : QByteArray :=
  ⟨[255, 255, 255, 255, 0, 0, 82, 83, 69, 32], by decide⟩

/-- A 10-byte file of family A whose count word is 0. -/
def zeroCountFile : QByteArray :=
  ⟨[0, 0, 0, 0, 0, 0, 82, 83, 69, 32], by decide⟩

/-- A 10-byte file of family A whose count word is 513. -/
def largeCountFile : QByteArray :=
  ⟨[1, 2, 0, 0, 0, 0, 82, 83, 69, 32], by decide⟩

/-- The 44-byte double-tileset file of family A with one metatile in each half: the
count 1, the primary and the secondary tile words, the primary attribute bytes 34 12,
the secondary attribute bytes 78 56 and the signature `"RSE "`. -/
def doubleMetatileFile : QByteArray :=
  ⟨[1, 0, 0, 0,
    1, 0, 2, 4, 3, 8, 4, 28, 5, 240, 6, 0, 7, 0, 8, 0,
    9, 0, 10, 4, 11, 8, 12, 28, 13, 240, 14, 0, 15, 0, 16, 0,
    52, 18, 120, 86, 82, 83, 69, 32], by decide⟩

/-- An 11-byte file that ends in `"RSE "`. -/
def oddMetatileFile : QByteArray :=
  ⟨[1, 0, 0, 0, 0, 0, 0, 82, 83, 69, 32], by decide⟩

/-- A palette file of two colours. -/
def samplePalette : QByteArray := ⟨[1, 2, 3, 4, 5, 6, 7, 8], by decide⟩

/-- A palette file of six bytes. -/
def shortPalette : QByteArray := ⟨[1, 2, 3, 4, 5, 6], by decide⟩

/-- The empty palette file. -/
def emptyPalette : QByteArray := ⟨[], by decide⟩

/-! ## Further results, quantities and sample inputs -/

/-- The colour the specification gives a palette group: the opaque 24-bit colour
`0xFF000000 | red<<16 | green<<8 | blue`. -/
def specColor (red green blue : Nat) : Nat :=
  0xFF000000 ||| (red <<< 16) ||| (green <<< 8) ||| blue

/-- The palette file `samplePalette` with other fourth bytes. -/
def samplePaletteOtherPad : QByteArray := ⟨[1, 2, 3, 200, 5, 6, 7, 9], by decide⟩

/-- The 26-byte single-tileset file of family A made of the count, the secondary tile
words, the secondary attribute bytes and the signature of `doubleMetatileFile`. -/
def secondaryMetatileFile : QByteArray :=
  ⟨[1, 0, 0, 0, 9, 0, 10, 4, 11, 8, 12, 28, 13, 240, 14, 0, 15, 0, 16, 0, 120, 86,
    82, 83, 69, 32], by decide⟩

/-- A 34-byte file in the trailing-border layout: a 2 by 1 map, a second copy of the
map, a 1 by 1 border and the tail values 1 and 1. -/
def rseDoubleFile : QByteArray :=
  ⟨[2, 0, 0, 0, 1, 0, 0, 0, 0, 0, 0, 0, 1, 0, 0, 0, 0, 0, 0, 0,
    17, 0, 18, 0, 17, 0, 18, 0, 3, 0, 1, 0, 1, 0], by decide⟩

/-- The file `rseDoubleFile` with four other bytes in place of the second copy of the
map. -/
def rseFillerFile : QByteArray :=
  ⟨[2, 0, 0, 0, 1, 0, 0, 0, 0, 0, 0, 0, 1, 0, 0, 0, 0, 0, 0, 0,
    17, 0, 18, 0, 99, 98, 97, 96, 3, 0, 1, 0, 1, 0], by decide⟩

/-! ## `parseLayout` with the memory around the buffer

The embedding above gives a read outside the buffer no value. The compiled code does
read there: `in[i]` is the byte at the address of the buffer plus `i`. The definitions
below follow the same source lines with that byte supplied by a map `mem` from
offsets to the bytes the memory of the process holds around the buffer. -/

/-- The value `in[i] & 0xff` as the compiled code reads it: inside `[0, length)` the
byte of the buffer, outside it the byte `mem i` that the memory holds at offset `i`
from the start of the buffer. -/
def QByteArray.indexIn (mem : Int → Nat) (a : QByteArray) (i : Int) : Nat :=
  if 0 ≤ i ∧ i < a.length then (a.data.getD i.toNat 0).val &&& 0xff else mem i &&& 0xff

/-- The two decoding loops (source lines 94 to 97 and 114 to 117) with the reads of the
compiled code: starting at `i`, append one 16-bit word per step while
`(i + 1) < stop && (i + 1) < in.length()`. The first argument bounds the number of
steps; by `readWordsIn_enough` the bound used, `2^32`, is never exhausted. -/
def readWordsIn (mem : Int → Nat) (inp : QByteArray) (stop : Int) : Nat → Int → List Nat
  | 0, _ => []
  | fuel + 1, i =>
    if wrap32 (i + 1) < stop ∧ wrap32 (i + 1) < inp.length then
      word16 (inp.indexIn mem i) (inp.indexIn mem (wrap32 (i + 1)))
        :: readWordsIn mem inp stop fuel (wrap32 (i + 2))
    else []

/-- Source lines 99 to 118 with the reads of the compiled code. -/
def readBorderIn (mem : Int → Nat) (inp : QByteArray) (h : Header) (v : BorderVars) :
    List Nat :=
  if v.numBorderTiles ≠ 0 then
    readWordsIn mem inp (wrap32 (borderOffset h v + v.baseBorderSize)) 4294967296
      (borderOffset h v)
  else []

/-- The decoder `AdvanceMapParser::parseLayout` with the reads of the compiled code:
the same checks and the same assembly as `parseLayout`; no run ends in a read without
a value. -/
def parseLayoutIn (mem : Int → Nat) (inp : QByteArray) (project : Project) :
    Outcome LayoutError Layout :=
  if inp.length < 20 ∨ inp.length % 2 ≠ 0 then .failed .unexpectedSize
  else if inp.length < (readHeader inp).mapDataEnd then
    .failed (.tooLittleData (readHeader inp).mapDataEnd inp.length)
  else
    .ok (buildLayout (readHeader inp) (locateBorder inp (readHeader inp)) project
      (readWordsIn mem inp (readHeader inp).mapDataEnd 4294967296
        (readHeader inp).mapDataOffset)
      (readBorderIn mem inp (readHeader inp) (locateBorder inp (readHeader inp))))

/-- A memory that holds the byte `0x00` everywhere around the buffer. -/
def zeroMemory : Int → Nat := fun _ => 0

/-- A memory that holds the byte `0xFF` everywhere around the buffer. -/
def onesMemory : Int → Nat := fun _ => 255

/-! ## The decoders as runs on the caller's error flag

Each decoder takes a pointer `bool *error` and reports a failure by the three
statements `*error = true; logError(...); return <empty value>;`. The definitions
below follow the source path by path with the flag as explicit state: the value of
`*error` before the call is an argument, and the run records the value after the call,
the diagnostics passed to `logError`, and the value returned. The file argument is
`none` when `file.open` fails and the bytes of `file.readAll()` otherwise. A run that
reads outside the buffer has no result (`none`). -/

/-- What `logError` is called with: the file could not be opened, or one of the
diagnostics of the decoder. -/
inductive Diagnostic (ε : Type) where
  | couldNotOpen
  | rejected (e : ε)
deriving DecidableEq, Repr

/-- What a call leaves behind: the value of `*error` after the call, the diagnostics
it passed to `logError`, and the value it returned. -/
structure Run (ε α : Type) where
  error : Bool
  logged : List (Diagnostic ε)
  value : α
deriving DecidableEq, Repr

/-- The function `AdvanceMapParser::parseLayout` (source lines 6 to 151) as a run on
the flag: the returned pointer is `none` for `nullptr`. -/
def parseLayoutRun (file : Option QByteArray) (project : Project) (error : Bool) :
    Option (Run LayoutError (Option Layout)) :=
  match file with
  | none => some { error := true, logged := [.couldNotOpen], value := none }
  | some inp =>
    if inp.length < 20 ∨ inp.length % 2 ≠ 0 then
      some { error := true, logged := [.rejected .unexpectedSize], value := none }
    else if inp.length < (readHeader inp).mapDataEnd then
      some { error := true
             logged := [.rejected (.tooLittleData (readHeader inp).mapDataEnd inp.length)]
             value := none }
    else
      match readWords inp (readHeader inp).mapDataEnd (inp.data.length + 1)
          (readHeader inp).mapDataOffset with
      | none => none
      | some blockdata =>
        match readBorder inp (readHeader inp) (locateBorder inp (readHeader inp)) with
        | none => none
        | some border =>
          some { error := error
                 logged := []
                 value := some (buildLayout (readHeader inp)
                   (locateBorder inp (readHeader inp)) project blockdata border) }

/-- Source lines 234 to 263 as a run on the flag: the loop over the metatiles and
`return metatiles`; no statement of these lines writes `*error`. -/
def readMetatilesRun (inp : QByteArray) (tripleLayer : Bool) (version : BaseGameVersion)
    (attrSize tilesOffset attrsOffset numMetatiles : Int) (error : Bool) :
    Option (Run MetatileError (List Metatile)) :=
  match collect
      (fun i : Nat =>
        readMetatile inp tripleLayer version attrSize tilesOffset attrsOffset (i : Int))
      (List.range numMetatiles.toNat) with
  | none => none
  | some metatiles => some { error := error, logged := [], value := metatiles }

/-- Source lines 191 to 263 as a run on the flag: the decoder once the game family is
known. -/
def decodeMetatilesRun (inp : QByteArray) (cfg : MetatileConfig) (primaryTileset : Bool)
    (version : BaseGameVersion) (error : Bool) : Option (Run MetatileError (List Metatile)) :=
  if readInt32 inp 0 > maxMetatiles cfg primaryTileset then
    some { error := true
           logged := [.rejected (.tooManyMetatiles (readInt32 inp 0)
             (maxMetatiles cfg primaryTileset))]
           value := [] }
  else if readInt32 inp 0 < 1 then
    some { error := true, logged := [.rejected .noMetatileData], value := [] }
  else if inp.length = expectedDoubleSize (getDefaultAttributesSize version) (readInt32 inp 0) then
    readMetatilesRun inp cfg.tripleLayerMetatilesEnabled version
      (getDefaultAttributesSize version)
      (tilesOffset true primaryTileset (readInt32 inp 0))
      (attrsOffset true primaryTileset (getDefaultAttributesSize version) (readInt32 inp 0))
      (readInt32 inp 0) error
  else if inp.length ≠ expectedSingleSize (getDefaultAttributesSize version) (readInt32 inp 0)
  then
    some { error := true
           logged := [.rejected (.unexpectedFileSize
             (expectedSingleSize (getDefaultAttributesSize version) (readInt32 inp 0))
             (expectedDoubleSize (getDefaultAttributesSize version) (readInt32 inp 0))
             inp.length)]
           value := [] }
  else
    readMetatilesRun inp cfg.tripleLayerMetatilesEnabled version
      (getDefaultAttributesSize version)
      (tilesOffset false primaryTileset (readInt32 inp 0))
      (attrsOffset false primaryTileset (getDefaultAttributesSize version) (readInt32 inp 0))
      (readInt32 inp 0) error

/-- The function `AdvanceMapParser::parseMetatiles` (source lines 153 to 264) as a run
on the flag. -/
def parseMetatilesRun (file : Option QByteArray) (cfg : MetatileConfig)
    (primaryTileset : Bool) (error : Bool) : Option (Run MetatileError (List Metatile)) :=
  match file with
  | none => some { error := true, logged := [.couldNotOpen], value := [] }
  | some inp =>
    if inp.length < 9 ∨ inp.length % 2 ≠ 0 then
      some { error := true, logged := [.rejected .unexpectedSize], value := [] }
    else
      match detectVersion inp with
      | none => some { error := true, logged := [.rejected .unsupportedGameType], value := [] }
      | some version => decodeMetatilesRun inp cfg primaryTileset version error

/-- The function `AdvanceMapParser::parsePalette` (source lines 266 to 294) as a run on
the flag. -/
def parsePaletteRun (file : Option QByteArray) (error : Bool) :
    Option (Run PaletteError (List Nat)) :=
  match file with
  | none => some { error := true, logged := [.couldNotOpen], value := [] }
  | some inp =>
    if inp.length % 4 ≠ 0 then
      some { error := true, logged := [.rejected (.unexpectedFormat inp.length)], value := [] }
    else
      match readColors inp (inp.data.length + 1) 0 with
      | none => none
      | some palette => some { error := error, logged := [], value := palette }

/-- A 3-byte file: too short for a layout, for a metatile file and for a palette. -/
def threeByteFile : QByteArray := ⟨[1, 2, 3], by decide⟩

/-! ## Machine integers and bytes: basic facts -/

theorem wrap32_of_fits {x : Int} (h1 : -2147483648 ≤ x) (h2 : x < 2147483648) :
    wrap32 x = x := by
  unfold wrap32; omega

theorem wrap32_range (x : Int) : -2147483648 ≤ wrap32 x ∧ wrap32 x < 2147483648 := by
  unfold wrap32; omega

theorem QByteArray.at_lt (a : QByteArray) (k : Nat) : a.at k < 256 :=
  (a.data.getD k 0).isLt

theorem QByteArray.length_nonneg (a : QByteArray) : 0 ≤ a.length := by
  unfold QByteArray.length; omega

theorem QByteArray.length_lt (a : QByteArray) : a.length < 2147483648 := by
  have := a.size_fits_int
  unfold QByteArray.length; omega

theorem QByteArray.index_of_lt (a : QByteArray) (k : Nat) (hk : k < a.data.length) :
    a.index (k : Int) = some (a.at k) := by
  have hb : a.at k < 2 ^ 8 := a.at_lt k
  have hand : a.at k &&& 255 = a.at k := Nat.and_pow_two_sub_one_of_lt_two_pow hb
  unfold QByteArray.index QByteArray.length
  rw [if_pos ⟨by omega, by omega⟩]
  simpa [QByteArray.at] using hand

theorem QByteArray.index_of_neg (a : QByteArray) (i : Int) (hi : i < 0) : a.index i = none := by
  unfold QByteArray.index
  rw [if_neg (by omega)]

theorem QByteArray.index_of_ge (a : QByteArray) (i : Int) (hi : a.length ≤ i) :
    a.index i = none := by
  unfold QByteArray.index
  rw [if_neg (by omega)]

theorem word16_bytes {lo hi : Nat} (h1 : lo < 256) (h2 : hi < 256) :
    word16 lo hi = lo + 256 * hi := by
  unfold word16; rw [Nat.shiftLeft_eq]; omega

/-! ## The decoding loop -/

theorem wordsFrom_length (inp : QByteArray) : ∀ (n i : Nat), (wordsFrom inp i n).length = n
  | 0, _ => rfl
  | n + 1, i => by simp [wordsFrom, wordsFrom_length inp n (i + 2)]

theorem wordsFrom_get? (inp : QByteArray) :
    ∀ (n i k : Nat), k < n →
      (wordsFrom inp i n).get? k = some (inp.at (i + 2 * k) + 256 * inp.at (i + 2 * k + 1))
  | 0, _, _, hk => absurd hk (Nat.not_lt_zero _)
  | n + 1, i, 0, _ => by simp [wordsFrom]
  | n + 1, i, k + 1, hk => by
    have ih := wordsFrom_get? inp n (i + 2) k (by omega)
    have e1 : i + 2 + 2 * k = i + 2 * (k + 1) := by omega
    simp only [wordsFrom, List.get?_cons_succ]
    rw [ih, e1]

/-- Two buffers that agree below `m` store the same words below `m`. -/
theorem wordsFrom_congr (a b : QByteArray) (m : Nat)
    (hab : ∀ j, j < m → a.at j = b.at j) :
    ∀ (n i : Nat), i + 2 * n ≤ m → wordsFrom a i n = wordsFrom b i n
  | 0, _, _ => rfl
  | n + 1, i, h => by
    simp only [wordsFrom]
    rw [hab i (by omega), hab (i + 1) (by omega), wordsFrom_congr a b m hab n (i + 2) (by omega)]

/-- The loop stops at once when its condition fails at the start. -/
theorem readWords_eq_zero (inp : QByteArray) (stop : Int) (f i : Nat)
      (hstop : stop ≤ (i : Int) + 1 ∨ inp.data.length ≤ i + 1)
      (hfit : (i : Int) + 1 < 2147483648) :
      readWords inp stop (f + 1) (i : Int) = some [] := by
    have hw : wrap32 ((i : Int) + 1) = (i : Int) + 1 := wrap32_of_fits (by omega) (by omega)
    rw [readWords, hw, if_neg]
    unfold QByteArray.length; omega

/-- One step of the loop inside the buffer. -/
theorem readWords_eq_succ (inp : QByteArray) (stop : Int) (f i n : Nat) (rest : List Nat)
      (h1 : (i : Int) + 2 * (n + 1 : Nat) ≤ stop) (h2 : i + 2 * (n + 1) ≤ inp.data.length)
      (ih : readWords inp stop f ((i + 2 : Nat) : Int) = some rest) :
      readWords inp stop (f + 1) (i : Int)
        = some ((inp.at i + 256 * inp.at (i + 1)) :: rest) := by
    have hlen := inp.size_fits_int
    have hw1 : wrap32 ((i : Int) + 1) = ((i + 1 : Nat) : Int) := by
      rw [wrap32_of_fits (by omega) (by omega)]; push_cast; ring
    have hw2 : wrap32 ((i : Int) + 2) = ((i + 2 : Nat) : Int) := by
      rw [wrap32_of_fits (by omega) (by omega)]; push_cast; ring
    rw [readWords, hw1, hw2, if_pos, inp.index_of_lt i (by omega),
      inp.index_of_lt (i + 1) (by omega)]
    · simp only [ih, Option.map_some', word16_bytes (inp.at_lt i) (inp.at_lt (i + 1))]
    · unfold QByteArray.length; push_cast at h1 ⊢; omega

/-- Closed form of the loop from an index inside the buffer: it yields the `n` words
stored from `i` on, where `n` is the number of steps the loop condition allows. -/
theorem readWords_eq (inp : QByteArray) (stop : Int) (n : Nat) :
    ∀ (fuel i : Nat), n < fuel →
      (n ≠ 0 → (i : Int) + 2 * n ≤ stop ∧ i + 2 * n ≤ inp.data.length) →
      (stop ≤ (i : Int) + 2 * n + 1 ∨ inp.data.length ≤ i + 2 * n + 1) →
      (i : Int) + 2 * n + 1 < 2147483648 →
      readWords inp stop fuel (i : Int) = some (wordsFrom inp i n) := by
  induction n with
  | zero =>
    intro fuel i hf _ hstop hfit
    obtain ⟨f, rfl⟩ : ∃ f, fuel = f + 1 := ⟨fuel - 1, by omega⟩
    exact readWords_eq_zero inp stop f i (by omega) (by omega)
  | succ n ih =>
    intro fuel i hf hin hstop hfit
    obtain ⟨f, rfl⟩ : ∃ f, fuel = f + 1 := ⟨fuel - 1, by omega⟩
    obtain ⟨h1, h2⟩ := hin (Nat.succ_ne_zero n)
    have ih2 := ih f (i + 2) (by omega)
      (fun _ => ⟨by push_cast at h1 ⊢; omega, by omega⟩)
      (by push_cast at hstop ⊢; omega) (by push_cast at hfit ⊢; omega)
    exact readWords_eq_succ inp stop f i n _ h1 h2 ih2

/-- One more step of the bound changes nothing once the bound covers the steps that
remain: at a negative index the loop stops or leaves the buffer at once, and from an
index `i >= 0` it makes at most `(length - i) / 2` steps. -/
theorem readWords_stable (inp : QByteArray) (stop : Int) (fuel : Nat) :
    ∀ (i : Int), -2147483648 ≤ i → i < 2147483648 → 1 ≤ fuel →
      (0 ≤ i → ((inp.length - i) / 2).toNat + 1 ≤ fuel) →
      readWords inp stop (fuel + 1) i = readWords inp stop fuel i := by
  induction fuel with
  | zero => intro i _ _ h1 _; omega
  | succ f ih =>
    intro i hlo hhi _ hf
    have hlen := inp.length_lt
    have hlen0 := inp.length_nonneg
    rw [readWords, readWords.eq_def inp stop (f + 1) i]
    by_cases hc : wrap32 (i + 1) < stop ∧ wrap32 (i + 1) < inp.length
    · simp only [if_pos hc]
      by_cases hneg : i < 0
      · rw [inp.index_of_neg i hneg]
      · by_cases hbig : inp.length ≤ i
        · rw [inp.index_of_ge i hbig]
        · have hw1 : wrap32 (i + 1) = i + 1 := wrap32_of_fits (by omega) (by omega)
          have hlt : i + 1 < inp.length := by rw [hw1] at hc; exact hc.2
          have hw2 : wrap32 (i + 2) = i + 2 := wrap32_of_fits (by omega) (by omega)
          have hfi := hf (by omega)
          rw [hw2, ih (i + 2) (by omega) (by omega) (by omega) (fun _ => by omega)]
    · simp only [if_neg hc]

/-- The bound on the number of steps is never the reason the loop stops: from the
length plus one on, a larger bound gives the same result, whatever the start index. -/
theorem readWords_enough (inp : QByteArray) (stop : Int) (fuel : Nat) (i : Int)
    (hlo : -2147483648 ≤ i) (hhi : i < 2147483648) (hfuel : inp.data.length + 1 ≤ fuel) :
    readWords inp stop (fuel + 1) i = readWords inp stop fuel i := by
  apply readWords_stable inp stop fuel i hlo hhi (by omega)
  intro h0
  unfold QByteArray.length
  omega

/-! ## Accepted inputs -/

/-- What an accepted run went through: both size checks passed, both loops stayed
inside the buffer, and the layout is the one assembled from their words. -/
theorem parseLayout_ok {inp : QByteArray} {project : Project} {l : Layout}
    (hok : parseLayout inp project = .ok l) :
    20 ≤ inp.length ∧ inp.length % 2 = 0 ∧ (readHeader inp).mapDataEnd ≤ inp.length ∧
    ∃ blockdata border,
      readWords inp (readHeader inp).mapDataEnd (inp.data.length + 1)
        (readHeader inp).mapDataOffset = some blockdata ∧
      readBorder inp (readHeader inp) (locateBorder inp (readHeader inp)) = some border ∧
      l = buildLayout (readHeader inp) (locateBorder inp (readHeader inp)) project
        blockdata border := by
  unfold parseLayout at hok
  by_cases h1 : inp.length < 20 ∨ inp.length % 2 ≠ 0
  · rw [if_pos h1] at hok; cases hok
  · rw [if_neg h1] at hok
    by_cases h2 : inp.length < (readHeader inp).mapDataEnd
    · rw [if_pos h2] at hok; cases hok
    · rw [if_neg h2] at hok
      refine ⟨by omega, by omega, by omega, ?_⟩
      generalize readWords inp (readHeader inp).mapDataEnd (inp.data.length + 1)
          (readHeader inp).mapDataOffset = rb at hok ⊢
      generalize readBorder inp (readHeader inp) (locateBorder inp (readHeader inp)) = rbd
        at hok ⊢
      cases rb with
      | none => cases hok
      | some blockdata =>
        cases rbd with
        | none => cases hok
        | some border =>
          exact ⟨blockdata, border, rfl, rfl, (Outcome.ok.inj hok).symm⟩

/-- An accepted run from the parts it went through. -/
theorem parseLayout_of_parts {inp : QByteArray} {project : Project} {blockdata border : List Nat}
    (h1 : 20 ≤ inp.length) (h2 : inp.length % 2 = 0)
    (h3 : (readHeader inp).mapDataEnd ≤ inp.length)
    (hb : readWords inp (readHeader inp).mapDataEnd (inp.data.length + 1)
        (readHeader inp).mapDataOffset = some blockdata)
    (hbd : readBorder inp (readHeader inp) (locateBorder inp (readHeader inp)) = some border) :
    parseLayout inp project =
      .ok (buildLayout (readHeader inp) (locateBorder inp (readHeader inp)) project
        blockdata border) := by
  rw [parseLayout, if_neg (by omega), if_neg (by omega), hb, hbd]

theorem or_shift8_bytes {lo : Nat} (hi : Nat) (h1 : lo < 256) :
    lo ||| (hi <<< 8) = lo + 256 * hi := by
  have h := Nat.mul_add_lt_is_or (i := 8) (b := lo) (by simpa using h1) hi
  rw [Nat.lor_comm, Nat.shiftLeft_eq, Nat.mul_comm hi, ← h]
  omega

/-! ## The header and the format-variant branch -/

theorem rseCandidate_borderWidthLE (inp : QByteArray) :
    (rseCandidate inp).borderWidthLE = (tailBorderWidth inp : Int) := by
  show ((inp.at (inp.data.length - 4) ||| (inp.at (inp.data.length - 3) <<< 8) : Nat) : Int) = _
  rw [or_shift8_bytes _ (inp.at_lt _)]
  rfl

theorem rseCandidate_borderHeightLE (inp : QByteArray) :
    (rseCandidate inp).borderHeightLE = (tailBorderHeight inp : Int) := by
  show ((inp.at (inp.data.length - 2) ||| (inp.at (inp.data.length - 1) <<< 8) : Nat) : Int) = _
  rw [or_shift8_bytes _ (inp.at_lt _)]
  rfl

theorem tailBorderWidth_lt (inp : QByteArray) : tailBorderWidth inp < 65536 := by
  have h1 := inp.at_lt (inp.data.length - 4)
  have h2 := inp.at_lt (inp.data.length - 3)
  unfold tailBorderWidth; omega

theorem tailBorderHeight_lt (inp : QByteArray) : tailBorderHeight inp < 65536 := by
  have h1 := inp.at_lt (inp.data.length - 2)
  have h2 := inp.at_lt (inp.data.length - 1)
  unfold tailBorderHeight; omega

theorem readHeader_borderWidth (inp : QByteArray) :
    (readHeader inp).borderWidth = (inp.at 16 : Int) := rfl

theorem readHeader_borderHeight (inp : QByteArray) :
    (readHeader inp).borderHeight = (inp.at 17 : Int) := rfl

theorem locateBorder_unfold (inp : QByteArray) (h : Header) :
    locateBorder inp h =
      if h.numBorderTiles = 0 then
        if inp.length ≥ wrap32 (h.mapDataEnd + 4) then
          if (rseCandidate inp).borderOffset ≥ wrap32 (h.mapDataOffset + h.baseMapSize) then
            { doubleMap := decide ((rseCandidate inp).borderOffset
                ≥ wrap32 (h.mapDataOffset + wrap32 (h.baseMapSize * 2))),
              rseBorderOffset := (rseCandidate inp).borderOffset,
              borderWidth := (rseCandidate inp).borderWidthLE,
              borderHeight := (rseCandidate inp).borderHeightLE,
              numBorderTiles := (rseCandidate inp).rseNumBorderTiles,
              baseBorderSize := (rseCandidate inp).rseBorderSize }
          else
            { doubleMap := false, rseBorderOffset := -1, borderWidth := h.borderWidth,
              borderHeight := h.borderHeight, numBorderTiles := h.numBorderTiles,
              baseBorderSize := h.baseBorderSize }
        else
          { doubleMap := false, rseBorderOffset := -1, borderWidth := h.borderWidth,
            borderHeight := h.borderHeight, numBorderTiles := h.numBorderTiles,
            baseBorderSize := h.baseBorderSize }
      else
        { doubleMap := decide (inp.length ≥ wrap32 (h.mapDataOffset + wrap32 (h.baseMapSize * 2))),
          rseBorderOffset := -1, borderWidth := h.borderWidth,
          borderHeight := h.borderHeight, numBorderTiles := h.numBorderTiles,
          baseBorderSize := h.baseBorderSize } := rfl

/-- The branch leaves the header values in place unless the candidate is accepted. -/
theorem locateBorder_of_not_accepted (inp : QByteArray) (h : ¬ rseAccepted inp) :
    (locateBorder inp (readHeader inp)).borderWidth = (inp.at 16 : Int)
    ∧ (locateBorder inp (readHeader inp)).borderHeight = (inp.at 17 : Int)
    ∧ (locateBorder inp (readHeader inp)).numBorderTiles = (readHeader inp).numBorderTiles
    ∧ (locateBorder inp (readHeader inp)).baseBorderSize = (readHeader inp).baseBorderSize := by
  unfold rseAccepted at h
  rw [locateBorder_unfold]
  by_cases h1 : (readHeader inp).numBorderTiles = 0
  · rw [if_pos h1]
    by_cases h2 : inp.length ≥ wrap32 ((readHeader inp).mapDataEnd + 4)
    · rw [if_pos h2]
      by_cases h3 : (rseCandidate inp).borderOffset
          ≥ wrap32 ((readHeader inp).mapDataOffset + (readHeader inp).baseMapSize)
      · exact absurd ⟨h1, h2, h3⟩ h
      · rw [if_neg h3]
        exact ⟨readHeader_borderWidth inp, readHeader_borderHeight inp, rfl, rfl⟩
    · rw [if_neg h2]
      exact ⟨readHeader_borderWidth inp, readHeader_borderHeight inp, rfl, rfl⟩
  · rw [if_neg h1]
    exact ⟨readHeader_borderWidth inp, readHeader_borderHeight inp, rfl, rfl⟩

/-- The branch takes over the candidate's values when the candidate is accepted. -/
theorem locateBorder_of_accepted (inp : QByteArray) (h : rseAccepted inp) :
    (locateBorder inp (readHeader inp)).borderWidth = (tailBorderWidth inp : Int)
    ∧ (locateBorder inp (readHeader inp)).borderHeight = (tailBorderHeight inp : Int)
    ∧ (locateBorder inp (readHeader inp)).numBorderTiles = (rseCandidate inp).rseNumBorderTiles
    ∧ (locateBorder inp (readHeader inp)).baseBorderSize = (rseCandidate inp).rseBorderSize
    ∧ (locateBorder inp (readHeader inp)).rseBorderOffset = (rseCandidate inp).borderOffset := by
  obtain ⟨h1, h2, h3⟩ := h
  rw [locateBorder_unfold, if_pos h1, if_pos h2, if_pos h3]
  exact ⟨rseCandidate_borderWidthLE inp, rseCandidate_borderHeightLE inp, rfl, rfl, rfl⟩

/-! ## Tileset labels -/

theorem resolveTilesetLabel_eq_spec (ordered slotLabels : List String) (index : Int)
    (dflt : String) :
    resolveTilesetLabel ordered slotLabels index dflt
      = specTilesetLabel ordered slotLabels index dflt := by
  by_cases h0 : 0 ≤ index
  · by_cases hlt : index < (ordered.length : Int)
    · have hn : index.toNat < ordered.length := by omega
      have hv : listValue ordered index dflt = ordered[index.toNat] := by
        unfold listValue
        rw [if_pos ⟨h0, hlt⟩, List.getD_eq_getElem ordered dflt hn]
      unfold resolveTilesetLabel specTilesetLabel
      rw [hv, if_pos h0, List.get?_eq_get hn]
      by_cases hm : ordered[index.toNat] ∈ slotLabels <;> simp [hm]
    · have hn : ordered.length ≤ index.toNat := by omega
      have hv : listValue ordered index dflt = dflt := by
        unfold listValue
        rw [if_neg (fun h => hlt h.2)]
      unfold resolveTilesetLabel specTilesetLabel
      rw [hv, if_pos h0, List.get?_eq_none.mpr hn]
      simp
  · have hv : listValue ordered index dflt = dflt := by
      unfold listValue
      rw [if_neg (fun h => h0 h.1)]
    unfold resolveTilesetLabel specTilesetLabel
    rw [hv, if_neg h0]
    simp

/-! ## Claims on the tileset labels and the border dimensions -/

/-- C9. Tileset label resolution in `parseLayout`: in each slot the returned label is
the registry's ordered label at the header's index when that index is in range and the
label belongs to the slot's label set, and the registry's default for the slot in every
other case (index negative or out of range, or label not in the slot's set). -/
theorem parseLayout_tileset_labels (inp : QByteArray) (project : Project) (l : Layout)
    (hok : parseLayout inp project = .ok l) :
    l.tileset_primary_label
        = specTilesetLabel project.tilesetLabelsOrdered project.primaryTilesetLabels
            (readInt32 inp 8) project.defaultPrimaryTilesetLabel
    ∧ l.tileset_secondary_label
        = specTilesetLabel project.tilesetLabelsOrdered project.secondaryTilesetLabels
            (readInt32 inp 12) project.defaultSecondaryTilesetLabel := by
  obtain ⟨_, _, _, blockdata, border, _, _, hl⟩ := parseLayout_ok hok
  subst hl
  exact ⟨resolveTilesetLabel_eq_spec _ _ _ _, resolveTilesetLabel_eq_spec _ _ _ _⟩

/-- C9, on a file whose primary index points at the secondary tileset and whose
secondary index points at the primary one: both slots receive their defaults. -/
theorem parseLayout_tileset_labels_witness :
    parseLayout swappedTilesetFile sampleProject
        = .ok ⟨0, 0, 2, 2, "gTileset_General", "gTileset_Petalburg", [], []⟩
    ∧ "gTileset_General"
        = specTilesetLabel sampleProject.tilesetLabelsOrdered sampleProject.primaryTilesetLabels
            (readInt32 swappedTilesetFile 8) sampleProject.defaultPrimaryTilesetLabel
    ∧ "gTileset_Petalburg"
        = specTilesetLabel sampleProject.tilesetLabelsOrdered
            sampleProject.secondaryTilesetLabels
            (readInt32 swappedTilesetFile 12) sampleProject.defaultSecondaryTilesetLabel :=
  ⟨by decide,
    parseLayout_tileset_labels swappedTilesetFile sampleProject
      ⟨0, 0, 2, 2, "gTileset_General", "gTileset_Petalburg", [], []⟩ (by decide)⟩

/-- The border width assigned by the format-variant branch is the effective one. -/
theorem locateBorder_borderWidth (inp : QByteArray) :
    (locateBorder inp (readHeader inp)).borderWidth = effectiveBorderWidth inp := by
  unfold effectiveBorderWidth
  by_cases h : rseAccepted inp
  · rw [if_pos h]; exact (locateBorder_of_accepted inp h).1
  · rw [if_neg h]; exact (locateBorder_of_not_accepted inp h).1

/-- The border height assigned by the format-variant branch is the effective one. -/
theorem locateBorder_borderHeight (inp : QByteArray) :
    (locateBorder inp (readHeader inp)).borderHeight = effectiveBorderHeight inp := by
  unfold effectiveBorderHeight
  by_cases h : rseAccepted inp
  · rw [if_pos h]; exact (locateBorder_of_accepted inp h).2.1
  · rw [if_neg h]; exact (locateBorder_of_not_accepted inp h).2.1

theorem buildLayout_border_width (h : Header) (v : BorderVars) (project : Project)
    (blockdata border : List Nat) :
    (buildLayout h v project blockdata border).border_width
      = if v.borderWidth = 0 then 2 else v.borderWidth := rfl

theorem buildLayout_border_height (h : Header) (v : BorderVars) (project : Project)
    (blockdata border : List Nat) :
    (buildLayout h v project blockdata border).border_height
      = if v.borderHeight = 0 then 2 else v.borderHeight := rfl

theorem buildLayout_blockdata (h : Header) (v : BorderVars) (project : Project)
    (blockdata border : List Nat) :
    (buildLayout h v project blockdata border).blockdata = blockdata := rfl

theorem buildLayout_border (h : Header) (v : BorderVars) (project : Project)
    (blockdata border : List Nat) :
    (buildLayout h v project blockdata border).border = border := by
  cases border <;> rfl

/-- C10. For every accepted buffer the returned `border_width` is the effective border
width (the tail value when the trailing-border candidate was accepted, header byte 16
otherwise) when that is non-zero and 2 when it is zero; likewise `border_height` with
the tail height, header byte 17 and 2. -/
theorem parseLayout_border_dimensions (inp : QByteArray) (project : Project) (l : Layout)
    (hok : parseLayout inp project = .ok l) :
    l.border_width
        = (if effectiveBorderWidth inp = 0 then 2 else effectiveBorderWidth inp)
    ∧ l.border_height
        = (if effectiveBorderHeight inp = 0 then 2 else effectiveBorderHeight inp) := by
  obtain ⟨_, _, _, blockdata, border, _, _, hl⟩ := parseLayout_ok hok
  subst hl
  rw [buildLayout_border_width, buildLayout_border_height, locateBorder_borderWidth,
    locateBorder_borderHeight]
  exact ⟨rfl, rfl⟩

/-- C10, on a file whose header declares a border 3 wide and 0 high and whose tail is
not accepted: the width 3 is kept and the height becomes 2. -/
theorem parseLayout_border_dimensions_witness :
    parseLayout halfBorderFile sampleProject
        = .ok ⟨0, 0, 3, 2, "gTileset_General", "gTileset_Petalburg", [], []⟩
    ∧ (3 : Int) = (if effectiveBorderWidth halfBorderFile = 0 then 2
        else effectiveBorderWidth halfBorderFile)
    ∧ (2 : Int) = (if effectiveBorderHeight halfBorderFile = 0 then 2
        else effectiveBorderHeight halfBorderFile) :=
  ⟨by decide,
    parseLayout_border_dimensions halfBorderFile sampleProject
      ⟨0, 0, 3, 2, "gTileset_General", "gTileset_Petalburg", [], []⟩ (by decide)⟩

/-! ## The size checks on headers they were not written for -/

/-- C1. On the 20-byte file with width word `0xFFFFFFFF` and height word 1 the decoder
returns a layout, although the file is shorter than
`20 + 2*borderWidth*borderHeight + 2*width*height`: the claimed acceptance condition
fails and the file is accepted all the same. -/
theorem parseLayout_accepts_negative_width :
    parseLayout negativeWidthFile sampleProject
        = .ok ⟨-1, 1, 2, 2, "gTileset_General", "gTileset_Petalburg", [], []⟩
    ∧ specMapDataEnd negativeWidthFile = 8589934610
    ∧ ¬ specAccepts negativeWidthFile := by
  refine ⟨by decide, by decide, ?_⟩
  unfold specAccepts
  decide

/-- With the header words read as signed values the same condition fails in the other
direction: this 24-byte file satisfies it and the run indexes outside the buffer. -/
theorem parseLayout_faults_on_negative_offset :
    parseLayout negativeOffsetFile sampleProject = .fault
    ∧ exactMapDataEnd negativeOffsetFile = -180 := by
  exact ⟨by decide, by decide⟩

/-- C2. On the 20-byte file with width word `0xFFFFFFFE` and height word 3 the decoder
returns a layout of width -2 and height 3 with no blockdata: the blockdata does not
have `width*height` entries. -/
theorem parseLayout_negative_area_blockdata :
    ∃ l, parseLayout negativeAreaFile sampleProject = .ok l
      ∧ l.width * l.height = -6 ∧ l.blockdata.length = 0 :=
  ⟨⟨-2, 3, 2, 2, "gTileset_General", "gTileset_Petalburg", [], []⟩,
    by decide, by decide, by decide⟩

/-- C3. On the 24-byte file with a 2 by 2 header border, width word `0xFFFFFFFF` and
height 2 the decoder returns a border of two entries with `border_width = 2` and
`border_height = 2`: a partial border. -/
theorem parseLayout_incomplete_border :
    ∃ l, parseLayout shortBorderFile sampleProject = .ok l
      ∧ l.border = [1, 2] ∧ l.border_width * l.border_height = 4 :=
  ⟨⟨-1, 2, 2, 2, "gTileset_General", "gTileset_Petalburg", [], [1, 2]⟩,
    by decide, by decide, by decide⟩

/-- C4. On the 22-byte file with a 1 by 1 header border, width 8 and height 134217727
(so that `width*height*2 = 2147483632` fits a 32-bit `int` and `mapDataEnd` does not)
the decoder returns a layout with no blockdata, not `width*height` entries. -/
theorem parseLayout_wrapped_end_blockdata :
    ∃ l, parseLayout wrappedEndFile sampleProject = .ok l
      ∧ wrappedEndFile.at 16 ≠ 0 ∧ wrappedEndFile.at 17 ≠ 0
      ∧ 0 ≤ (readHeader wrappedEndFile).mapWidth ∧ 0 ≤ (readHeader wrappedEndFile).mapHeight
      ∧ (readHeader wrappedEndFile).mapWidth * (readHeader wrappedEndFile).mapHeight * 2
          < 2147483648
      ∧ l.width * l.height = 1073741816 ∧ l.blockdata = [] :=
  ⟨⟨8, 134217727, 1, 1, "gTileset_General", "gTileset_Petalburg", [], [9]⟩,
    by decide, by decide, by decide, by decide, by decide, by decide, by decide, by decide⟩

/-- C6, as stated, fails on the 24-byte file of zeros: the file has four bytes past
`mapDataEnd = 20`, its tail values are 0 and 0, the candidate offset
`24 - (0*0*2 + 4) = 20` is not below `mapDataEnd`, and the layout has no border. -/
theorem parseLayout_zero_tail_no_border :
    ∃ l, parseLayout zeroTailFile sampleProject = .ok l
      ∧ zeroTailFile.at 16 * zeroTailFile.at 17 = 0
      ∧ 0 ≤ (readHeader zeroTailFile).mapWidth ∧ 0 ≤ (readHeader zeroTailFile).mapHeight
      ∧ exactMapDataEnd zeroTailFile + 4 ≤ zeroTailFile.length
      ∧ exactMapDataEnd zeroTailFile ≤ exactRseBorderOffset zeroTailFile
      ∧ l.border = [] :=
  ⟨⟨0, 0, 2, 2, "gTileset_General", "gTileset_Petalburg", [], []⟩,
    by decide, by decide, by decide, by decide, by decide, by decide, by decide⟩

/-- C7. On the 28-byte file with an empty map and the tail values 54161 and 39650 the
candidate offset `28 - (54161*39650*2 + 4)` is far below `mapDataEnd = 20`, and the
decoder returns a border of two entries. -/
theorem parseLayout_wrapped_tail_border :
    ∃ l, parseLayout wrappedTailFile sampleProject = .ok l
      ∧ wrappedTailFile.at 16 * wrappedTailFile.at 17 = 0
      ∧ 0 ≤ (readHeader wrappedTailFile).mapWidth ∧ 0 ≤ (readHeader wrappedTailFile).mapHeight
      ∧ exactMapDataEnd wrappedTailFile = 20
      ∧ exactRseBorderOffset wrappedTailFile = -4294967276
      ∧ l.border = [1, 2] :=
  ⟨⟨0, 0, 54161, 39650, "gTileset_General", "gTileset_Petalburg", [], [1, 2]⟩,
    by decide, by decide, by decide, by decide, by decide, by decide, by decide⟩

/-- C8. On the 20-byte file with width 65536 and height 65536 the decoder returns a
layout with no blockdata at all, so entry 0, although `0 < width*height`, is not the
word at `off = 20`. -/
theorem parseLayout_wrapped_area_blockdata :
    ∃ l, parseLayout wrappedAreaFile sampleProject = .ok l
      ∧ 0 ≤ (readHeader wrappedAreaFile).mapWidth ∧ 0 ≤ (readHeader wrappedAreaFile).mapHeight
      ∧ l.width * l.height = 4294967296
      ∧ l.blockdata.get? 0 = none :=
  ⟨⟨65536, 65536, 2, 2, "gTileset_General", "gTileset_Petalburg", [], []⟩,
    by decide, by decide, by decide, by decide, by decide⟩

/-! ## The header in exact arithmetic -/

theorem readHeader_mapDataEnd (inp : QByteArray) :
    (readHeader inp).mapDataEnd
      = wrap32 ((readHeader inp).mapDataOffset
          + wrap32 (wrap32 ((readHeader inp).mapWidth * (readHeader inp).mapHeight) * 2)) := rfl

theorem readHeader_baseMapSize (inp : QByteArray) :
    (readHeader inp).baseMapSize
      = wrap32 (wrap32 ((readHeader inp).mapWidth * (readHeader inp).mapHeight) * 2) := rfl

theorem readHeader_numBorderTiles (inp : QByteArray) :
    (readHeader inp).numBorderTiles = wrap32 (((inp.at 16 : Nat) : Int) * ((inp.at 17 : Nat) : Int)) :=
  rfl

theorem readHeader_mapDataOffset (inp : QByteArray) :
    (readHeader inp).mapDataOffset
      = wrap32 (20 + wrap32 ((readHeader inp).numBorderTiles * 2)) := rfl

theorem readHeader_baseBorderSize (inp : QByteArray) :
    (readHeader inp).baseBorderSize = wrap32 ((readHeader inp).numBorderTiles * 2) := rfl

theorem header_border_bytes_le (inp : QByteArray) : inp.at 16 * inp.at 17 ≤ 65025 := by
  have h1 := inp.at_lt 16
  have h2 := inp.at_lt 17
  calc inp.at 16 * inp.at 17 ≤ 255 * 255 := Nat.mul_le_mul (by omega) (by omega)
    _ = 65025 := rfl

/-- The border part of the header never leaves the range of an `int`: the three
border quantities are the exact ones. -/
theorem readHeader_border (inp : QByteArray) :
    (readHeader inp).numBorderTiles = ((inp.at 16 * inp.at 17 : Nat) : Int)
    ∧ (readHeader inp).mapDataOffset = ((20 + 2 * (inp.at 16 * inp.at 17) : Nat) : Int)
    ∧ (readHeader inp).baseBorderSize = ((2 * (inp.at 16 * inp.at 17) : Nat) : Int) := by
  have hx := header_border_bytes_le inp
  have h1 : (readHeader inp).numBorderTiles = ((inp.at 16 * inp.at 17 : Nat) : Int) := by
    rw [readHeader_numBorderTiles, ← Nat.cast_mul]
    exact wrap32_of_fits (by omega) (by omega)
  refine ⟨h1, ?_, ?_⟩
  · rw [readHeader_mapDataOffset, h1]
    generalize inp.at 16 * inp.at 17 = x at hx
    unfold wrap32; push_cast; omega
  · rw [readHeader_baseBorderSize, h1]
    generalize inp.at 16 * inp.at 17 = x at hx
    unfold wrap32; push_cast; omega

theorem exactMapDataEnd_eq (inp : QByteArray) :
    exactMapDataEnd inp
      = ((20 + 2 * (inp.at 16 * inp.at 17) : Nat) : Int)
        + 2 * ((readHeader inp).mapWidth * (readHeader inp).mapHeight) := by
  unfold exactMapDataEnd; push_cast; ring

/-- With a non-negative width and height the computed `mapDataEnd` never exceeds the
exact one. -/
theorem mapDataEnd_le_exact (inp : QByteArray)
    (hw : 0 ≤ (readHeader inp).mapWidth) (hh : 0 ≤ (readHeader inp).mapHeight) :
    (readHeader inp).mapDataEnd ≤ exactMapDataEnd inp := by
  have hy := mul_nonneg hw hh
  have hx := header_border_bytes_le inp
  rw [readHeader_mapDataEnd, exactMapDataEnd_eq, (readHeader_border inp).2.1]
  generalize (readHeader inp).mapWidth * (readHeader inp).mapHeight = y at hy
  generalize inp.at 16 * inp.at 17 = x at hx
  unfold wrap32; push_cast; omega

/-- With a non-negative width and height and an exact `mapDataEnd` that fits an `int`,
the map part of the header is exact as well. -/
theorem readHeader_map_exact (inp : QByteArray)
    (hw : 0 ≤ (readHeader inp).mapWidth) (hh : 0 ≤ (readHeader inp).mapHeight)
    (hfit : exactMapDataEnd inp < 2147483648) :
    (readHeader inp).baseMapSize = 2 * ((readHeader inp).mapWidth * (readHeader inp).mapHeight)
    ∧ (readHeader inp).mapDataEnd = exactMapDataEnd inp := by
  have hy := mul_nonneg hw hh
  have hx := header_border_bytes_le inp
  rw [readHeader_mapDataEnd, readHeader_baseMapSize, (readHeader_border inp).2.1]
  rw [exactMapDataEnd_eq] at hfit ⊢
  generalize (readHeader inp).mapWidth * (readHeader inp).mapHeight = y at hy hfit ⊢
  generalize inp.at 16 * inp.at 17 = x at hx hfit ⊢
  unfold wrap32; push_cast at hfit ⊢; omega

/-! ## The blockdata of an accepted file -/

/-- The blockdata loop never leaves the buffer: for a file that passed both size checks
it yields the words stored from `mapDataOffset` up to `mapDataEnd`. -/
theorem readWords_blockdata (inp : QByteArray) (h1 : 20 ≤ inp.length)
    (h2 : inp.length % 2 = 0) (h3 : (readHeader inp).mapDataEnd ≤ inp.length) :
    readWords inp (readHeader inp).mapDataEnd (inp.data.length + 1)
        (readHeader inp).mapDataOffset
      = some (wordsFrom inp (20 + 2 * (inp.at 16 * inp.at 17))
          (((readHeader inp).mapDataEnd
            - ((20 + 2 * (inp.at 16 * inp.at 17) : Nat) : Int)) / 2).toNat) := by
  have hx := header_border_bytes_le inp
  have hlen := inp.size_fits_int
  rw [(readHeader_border inp).2.1]
  unfold QByteArray.length at h1 h2 h3
  generalize (readHeader inp).mapDataEnd = e at h3 ⊢
  generalize inp.at 16 * inp.at 17 = x at hx ⊢
  apply readWords_eq
  · omega
  · intro hn; push_cast at hn ⊢; omega
  · push_cast; omega
  · push_cast; omega

/-! ## The header-border variant -/

theorem QByteArray.eq_of_data {a b : QByteArray} (h : a.data = b.data) : a = b := by
  cases a; cases b; cases h; rfl

theorem at_eq_of_take {a b : QByteArray} {m : Nat} (h : a.data.take m = b.data.take m) :
    ∀ j, j < m → a.at j = b.at j := by
  intro j hj
  have e : (a.data.take m)[j]? = (b.data.take m)[j]? := by rw [h]
  rw [List.getElem?_take, List.getElem?_take, if_pos hj, if_pos hj] at e
  unfold QByteArray.at
  rw [List.getD_eq_getElem?_getD, List.getD_eq_getElem?_getD, e]

theorem readInt32_congr {a b : QByteArray} (o : Nat)
    (h : ∀ j, j < o + 4 → a.at j = b.at j) : readInt32 a o = readInt32 b o := by
  unfold readInt32
  rw [h o (by omega), h (o + 1) (by omega), h (o + 2) (by omega), h (o + 3) (by omega)]

theorem readHeader_congr {a b : QByteArray} (h : ∀ j, j < 20 → a.at j = b.at j) :
    readHeader a = readHeader b := by
  have e0 : readInt32 a 0 = readInt32 b 0 := readInt32_congr 0 (fun j hj => h j (by omega))
  have e4 : readInt32 a 4 = readInt32 b 4 := readInt32_congr 4 (fun j hj => h j (by omega))
  have e8 : readInt32 a 8 = readInt32 b 8 := readInt32_congr 8 (fun j hj => h j (by omega))
  have e12 : readInt32 a 12 = readInt32 b 12 :=
    readInt32_congr 12 (fun j hj => h j (by omega))
  unfold readHeader
  rw [e0, e4, e8, e12, h 16 (by omega), h 17 (by omega)]

/-- With a border in the header the branch keeps the header values. -/
theorem locateBorder_header_border (inp : QByteArray) (h : Header) (hn : h.numBorderTiles ≠ 0) :
    (locateBorder inp h).borderWidth = h.borderWidth
    ∧ (locateBorder inp h).borderHeight = h.borderHeight
    ∧ (locateBorder inp h).numBorderTiles = h.numBorderTiles
    ∧ (locateBorder inp h).baseBorderSize = h.baseBorderSize := by
  rw [locateBorder_unfold, if_neg hn]
  exact ⟨rfl, rfl, rfl, rfl⟩

theorem borderOffset_header_border (h : Header) (v : BorderVars) (hne : ¬ h.mapDataOffset = 20) :
    borderOffset h v = 20 := by
  unfold borderOffset
  rw [if_neg hne]

/-- With a border in the header the border loop never leaves the buffer: it yields the
words stored from byte 20 up to the end of the header border or of the file. -/
theorem readBorder_header_border (inp : QByteArray) (h1 : 20 ≤ inp.length)
    (h2 : inp.length % 2 = 0) (hn : inp.at 16 * inp.at 17 ≠ 0) :
    readBorder inp (readHeader inp) (locateBorder inp (readHeader inp))
      = some (wordsFrom inp 20
          (min (inp.at 16 * inp.at 17) ((inp.data.length - 20) / 2))) := by
  have hx := header_border_bytes_le inp
  have hlen := inp.size_fits_int
  obtain ⟨hnum, hoff, hsize⟩ := readHeader_border inp
  have hn0 : (readHeader inp).numBorderTiles ≠ 0 := by
    rw [hnum]; exact_mod_cast hn
  obtain ⟨_, _, hvn, hvs⟩ := locateBorder_header_border inp (readHeader inp) hn0
  have hne : ¬ (readHeader inp).mapDataOffset = 20 := by
    rw [hoff]
    generalize inp.at 16 * inp.at 17 = x at hn
    push_cast; omega
  have e20 : ((20 : Nat) : Int) = 20 := rfl
  unfold readBorder
  rw [if_pos (by rw [hvn]; exact hn0), borderOffset_header_border _ _ hne, hvs, hsize, ← e20]
  unfold QByteArray.length at h1 h2
  generalize inp.at 16 * inp.at 17 = x at hx hn ⊢
  have e : wrap32 (((20 : Nat) : Int) + ((2 * x : Nat) : Int)) = 20 + 2 * (x : Int) := by
    unfold wrap32; push_cast; omega
  rw [e]
  apply readWords_eq
  · omega
  · intro hk; push_cast; omega
  · push_cast; omega
  · push_cast; omega

theorem buildLayout_congr (h : Header) (v w : BorderVars) (project : Project)
    (blockdata border : List Nat) (h1 : v.borderWidth = w.borderWidth)
    (h2 : v.borderHeight = w.borderHeight) :
    buildLayout h v project blockdata border = buildLayout h w project blockdata border := by
  unfold buildLayout
  rw [h1, h2]

/-- Two buffers one of which ends before `m` and which agree on their first `m` bytes
are the same buffer. -/
theorem eq_of_take_of_short {a b : QByteArray} {m : Nat}
    (h : a.data.take m = b.data.take m) (hs : ¬ (m ≤ a.data.length ∧ m ≤ b.data.length)) :
    a = b := by
  apply QByteArray.eq_of_data
  have hl : (a.data.take m).length = (b.data.take m).length := by rw [h]
  rw [List.length_take, List.length_take] at hl
  have ha : a.data.length ≤ m := by omega
  have hb : b.data.length ≤ m := by omega
  rw [List.take_of_length_le ha, List.take_of_length_le hb] at h
  exact h

/-- C5. For header-border inputs the bytes after the first map copy never affect the
result: two accepted buffers, the first with non-zero header border width and height
and a non-negative header width and height, that agree on their first `mapDataEnd`
bytes (`mapDataEnd = 20 + 2*borderWidth*borderHeight + 2*width*height`) decode, with
the same tileset registry, to the same layout, whatever follows. -/
theorem parseLayout_ignores_bytes_after_map (a b : QByteArray) (project : Project)
    (la lb : Layout)
    (ha : parseLayout a project = .ok la) (hb : parseLayout b project = .ok lb)
    (hbw : a.at 16 ≠ 0) (hbh : a.at 17 ≠ 0)
    (hw : 0 ≤ (readHeader a).mapWidth) (hh : 0 ≤ (readHeader a).mapHeight)
    (hpre : a.data.take (exactMapDataEnd a).toNat = b.data.take (exactMapDataEnd a).toNat) :
    la = lb := by
  by_cases hlen : (exactMapDataEnd a).toNat ≤ a.data.length
      ∧ (exactMapDataEnd a).toNat ≤ b.data.length
  · obtain ⟨a1, a2, a3, bda, bra, hbda, hbra, hla⟩ := parseLayout_ok ha
    obtain ⟨b1, b2, b3, bdb, brb, hbdb, hbrb, hlb⟩ := parseLayout_ok hb
    have hab := at_eq_of_take hpre
    have hx := header_border_bytes_le a
    have hxn : a.at 16 * a.at 17 ≠ 0 := Nat.mul_ne_zero hbw hbh
    have hy := mul_nonneg hw hh
    have hle := mapDataEnd_le_exact a hw hh
    have hex := exactMapDataEnd_eq a
    have hM : 20 + 2 * (a.at 16 * a.at 17) ≤ (exactMapDataEnd a).toNat := by
      clear * - hy hex
      generalize (readHeader a).mapWidth * (readHeader a).mapHeight = y at hy hex
      generalize a.at 16 * a.at 17 = x at hex ⊢
      generalize exactMapDataEnd a = m at hex ⊢
      omega
    have hM16 : 20 ≤ (exactMapDataEnd a).toNat := by
      clear * - hM
      generalize a.at 16 * a.at 17 = x at hM
      generalize exactMapDataEnd a = m at hM ⊢
      omega
    have hhdr : readHeader b = readHeader a :=
      (readHeader_congr (fun j hj => hab j (by clear * - hj hM16; omega))).symm
    have e16 : b.at 16 = a.at 16 := (hab 16 (by clear * - hM16; omega)).symm
    have e17 : b.at 17 = a.at 17 := (hab 17 (by clear * - hM16; omega)).symm
    rw [readWords_blockdata a a1 a2 a3] at hbda
    rw [readWords_blockdata b b1 b2 b3, hhdr, e16, e17] at hbdb
    rw [readBorder_header_border a a1 a2 hxn] at hbra
    rw [readBorder_header_border b b1 b2 (by rw [e16, e17]; exact hxn), e16, e17] at hbrb
    have hbd : bda = bdb := by
      rw [← Option.some.inj hbda, ← Option.some.inj hbdb]
      apply wordsFrom_congr a b _ hab
      clear * - hle hM
      generalize (readHeader a).mapDataEnd = e at hle ⊢
      generalize a.at 16 * a.at 17 = x at hM ⊢
      generalize exactMapDataEnd a = m at hM hle ⊢
      omega
    have hbr : bra = brb := by
      rw [← Option.some.inj hbra, ← Option.some.inj hbrb]
      have ma : min (a.at 16 * a.at 17) ((a.data.length - 20) / 2) = a.at 16 * a.at 17 := by
        clear * - hM hlen
        generalize a.at 16 * a.at 17 = x at hM ⊢
        generalize exactMapDataEnd a = m at hM hlen ⊢
        omega
      have mb : min (a.at 16 * a.at 17) ((b.data.length - 20) / 2) = a.at 16 * a.at 17 := by
        clear * - hM hlen
        generalize a.at 16 * a.at 17 = x at hM ⊢
        generalize exactMapDataEnd a = m at hM hlen ⊢
        omega
      rw [ma, mb]
      exact wordsFrom_congr a b _ hab _ _ hM
    have hn0 : (readHeader a).numBorderTiles ≠ 0 := by
      rw [(readHeader_border a).1]; exact_mod_cast hxn
    obtain ⟨wa, ha', _, _⟩ := locateBorder_header_border a (readHeader a) hn0
    obtain ⟨wb, hb', _, _⟩ := locateBorder_header_border b (readHeader a) hn0
    rw [hla, hlb, hhdr, ← hbd, ← hbr]
    exact buildLayout_congr _ _ _ _ _ _ (wa.trans wb.symm) (ha'.trans hb'.symm)
  · have hab : a = b := eq_of_take_of_short hpre hlen
    subst hab
    rw [ha] at hb
    exact Outcome.ok.inj hb

/-- C5, on a header-border file and the same file followed by a second copy of its
map. -/
theorem parseLayout_ignores_bytes_after_map_witness :
    frlgSampleFile.data.take (exactMapDataEnd frlgSampleFile).toNat
        = frlgDoubleFile.data.take (exactMapDataEnd frlgSampleFile).toNat
    ∧ parseLayout frlgSampleFile sampleProject
        = .ok ⟨1, 1, 1, 2, "gTileset_General", "gTileset_Petalburg", [261], [3, 4]⟩
    ∧ parseLayout frlgDoubleFile sampleProject
        = .ok ⟨1, 1, 1, 2, "gTileset_General", "gTileset_Petalburg", [261], [3, 4]⟩
    ∧ (⟨1, 1, 1, 2, "gTileset_General", "gTileset_Petalburg", [261], [3, 4]⟩ : Layout)
        = ⟨1, 1, 1, 2, "gTileset_General", "gTileset_Petalburg", [261], [3, 4]⟩ :=
  ⟨by decide, by decide, by decide,
    parseLayout_ignores_bytes_after_map frlgSampleFile frlgDoubleFile sampleProject _ _
      (by decide) (by decide) (by decide) (by decide) (by decide) (by decide) (by decide)⟩

/-! ## The trailing-border variant -/

theorem readHeader_mapDataEnd_sum (inp : QByteArray) :
    (readHeader inp).mapDataEnd
      = wrap32 ((readHeader inp).mapDataOffset + (readHeader inp).baseMapSize) := rfl

theorem rseCandidate_rseNumBorderTiles (inp : QByteArray) :
    (rseCandidate inp).rseNumBorderTiles
      = wrap32 ((rseCandidate inp).borderWidthLE * (rseCandidate inp).borderHeightLE) := rfl

theorem rseCandidate_rseBorderSize (inp : QByteArray) :
    (rseCandidate inp).rseBorderSize = wrap32 ((rseCandidate inp).rseNumBorderTiles * 2) := rfl

theorem rseCandidate_borderOffset (inp : QByteArray) :
    (rseCandidate inp).borderOffset
      = wrap32 (inp.length - wrap32 ((rseCandidate inp).rseBorderSize + 4)) := rfl

/-- When the border announced by the tail fits the file, the candidate's quantities are
the exact ones. -/
theorem rseCandidate_exact (inp : QByteArray)
    (hfit : tailBorderWidth inp * tailBorderHeight inp * 2 + 4 ≤ inp.data.length) :
    (rseCandidate inp).rseNumBorderTiles
        = ((tailBorderWidth inp * tailBorderHeight inp : Nat) : Int)
    ∧ (rseCandidate inp).rseBorderSize
        = ((2 * (tailBorderWidth inp * tailBorderHeight inp) : Nat) : Int)
    ∧ (rseCandidate inp).borderOffset
        = ((inp.data.length - (tailBorderWidth inp * tailBorderHeight inp * 2 + 4) : Nat) : Int) := by
  have hlen := inp.size_fits_int
  have h1 : (rseCandidate inp).rseNumBorderTiles
      = ((tailBorderWidth inp * tailBorderHeight inp : Nat) : Int) := by
    rw [rseCandidate_rseNumBorderTiles, rseCandidate_borderWidthLE, rseCandidate_borderHeightLE,
      ← Nat.cast_mul]
    apply wrap32_of_fits
    · clear * -; omega
    · clear * - hfit hlen
      generalize tailBorderWidth inp * tailBorderHeight inp = t at hfit ⊢
      omega
  have h2 : (rseCandidate inp).rseBorderSize
      = ((2 * (tailBorderWidth inp * tailBorderHeight inp) : Nat) : Int) := by
    rw [rseCandidate_rseBorderSize, h1]
    clear * - hfit hlen
    generalize tailBorderWidth inp * tailBorderHeight inp = t at hfit ⊢
    unfold wrap32; push_cast; omega
  refine ⟨h1, h2, ?_⟩
  rw [rseCandidate_borderOffset, h2]
  unfold QByteArray.length
  clear * - hfit hlen
  generalize tailBorderWidth inp * tailBorderHeight inp = t at hfit ⊢
  generalize inp.data.length = n at hfit hlen ⊢
  unfold wrap32; push_cast; omega

theorem exactRseBorderOffset_eq (inp : QByteArray) :
    exactRseBorderOffset inp
      = (inp.data.length : Int)
        - (2 * ((tailBorderWidth inp * tailBorderHeight inp : Nat) : Int) + 4) := by
  unfold exactRseBorderOffset; push_cast; ring

theorem borderOffset_trailing (h : Header) (v : BorderVars) (h1 : h.mapDataOffset = 20)
    (h2 : v.rseBorderOffset ≥ 0) : borderOffset h v = v.rseBorderOffset := by
  unfold borderOffset
  rw [if_pos h1, if_pos h2]

/-- The trailing-border variant in exact arithmetic: for a file with no header border,
a non-negative width and height, at least four bytes past the exact `mapDataEnd` and
an exact candidate offset `length - (bw*bh*2 + 4)` not below `mapDataEnd`, the
candidate is accepted and the border loop yields the `bw*bh` words stored from the
candidate offset on. -/
theorem readBorder_trailing (inp : QByteArray)
    (hrse : inp.at 16 * inp.at 17 = 0)
    (hw : 0 ≤ (readHeader inp).mapWidth) (hh : 0 ≤ (readHeader inp).mapHeight)
    (htail : exactMapDataEnd inp + 4 ≤ inp.length)
    (hcand : exactMapDataEnd inp ≤ exactRseBorderOffset inp) :
    rseAccepted inp
    ∧ readBorder inp (readHeader inp) (locateBorder inp (readHeader inp))
      = some (wordsFrom inp
          (inp.data.length - (tailBorderWidth inp * tailBorderHeight inp * 2 + 4))
          (tailBorderWidth inp * tailBorderHeight inp)) := by
  have hlen := inp.size_fits_int
  have hy := mul_nonneg hw hh
  have hex := exactMapDataEnd_eq inp
  have her := exactRseBorderOffset_eq inp
  unfold QByteArray.length at htail
  obtain ⟨hnum, hoff, hsize⟩ := readHeader_border inp
  rw [hrse] at hnum hoff hsize hex
  have hfitM : exactMapDataEnd inp < 2147483648 := by
    clear * - htail hlen
    generalize exactMapDataEnd inp = m at htail ⊢
    omega
  obtain ⟨hbase, hend⟩ := readHeader_map_exact inp hw hh hfitM
  have hM20 : 20 ≤ exactMapDataEnd inp := by
    clear * - hy hex
    generalize (readHeader inp).mapWidth * (readHeader inp).mapHeight = y at hy hex
    generalize exactMapDataEnd inp = m at hex ⊢
    push_cast at hex; omega
  have hfit : tailBorderWidth inp * tailBorderHeight inp * 2 + 4 ≤ inp.data.length := by
    clear * - hcand her hM20
    generalize tailBorderWidth inp * tailBorderHeight inp = t at her ⊢
    generalize exactRseBorderOffset inp = r at her hcand
    generalize exactMapDataEnd inp = m at hcand hM20
    omega
  obtain ⟨c1, c2, c3⟩ := rseCandidate_exact inp hfit
  have hacc : rseAccepted inp := by
    refine ⟨by rw [hnum]; rfl, ?_, ?_⟩
    · rw [hend]
      unfold QByteArray.length
      clear * - htail hlen hM20
      generalize exactMapDataEnd inp = m at htail hM20 ⊢
      unfold wrap32; omega
    · rw [c3, ← readHeader_mapDataEnd_sum, hend]
      clear * - hcand her hfit
      generalize tailBorderWidth inp * tailBorderHeight inp = t at her hfit ⊢
      generalize exactRseBorderOffset inp = r at her hcand
      generalize exactMapDataEnd inp = m at hcand ⊢
      omega
  refine ⟨hacc, ?_⟩
  obtain ⟨_, _, v3, v4, v5⟩ := locateBorder_of_accepted inp hacc
  have hoff20 : (readHeader inp).mapDataOffset = 20 := by rw [hoff]; rfl
  have hbo : borderOffset (readHeader inp) (locateBorder inp (readHeader inp))
      = ((inp.data.length - (tailBorderWidth inp * tailBorderHeight inp * 2 + 4) : Nat) : Int) := by
    rw [borderOffset_trailing _ _ hoff20 (by rw [v5, c3]; exact Int.ofNat_nonneg _), v5, c3]
  unfold readBorder
  rw [hbo, v3, v4, c1, c2]
  by_cases ht : tailBorderWidth inp * tailBorderHeight inp = 0
  · rw [ht, if_neg (by decide)]
    rfl
  · rw [if_pos (by exact_mod_cast ht)]
    clear * - hfit hlen ht
    generalize tailBorderWidth inp * tailBorderHeight inp = t at hfit ht ⊢
    generalize hn : inp.data.length = n at hfit hlen ⊢
    have e : wrap32 (((n - (t * 2 + 4) : Nat) : Int) + ((2 * t : Nat) : Int)) = (n : Int) - 4 := by
      unfold wrap32; push_cast; omega
    rw [e]
    apply readWords_eq
    · omega
    · intro _; rw [hn]; omega
    · left; omega
    · omega

/-- C6, amended. For every accepted buffer with no header border
(`borderWidth*borderHeight = 0`) and a non-negative header width and height that has at
least four bytes past `mapDataEnd`, whose tail values `(bw, bh)` give
`length - (bw*bh*2 + 4) >= mapDataEnd`, and whose tail border is not empty
(`bw*bh > 0`), the returned layout has a border. -/
theorem parseLayout_trailing_border_present (inp : QByteArray) (project : Project)
    (l : Layout) (hok : parseLayout inp project = .ok l)
    (hrse : inp.at 16 * inp.at 17 = 0)
    (hw : 0 ≤ (readHeader inp).mapWidth) (hh : 0 ≤ (readHeader inp).mapHeight)
    (htail : exactMapDataEnd inp + 4 ≤ inp.length)
    (hcand : exactMapDataEnd inp ≤ exactRseBorderOffset inp)
    (hpos : 0 < tailBorderWidth inp * tailBorderHeight inp) :
    l.border ≠ [] := by
  obtain ⟨_, _, _, blockdata, border, _, hbr, hl⟩ := parseLayout_ok hok
  rw [(readBorder_trailing inp hrse hw hh htail hcand).2] at hbr
  rw [hl, buildLayout_border, ← Option.some.inj hbr]
  intro hnil
  have hlen := congrArg List.length hnil
  rw [wordsFrom_length] at hlen
  exact absurd hlen (Nat.pos_iff_ne_zero.mp hpos)

/-- C6, amended, on a file with a 2 by 1 map, a 1 by 1 trailing border and the tail
values 1 and 1. -/
theorem parseLayout_trailing_border_present_witness :
    parseLayout rseSampleFile sampleProject
        = .ok ⟨2, 1, 1, 1, "gTileset_General", "gTileset_Petalburg", [17, 18], [3]⟩
    ∧ ([3] : List Nat) ≠ [] :=
  ⟨by decide,
    parseLayout_trailing_border_present rseSampleFile sampleProject
      ⟨2, 1, 1, 1, "gTileset_General", "gTileset_Petalburg", [17, 18], [3]⟩
      (by decide) (by decide) (by decide) (by decide) (by decide) (by decide) (by decide)⟩

/-! ## The blockdata in exact arithmetic -/

/-- For an accepted buffer with a non-negative width and height whose exact
`mapDataEnd` fits an `int`, the blockdata is the `width*height` words stored from
`20 + 2*borderWidth*borderHeight` on. -/
theorem parseLayout_blockdata_exact (inp : QByteArray) (project : Project) (l : Layout)
    (hok : parseLayout inp project = .ok l)
    (hw : 0 ≤ (readHeader inp).mapWidth) (hh : 0 ≤ (readHeader inp).mapHeight)
    (hfit : exactMapDataEnd inp < 2147483648) :
    l.blockdata = wordsFrom inp (20 + 2 * (inp.at 16 * inp.at 17))
      ((readHeader inp).mapWidth * (readHeader inp).mapHeight).toNat := by
  obtain ⟨h1, h2, h3, blockdata, border, hbd, _, hl⟩ := parseLayout_ok hok
  rw [readWords_blockdata inp h1 h2 h3, (readHeader_map_exact inp hw hh hfit).2,
    exactMapDataEnd_eq] at hbd
  have e : ((((20 + 2 * (inp.at 16 * inp.at 17) : Nat) : Int)
        + 2 * ((readHeader inp).mapWidth * (readHeader inp).mapHeight)
        - ((20 + 2 * (inp.at 16 * inp.at 17) : Nat) : Int)) / 2).toNat
      = ((readHeader inp).mapWidth * (readHeader inp).mapHeight).toNat := by
    clear * -
    generalize (readHeader inp).mapWidth * (readHeader inp).mapHeight = y
    generalize inp.at 16 * inp.at 17 = x
    omega
  rw [e] at hbd
  rw [hl, buildLayout_blockdata, ← Option.some.inj hbd]


/-! ## Reads at computed offsets -/

theorem QByteArray.at?_of_lt (a : QByteArray) (k : Nat) (hk : k < a.data.length) :
    a.at? (k : Int) = some (a.at k) := by
  unfold QByteArray.at? QByteArray.length
  rw [if_pos ⟨by omega, by omega⟩]
  rfl

theorem QByteArray.at?_range {a : QByteArray} {i : Int} {b : Nat} (h : a.at? i = some b) :
    0 ≤ i ∧ i < a.length := by
  unfold QByteArray.at? at h
  by_cases hc : 0 ≤ i ∧ i < a.length
  · exact hc
  · rw [if_neg hc] at h; cases h

theorem collect_eq_map {α β : Type} (f : α → Option β) (g : α → β) :
    ∀ (l : List α), (∀ x, x ∈ l → f x = some (g x)) → collect f l = some (l.map g) := by
  intro l
  induction l with
  | nil => intro _; rfl
  | cons x xs ih =>
    intro h
    have hx := h x (List.mem_cons_self x xs)
    have hxs := ih (fun y hy => h y (List.mem_cons_of_mem x hy))
    unfold collect
    rw [hx, hxs]
    rfl

theorem collect_some {α β : Type} (f : α → Option β) :
    ∀ (l : List α) (r : List β), collect f l = some r → ∀ x, x ∈ l → ∃ y, f x = some y := by
  intro l
  induction l with
  | nil => intro r _ x hx; cases hx
  | cons a as ih =>
    intro r h x hx
    unfold collect at h
    cases hfa : f a with
    | none => rw [hfa] at h; cases h
    | some y =>
      rw [hfa] at h
      cases hrest : collect f as with
      | none => rw [hrest] at h; cases h
      | some ys =>
        rcases List.mem_cons.mp hx with hxa | hxas
        · exact ⟨y, by rw [hxa]; exact hfa⟩
        · exact ih ys hrest x hxas

/-! ## Tiles -/

theorem readTile_eq (inp : QByteArray) (k : Nat) (hk : k + 1 < inp.data.length) :
    readTile inp (k : Int) = some (Tile.ofRaw (le16At inp k)) := by
  have hlen := inp.size_fits_int
  have hw : wrap32 ((k : Int) + 1) = ((k + 1 : Nat) : Int) := by
    rw [wrap32_of_fits (by omega) (by omega)]; push_cast; ring
  have h1 := inp.at_lt k
  have h2 := inp.at_lt (k + 1)
  have hv : (inp.at k ||| (inp.at (k + 1) <<< 8)) % 65536 = le16At inp k := by
    rw [or_shift8_bytes _ h1]
    unfold le16At
    omega
  unfold readTile
  rw [hw, inp.at?_of_lt k (by omega), inp.at?_of_lt (k + 1) hk]
  simp only [hv]

theorem readTile_range {inp : QByteArray} {p : Int} {t : Tile} (h : readTile inp p = some t) :
    0 ≤ p ∧ p < inp.length ∧ 0 ≤ wrap32 (p + 1) ∧ wrap32 (p + 1) < inp.length := by
  unfold readTile at h
  cases h1 : inp.at? p with
  | none => rw [h1] at h; cases h
  | some lo =>
    cases h2 : inp.at? (wrap32 (p + 1)) with
    | none => rw [h1, h2] at h; cases h
    | some hi =>
      have r1 := QByteArray.at?_range h1
      have r2 := QByteArray.at?_range h2
      exact ⟨r1.1, r1.2, r2.1, r2.2⟩

theorem wrap32_tile_offset (p j : Nat) (hj : j < 8) (hp : (p : Int) + 16 < 2147483648) :
    wrap32 ((p : Int) + wrap32 ((j : Int) * 2)) = ((p + 2 * j : Nat) : Int) := by
  unfold wrap32; push_cast; omega

theorem tile_record_bounds (P len : Int) (hlen : len < 2147483648)
    (h0 : 0 ≤ wrap32 (P + wrap32 (0 * 2)))
    (h7 : 0 ≤ wrap32 (P + wrap32 (7 * 2)))
    (h7a : 0 ≤ wrap32 (wrap32 (P + wrap32 (7 * 2)) + 1))
    (h7b : wrap32 (wrap32 (P + wrap32 (7 * 2)) + 1) < len)
    (hP : P = wrap32 P) :
    0 ≤ P ∧ P + 16 ≤ len := by
  unfold wrap32 at h0 h7 h7a h7b hP; omega

theorem wrap32_idem (x : Int) : wrap32 x = wrap32 (wrap32 x) := by
  unfold wrap32; omega

/-- The eight tiles of a record that lies inside the buffer. -/
theorem readTiles_eq (inp : QByteArray) (t0 i : Int) (p : Nat)
    (hp : wrap32 (t0 + wrap32 (i * 16)) = (p : Int)) (hin : p + 16 ≤ inp.data.length) :
    readTiles inp t0 i = some (fileTiles inp p) := by
  have hlen := inp.size_fits_int
  unfold readTiles fileTiles
  apply collect_eq_map
  intro j hj
  have hj8 : j < 8 := List.mem_range.mp hj
  rw [hp, wrap32_tile_offset p j hj8 (by omega)]
  exact readTile_eq inp (p + 2 * j) (by omega)

/-- A record whose eight tiles were read lies inside the buffer. -/
theorem readTiles_range {inp : QByteArray} {t0 i : Int} {ts : List Tile}
    (h : readTiles inp t0 i = some ts) :
    0 ≤ wrap32 (t0 + wrap32 (i * 16)) ∧ wrap32 (t0 + wrap32 (i * 16)) + 16 ≤ inp.length := by
  unfold readTiles at h
  obtain ⟨y0, h0⟩ := collect_some _ _ _ h 0 (by decide)
  obtain ⟨y7, h7⟩ := collect_some _ _ _ h 7 (by decide)
  have r0 := readTile_range h0
  have r7 := readTile_range h7
  have hlen := inp.length_lt
  have hid := wrap32_idem (t0 + wrap32 (i * 16))
  generalize wrap32 (t0 + wrap32 (i * 16)) = P at r0 r7 hid ⊢
  generalize inp.length = len at r0 r7 hlen ⊢
  push_cast at r0 r7
  exact tile_record_bounds P len hlen r0.1 r7.1 r7.2.2.1 r7.2.2.2 hid

/-! ## Attributes -/

theorem or_shift_bytes (acc b j : Nat) (hacc : acc < 2 ^ (8 * j)) :
    acc ||| (b <<< (8 * j)) = acc + 2 ^ (8 * j) * b := by
  have h := Nat.mul_add_lt_is_or hacc b
  rw [Nat.lor_comm, Nat.shiftLeft_eq, Nat.mul_comm b, ← h]
  omega

theorem leValue_lt (inp : QByteArray) : ∀ (a start : Nat), leValue inp start a < 2 ^ (8 * a) := by
  intro a
  induction a with
  | zero => intro start; simp [leValue]
  | succ a ih =>
    intro start
    have h1 := inp.at_lt start
    have h2 := ih (start + 1)
    have e : 2 ^ (8 * (a + 1)) = 256 * 2 ^ (8 * a) := by
      rw [Nat.mul_add, Nat.pow_add]; norm_num; ring
    rw [e]
    unfold leValue
    generalize leValue inp (start + 1) a = v at h2
    generalize 2 ^ (8 * a) = m at h2
    generalize inp.at start = b at h1
    omega

theorem leValue_succ (inp : QByteArray) (start a : Nat) :
    leValue inp start (a + 1) = inp.at start + 256 * leValue inp (start + 1) a := rfl

theorem readAttributes_step (inp : QByteArray) (p : Int) (r j acc b : Nat)
    (h : inp.at? (wrap32 (p + (j : Int))) = some b) :
    readAttributes inp p (r + 1) j acc
      = readAttributes inp p r (j + 1) ((acc ||| (b <<< (8 * j))) % 4294967296) := by
  rw [readAttributes, h]

theorem readAttributes_stop (inp : QByteArray) (p : Int) (r j acc : Nat)
    (h : inp.at? (wrap32 (p + (j : Int))) = none) :
    readAttributes inp p (r + 1) j acc = none := by
  rw [readAttributes, h]

/-- The attribute loop over bytes that lie inside the buffer: it adds the remaining
bytes, least significant first, above the bytes already gathered. -/
theorem readAttributes_eq (inp : QByteArray) (q : Nat) (r : Nat) :
    ∀ (j acc : Nat), j + r ≤ 4 → q + j + r ≤ inp.data.length → acc < 2 ^ (8 * j) →
      readAttributes inp (q : Int) r j acc
        = some (acc + 2 ^ (8 * j) * leValue inp (q + j) r) := by
  induction r with
  | zero =>
    intro j acc _ _ _
    rw [readAttributes]
    unfold leValue
    rw [Nat.mul_zero, Nat.add_zero]
  | succ r ih =>
    intro j acc hj hin hacc
    have hlen := inp.size_fits_int
    have hw : wrap32 ((q : Int) + (j : Int)) = ((q + j : Nat) : Int) := by
      rw [wrap32_of_fits (by omega) (by omega)]; push_cast; ring
    have hread : inp.at? ((q + j : Nat) : Int) = some (inp.at (q + j)) :=
      inp.at?_of_lt (q + j) (by omega)
    have hj1 : j + 1 + r ≤ 4 := by omega
    have hin1 : q + (j + 1) + r ≤ inp.data.length := by omega
    have e : q + (j + 1) = q + j + 1 := by omega
    have hb := inp.at_lt (q + j)
    have hpow : 2 ^ (8 * (j + 1)) = 2 ^ (8 * j) * 256 := by
      rw [Nat.mul_add, Nat.pow_add]
    have hnew : acc + 2 ^ (8 * j) * inp.at (q + j) < 2 ^ (8 * (j + 1)) := by
      rw [hpow]
      calc acc + 2 ^ (8 * j) * inp.at (q + j)
          < 2 ^ (8 * j) + 2 ^ (8 * j) * inp.at (q + j) := Nat.add_lt_add_right hacc _
        _ = 2 ^ (8 * j) * (inp.at (q + j) + 1) := by ring
        _ ≤ 2 ^ (8 * j) * 256 := Nat.mul_le_mul_left _ hb
    have hle : 2 ^ (8 * (j + 1)) ≤ 4294967296 := by
      have h32 : (4294967296 : Nat) = 2 ^ 32 := by norm_num
      rw [h32]
      exact Nat.pow_le_pow_right (by decide) (by clear * - hj; omega)
    have hmod : (acc ||| (inp.at (q + j) <<< (8 * j))) % 4294967296
        = acc + 2 ^ (8 * j) * inp.at (q + j) := by
      rw [or_shift_bytes acc _ j hacc]
      exact Nat.mod_eq_of_lt (Nat.lt_of_lt_of_le hnew hle)
    rw [← hw] at hread
    rw [readAttributes_step inp _ r j acc _ hread, hmod, ih (j + 1) _ hj1 hin1 hnew, hpow, e,
      leValue_succ]
    exact congrArg some (by ring)

/-- Every byte the attribute loop read lies inside the buffer. -/
theorem readAttributes_range (inp : QByteArray) (p : Int) (r : Nat) :
    ∀ (j acc v : Nat), readAttributes inp p r j acc = some v →
      ∀ k, j ≤ k → k < j + r →
        0 ≤ wrap32 (p + (k : Int)) ∧ wrap32 (p + (k : Int)) < inp.length := by
  induction r with
  | zero => intro j acc v _ k h1 h2; omega
  | succ r ih =>
    intro j acc v h k h1 h2
    cases hb : inp.at? (wrap32 (p + (j : Int))) with
    | none => rw [readAttributes_stop inp p r j acc hb] at h; cases h
    | some b =>
      rw [readAttributes_step inp p r j acc b hb] at h
      by_cases hk : k = j
      · rw [hk]; exact QByteArray.at?_range hb
      · exact ih (j + 1) _ v h k (by omega) (by omega)

theorem attr_record_bounds (Q len a : Int) (hlen : len < 2147483648) (ha : 1 ≤ a)
    (h0 : 0 ≤ wrap32 (Q + 0)) (h1 : 0 ≤ wrap32 (Q + (a - 1)))
    (h2 : wrap32 (Q + (a - 1)) < len) (hQ : Q = wrap32 Q) (ha16 : a ≤ 16) :
    0 ≤ Q ∧ Q + a ≤ len := by
  unfold wrap32 at h0 h1 h2 hQ; omega

/-! ## One metatile -/

/-- The metatile whose tile record and attribute record lie inside the buffer. -/
theorem readMetatile_eq (inp : QByteArray) (tripleLayer : Bool) (version : BaseGameVersion)
    (attrSize t0 a0 i : Int) (a p q : Nat)
    (hp : wrap32 (t0 + wrap32 (i * 16)) = (p : Int)) (hpin : p + 16 ≤ inp.data.length)
    (hq : wrap32 (a0 + wrap32 (i * attrSize)) = (q : Int)) (hqin : q + a ≤ inp.data.length)
    (ha : attrSize.toNat = a) (ha4 : a ≤ 4) :
    readMetatile inp tripleLayer version attrSize t0 a0 i
      = some (specMetatile inp tripleLayer version a p q) := by
  have ht := readTiles_eq inp t0 i p hp hpin
  have hattr := readAttributes_eq inp q a 0 0 (by omega) (by omega) (by norm_num)
  rw [Nat.add_zero, Nat.mul_zero, Nat.pow_zero, Nat.one_mul, Nat.zero_add] at hattr
  unfold readMetatile
  rw [ht, hq, ha, hattr]
  cases tripleLayer
  · unfold specMetatile
    dsimp only
    rw [if_neg Bool.false_ne_true, if_neg Bool.false_ne_true, List.append_nil]
  · unfold specMetatile
    dsimp only
    rw [if_pos rfl, if_pos rfl]

/-- The records of a metatile that was read lie inside the buffer. -/
theorem readMetatile_range {inp : QByteArray} {tripleLayer : Bool} {version : BaseGameVersion}
    {attrSize t0 a0 i : Int} {m : Metatile}
    (h : readMetatile inp tripleLayer version attrSize t0 a0 i = some m)
    (ha1 : 1 ≤ attrSize) (ha16 : attrSize ≤ 16) :
    (0 ≤ wrap32 (t0 + wrap32 (i * 16)) ∧ wrap32 (t0 + wrap32 (i * 16)) + 16 ≤ inp.length)
    ∧ (0 ≤ wrap32 (a0 + wrap32 (i * attrSize))
      ∧ wrap32 (a0 + wrap32 (i * attrSize)) + attrSize ≤ inp.length) := by
  unfold readMetatile at h
  cases ht : readTiles inp t0 i with
  | none => rw [ht] at h; cases h
  | some tiles =>
    rw [ht] at h
    cases hattr : readAttributes inp (wrap32 (a0 + wrap32 (i * attrSize))) attrSize.toNat 0 0 with
    | none => rw [hattr] at h; cases h
    | some v =>
      refine ⟨readTiles_range ht, ?_⟩
      have r0 := readAttributes_range inp _ _ 0 0 v hattr 0 (by omega) (by omega)
      have r1 := readAttributes_range inp _ _ 0 0 v hattr (attrSize.toNat - 1)
        (by omega) (by omega)
      have hid := wrap32_idem (a0 + wrap32 (i * attrSize))
      have hlen := inp.length_lt
      have hc : ((attrSize.toNat - 1 : Nat) : Int) = attrSize - 1 := by omega
      rw [hc] at r1
      clear hattr ht h
      generalize wrap32 (a0 + wrap32 (i * attrSize)) = Q at r0 r1 hid ⊢
      generalize inp.length = len at r0 r1 hlen ⊢
      push_cast at r0
      exact attr_record_bounds Q len attrSize hlen ha1 r0.1 r1.1 r1.2 hid ha16

/-! ## Records at a fixed stride -/

theorem stride_step (t0 s len X : Int) (hlen : len < 2147483648) (hs : 1 ≤ s)
    (h0 : 0 ≤ t0) (hX0 : 0 ≤ X) (hX : t0 + X ≤ len)
    (hr : 0 ≤ wrap32 (t0 + wrap32 X) ∧ wrap32 (t0 + wrap32 X) + s ≤ len) :
    wrap32 (t0 + wrap32 X) = t0 + X ∧ t0 + X + s ≤ len := by
  unfold wrap32 at hr ⊢; omega

theorem stride_base (t0 s len : Int) (ht : t0 = wrap32 t0)
    (hr : 0 ≤ wrap32 (t0 + wrap32 0) ∧ wrap32 (t0 + wrap32 0) + s ≤ len) :
    0 ≤ t0 ∧ t0 + s ≤ len := by
  unfold wrap32 at hr ht; omega

/-- Records of `s` bytes read at the offsets `t0 + i * s` computed in 32-bit
arithmetic: when every one of the `n` records lies inside the buffer, no offset has
wrapped, and the `n` records follow one another from `t0` on. -/
theorem stride_bounds (t0 s len : Int) (n : Nat) (hlen : len < 2147483648) (hs : 1 ≤ s)
    (ht : t0 = wrap32 t0)
    (h : ∀ i : Nat, i < n →
      0 ≤ wrap32 (t0 + wrap32 ((i : Int) * s)) ∧ wrap32 (t0 + wrap32 ((i : Int) * s)) + s ≤ len) :
    ∀ i : Nat, i < n →
      0 ≤ t0 ∧ wrap32 (t0 + wrap32 ((i : Int) * s)) = t0 + (i : Int) * s
        ∧ t0 + ((i : Int) + 1) * s ≤ len := by
  intro i
  induction i with
  | zero =>
    intro hi
    have hr := h 0 hi
    have e0 : ((0 : Nat) : Int) * s = 0 := by push_cast; ring
    rw [e0] at hr ⊢
    have hb := stride_base t0 s len ht hr
    have hst := stride_step t0 s len 0 hlen hs hb.1 (le_refl 0) (by clear * - hb hs; omega) hr
    refine ⟨hb.1, ?_, ?_⟩
    · rw [hst.1]
    · have e1 : (((0 : Nat) : Int) + 1) * s = s := by push_cast; ring
      rw [e1]; exact hb.2
  | succ k ih =>
    intro hi
    obtain ⟨h0, _, hk⟩ := ih (by omega)
    have hr := h (k + 1) hi
    have hX0 : 0 ≤ ((k + 1 : Nat) : Int) * s :=
      mul_nonneg (Int.ofNat_nonneg _) (by clear * - hs; omega)
    have e : ((k : Int) + 1) * s = ((k + 1 : Nat) : Int) * s := by push_cast; ring
    rw [e] at hk
    have hst := stride_step t0 s len _ hlen hs h0 hX0 hk hr
    refine ⟨h0, hst.1, ?_⟩
    have e2 : (((k + 1 : Nat) : Int) + 1) * s = ((k + 1 : Nat) : Int) * s + s := by ring
    rw [e2, ← add_assoc]
    exact hst.2

/-! ## The sizes and offsets of a metatile file in exact arithmetic -/

theorem tilesOffset_single (primaryTileset : Bool) (n : Int) :
    tilesOffset false primaryTileset n = 4 := rfl

theorem tilesOffset_double_primary (n : Int) : tilesOffset true true n = 4 := rfl

theorem tilesOffset_double_secondary (n : Int) :
    tilesOffset true false n = wrap32 (4 + wrap32 (16 * n)) := rfl

theorem attrsOffset_single (primaryTileset : Bool) (a n : Int) :
    attrsOffset false primaryTileset a n = wrap32 (4 + wrap32 (16 * n)) := rfl

theorem attrsOffset_double_primary (a n : Int) :
    attrsOffset true true a n = wrap32 (4 + wrap32 (wrap32 (16 * n) * 2)) := rfl

theorem attrsOffset_double_secondary (a n : Int) :
    attrsOffset true false a n
      = wrap32 (wrap32 (4 + wrap32 (wrap32 (16 * n) * 2)) + wrap32 (a * n)) := rfl

theorem expectedSingleSize_eq (a n : Int) :
    expectedSingleSize a n = wrap32 (wrap32 (wrap32 (16 * n) + wrap32 (a * n)) + 8) := rfl

theorem expectedDoubleSize_eq (a n : Int) :
    expectedDoubleSize a n
      = wrap32 (wrap32 (wrap32 (wrap32 (16 * n) * 2) + wrap32 (wrap32 (a * n) * 2)) + 8) := rfl

theorem sizes_single (n len a : Int) (ha : a = 2 ∨ a = 4) (hlen : len < 2147483648)
    (hn : 1 ≤ n)
    (hsize : len = wrap32 (wrap32 (wrap32 (16 * n) + wrap32 (a * n)) + 8))
    (hT : 4 + 16 * n ≤ len)
    (hA : 0 ≤ wrap32 (4 + wrap32 (16 * n)) ∧ wrap32 (4 + wrap32 (16 * n)) + a * n ≤ len) :
    wrap32 (4 + wrap32 (16 * n)) = 4 + 16 * n ∧ len = 8 + 16 * n + a * n := by
  rcases ha with rfl | rfl <;> (unfold wrap32 at hsize hA ⊢; omega)

theorem sizes_double_primary (n len a : Int) (ha : a = 2 ∨ a = 4) (hlen : len < 2147483648)
    (hn : 1 ≤ n)
    (hsize : len
      = wrap32 (wrap32 (wrap32 (wrap32 (16 * n) * 2) + wrap32 (wrap32 (a * n) * 2)) + 8))
    (hT : 4 + 16 * n ≤ len)
    (hA : 0 ≤ wrap32 (4 + wrap32 (wrap32 (16 * n) * 2))
      ∧ wrap32 (4 + wrap32 (wrap32 (16 * n) * 2)) + a * n ≤ len) :
    wrap32 (4 + wrap32 (wrap32 (16 * n) * 2)) = 4 + 2 * (16 * n)
      ∧ len = 8 + 2 * (16 * n) + 2 * (a * n) := by
  rcases ha with rfl | rfl <;> (unfold wrap32 at hsize hA ⊢; omega)

theorem sizes_double_secondary (n len a : Int) (ha : a = 2 ∨ a = 4) (hlen : len < 2147483648)
    (hn : 1 ≤ n)
    (hsize : len
      = wrap32 (wrap32 (wrap32 (wrap32 (16 * n) * 2) + wrap32 (wrap32 (a * n) * 2)) + 8))
    (hT : 0 ≤ wrap32 (4 + wrap32 (16 * n)) ∧ wrap32 (4 + wrap32 (16 * n)) + 16 * n ≤ len)
    (hA : 0 ≤ wrap32 (wrap32 (4 + wrap32 (wrap32 (16 * n) * 2)) + wrap32 (a * n))
      ∧ wrap32 (wrap32 (4 + wrap32 (wrap32 (16 * n) * 2)) + wrap32 (a * n)) + a * n ≤ len) :
    wrap32 (4 + wrap32 (16 * n)) = 4 + 16 * n
      ∧ wrap32 (wrap32 (4 + wrap32 (wrap32 (16 * n) * 2)) + wrap32 (a * n))
          = 4 + 2 * (16 * n) + a * n
      ∧ len = 8 + 2 * (16 * n) + 2 * (a * n) := by
  have hB : wrap32 (16 * n) = 16 * n := by
    clear hsize hA
    unfold wrap32 at hT ⊢; omega
  rw [hB] at hT hA hsize ⊢
  have ht0 : wrap32 (4 + 16 * n) = 4 + 16 * n := by
    clear hsize hA
    unfold wrap32 at hT ⊢; omega
  rw [ht0] at hT ⊢
  have h2B : wrap32 (16 * n * 2) = 2 * (16 * n) := by
    clear hsize hA
    unfold wrap32; omega
  rw [h2B] at hA hsize ⊢
  have h4 : wrap32 (4 + 2 * (16 * n)) = 4 + 2 * (16 * n) := by
    clear hsize hA
    unfold wrap32; omega
  rw [h4] at hA ⊢
  have hAt : wrap32 (a * n) = a * n := by
    clear hsize hA
    rcases ha with rfl | rfl <;> (unfold wrap32; omega)
  rw [hAt] at hA hsize ⊢
  have ha0 : wrap32 (4 + 2 * (16 * n) + a * n) = 4 + 2 * (16 * n) + a * n := by
    clear hsize
    rcases ha with rfl | rfl <;> (unfold wrap32 at hA ⊢; omega)
  rw [ha0] at hA ⊢
  have h2A : wrap32 (a * n * 2) = 2 * (a * n) := by
    clear hsize
    rcases ha with rfl | rfl <;> (unfold wrap32; omega)
  rw [h2A] at hsize
  refine ⟨rfl, rfl, ?_⟩
  rcases ha with rfl | rfl <;> (unfold wrap32 at hsize; omega)

/-! ## Accepted metatile files -/

theorem readMetatiles_ok {inp : QByteArray} {tripleLayer : Bool} {version : BaseGameVersion}
    {attrSize t0 a0 n : Int} {ms : List Metatile}
    (h : readMetatiles inp tripleLayer version attrSize t0 a0 n = .ok ms) :
    collect (fun i : Nat => readMetatile inp tripleLayer version attrSize t0 a0 (i : Int))
      (List.range n.toNat) = some ms := by
  unfold readMetatiles at h
  generalize collect (fun i : Nat => readMetatile inp tripleLayer version attrSize t0 a0 (i : Int))
    (List.range n.toNat) = c at h ⊢
  cases c with
  | none => cases h
  | some v => exact congrArg some (Outcome.ok.inj h)

theorem readMetatiles_of_collect {inp : QByteArray} {tripleLayer : Bool}
    {version : BaseGameVersion} {attrSize t0 a0 n : Int} {ms : List Metatile}
    (h : collect (fun i : Nat => readMetatile inp tripleLayer version attrSize t0 a0 (i : Int))
      (List.range n.toNat) = some ms) :
    readMetatiles inp tripleLayer version attrSize t0 a0 n = .ok ms := by
  unfold readMetatiles
  rw [h]

/-- What an accepted run of `parseMetatiles` went through: the size check, a recognised
signature, the two checks on the count, one of the two expected sizes, and a loop that
stayed inside the buffer. -/
theorem parseMetatiles_ok {inp : QByteArray} {cfg : MetatileConfig} {primaryTileset : Bool}
    {ms : List Metatile} (h : parseMetatiles inp cfg primaryTileset = .ok ms) :
    9 ≤ inp.length ∧ inp.length % 2 = 0 ∧
    ∃ version, detectVersion inp = some version
      ∧ readInt32 inp 0 ≤ maxMetatiles cfg primaryTileset ∧ 1 ≤ readInt32 inp 0
      ∧ ∃ doubleTileset : Bool,
        (doubleTileset = true ↔
          inp.length = expectedDoubleSize (getDefaultAttributesSize version) (readInt32 inp 0))
        ∧ (doubleTileset = false →
          inp.length = expectedSingleSize (getDefaultAttributesSize version) (readInt32 inp 0))
        ∧ collect
            (fun i : Nat =>
              readMetatile inp cfg.tripleLayerMetatilesEnabled version
                (getDefaultAttributesSize version)
                (tilesOffset doubleTileset primaryTileset (readInt32 inp 0))
                (attrsOffset doubleTileset primaryTileset (getDefaultAttributesSize version)
                  (readInt32 inp 0))
                (i : Int))
            (List.range (readInt32 inp 0).toNat) = some ms := by
  unfold parseMetatiles at h
  by_cases h1 : inp.length < 9 ∨ inp.length % 2 ≠ 0
  · rw [if_pos h1] at h; cases h
  · rw [if_neg h1] at h
    refine ⟨by omega, by omega, ?_⟩
    cases hv : detectVersion inp with
    | none => rw [hv] at h; cases h
    | some version =>
      rw [hv] at h
      refine ⟨version, rfl, ?_⟩
      change decodeMetatiles inp cfg primaryTileset version = .ok ms at h
      unfold decodeMetatiles at h
      by_cases h2 : readInt32 inp 0 > maxMetatiles cfg primaryTileset
      · rw [if_pos h2] at h; cases h
      · rw [if_neg h2] at h
        by_cases h3 : readInt32 inp 0 < 1
        · rw [if_pos h3] at h; cases h
        · rw [if_neg h3] at h
          refine ⟨not_lt.mp h2, not_lt.mp h3, ?_⟩
          by_cases h4 : inp.length
              = expectedDoubleSize (getDefaultAttributesSize version) (readInt32 inp 0)
          · rw [if_pos h4] at h
            exact ⟨true, ⟨fun _ => h4, fun _ => rfl⟩, fun hf => Bool.noConfusion hf, readMetatiles_ok h⟩
          · rw [if_neg h4] at h
            by_cases h5 : inp.length
                ≠ expectedSingleSize (getDefaultAttributesSize version) (readInt32 inp 0)
            · rw [if_pos h5] at h; cases h
            · rw [if_neg h5] at h
              exact ⟨false, ⟨fun hf => Bool.noConfusion hf, fun he => absurd he h4⟩,
                fun _ => not_not.mp h5, readMetatiles_ok h⟩

/-! ## An accepted metatile file has exactly one of the two sizes -/

theorem getDefaultAttributesSize_cases (version : BaseGameVersion) :
    getDefaultAttributesSize version = 2 ∨ getDefaultAttributesSize version = 4 := by
  cases version
  · exact Or.inl rfl
  · exact Or.inr rfl

theorem attrWidth_cast (version : BaseGameVersion) :
    ((attrWidth version : Nat) : Int) = getDefaultAttributesSize version := by
  cases version <;> rfl

theorem wrap32_four : wrap32 4 = 4 := by unfold wrap32; omega

theorem tilesOffset_wrapped (doubleTileset primaryTileset : Bool) (n : Int) :
    tilesOffset doubleTileset primaryTileset n
      = wrap32 (tilesOffset doubleTileset primaryTileset n) := by
  cases doubleTileset
  · rw [tilesOffset_single]; exact wrap32_four.symm
  · cases primaryTileset
    · rw [tilesOffset_double_secondary]; exact wrap32_idem _
    · rw [tilesOffset_double_primary]; exact wrap32_four.symm

theorem attrsOffset_wrapped (doubleTileset primaryTileset : Bool) (a n : Int) :
    attrsOffset doubleTileset primaryTileset a n
      = wrap32 (attrsOffset doubleTileset primaryTileset a n) := by
  cases doubleTileset
  · rw [attrsOffset_single]; exact wrap32_idem _
  · cases primaryTileset
    · rw [attrsOffset_double_secondary]; exact wrap32_idem _
    · rw [attrsOffset_double_primary]; exact wrap32_idem _

/-- A loop over `n` metatiles that stayed inside the buffer read `n` tile records of 16
bytes from `t0` on and `n` attribute records from `a0` on, none of them displaced by a
wrap of the 32-bit offset. -/
theorem loop_bounds {inp : QByteArray} {tripleLayer : Bool} {version : BaseGameVersion}
    {A t0 a0 n : Int} {ms : List Metatile}
    (hA : A = 2 ∨ A = 4) (hn : 1 ≤ n) (ht : t0 = wrap32 t0) (ha : a0 = wrap32 a0)
    (hc : collect (fun i : Nat => readMetatile inp tripleLayer version A t0 a0 (i : Int))
      (List.range n.toNat) = some ms) :
    (0 ≤ t0 ∧ t0 + 16 * n ≤ inp.length) ∧ (0 ≤ a0 ∧ a0 + A * n ≤ inp.length) := by
  have hlen := inp.length_lt
  have hA1 : 1 ≤ A := by clear * - hA; omega
  have hA16 : A ≤ 16 := by clear * - hA; omega
  have hlast : n.toNat - 1 < n.toNat := by clear * - hn; omega
  have e : ((n.toNat - 1 : Nat) : Int) + 1 = n := by clear * - hn; omega
  have hall : ∀ i : Nat, i < n.toNat →
      (0 ≤ wrap32 (t0 + wrap32 ((i : Int) * 16))
        ∧ wrap32 (t0 + wrap32 ((i : Int) * 16)) + 16 ≤ inp.length)
      ∧ (0 ≤ wrap32 (a0 + wrap32 ((i : Int) * A))
        ∧ wrap32 (a0 + wrap32 ((i : Int) * A)) + A ≤ inp.length) := by
    intro i hi
    obtain ⟨m, hm⟩ := collect_some _ _ _ hc i (List.mem_range.mpr hi)
    exact readMetatile_range hm hA1 hA16
  have hT := stride_bounds t0 16 inp.length n.toNat hlen (by norm_num) ht
    (fun i hi => (hall i hi).1) (n.toNat - 1) hlast
  have hAt := stride_bounds a0 A inp.length n.toNat hlen hA1 ha
    (fun i hi => (hall i hi).2) (n.toNat - 1) hlast
  rw [e] at hT hAt
  refine ⟨⟨hT.1, ?_⟩, ⟨hAt.1, ?_⟩⟩
  · rw [mul_comm]; exact hT.2.2
  · rw [mul_comm]; exact hAt.2.2

theorem exactFileSize_single (a n : Nat) : exactFileSize false a n = 8 + 16 * n + a * n := rfl

theorem exactFileSize_double (a n : Nat) :
    exactFileSize true a n = 8 + 2 * (16 * n) + 2 * (a * n) := rfl

theorem specTilesOffset_single (primaryTileset : Bool) (n : Nat) :
    specTilesOffset false primaryTileset n = 4 := rfl

theorem specTilesOffset_double_primary (n : Nat) : specTilesOffset true true n = 4 := rfl

theorem specTilesOffset_double_secondary (n : Nat) :
    specTilesOffset true false n = 4 + 16 * n := rfl

theorem specAttrsOffset_single (primaryTileset : Bool) (a n : Nat) :
    specAttrsOffset false primaryTileset a n = 4 + 16 * n := rfl

theorem specAttrsOffset_double_primary (a n : Nat) :
    specAttrsOffset true true a n = 4 + 2 * (16 * n) := rfl

theorem specAttrsOffset_double_secondary (a n : Nat) :
    specAttrsOffset true false a n = 4 + 2 * (16 * n) + a * n := rfl

theorem single_to_nat (len a : Nat) (A n : Int) (hA : A = 2 ∨ A = 4) (hAw : (a : Int) = A)
    (hn : 1 ≤ n) (h : (len : Int) = 8 + 16 * n + A * n) :
    len = 8 + 16 * n.toNat + a * n.toNat := by
  rcases hA with hA | hA
  · have ha : a = 2 := by omega
    subst ha; subst hA; omega
  · have ha : a = 4 := by omega
    subst ha; subst hA; omega

theorem double_to_nat (len a : Nat) (A n : Int) (hA : A = 2 ∨ A = 4) (hAw : (a : Int) = A)
    (hn : 1 ≤ n) (h : (len : Int) = 8 + 2 * (16 * n) + 2 * (A * n)) :
    len = 8 + 2 * (16 * n.toNat) + 2 * (a * n.toNat) := by
  rcases hA with hA | hA
  · have ha : a = 2 := by omega
    subst ha; subst hA; omega
  · have ha : a = 4 := by omega
    subst ha; subst hA; omega

/-- The size of every file whose loop ran to its end: the size that holds the count,
the records and the signature, for the count `n` and the branch `doubleTileset` the run
took. -/
theorem accepted_size {inp : QByteArray} {tripleLayer : Bool} {version : BaseGameVersion}
    {A n : Int} {a : Nat} {ms : List Metatile} (doubleTileset primaryTileset : Bool)
    (hA : A = 2 ∨ A = 4) (hAw : (a : Int) = A) (hn : 1 ≤ n)
    (hD : doubleTileset = true → inp.length = expectedDoubleSize A n)
    (hS : doubleTileset = false → inp.length = expectedSingleSize A n)
    (hc : collect
        (fun i : Nat =>
          readMetatile inp tripleLayer version A (tilesOffset doubleTileset primaryTileset n)
            (attrsOffset doubleTileset primaryTileset A n) (i : Int))
        (List.range n.toNat) = some ms) :
    inp.data.length = exactFileSize doubleTileset a n.toNat := by
  obtain ⟨hT, hAt⟩ := loop_bounds hA hn (tilesOffset_wrapped doubleTileset primaryTileset n)
    (attrsOffset_wrapped doubleTileset primaryTileset A n) hc
  have hlen := inp.length_lt
  clear hc
  cases doubleTileset
  · have hsize := hS rfl
    rw [expectedSingleSize_eq] at hsize
    rw [tilesOffset_single] at hT
    rw [attrsOffset_single] at hAt
    rw [exactFileSize_single]
    exact single_to_nat _ a A n hA hAw hn (sizes_single n inp.length A hA hlen hn hsize hT.2 hAt).2
  · have hsize := hD rfl
    rw [expectedDoubleSize_eq] at hsize
    rw [exactFileSize_double]
    cases primaryTileset
    · rw [tilesOffset_double_secondary] at hT
      rw [attrsOffset_double_secondary] at hAt
      exact double_to_nat _ a A n hA hAw hn
        (sizes_double_secondary n inp.length A hA hlen hn hsize hT hAt).2.2
    · rw [tilesOffset_double_primary] at hT
      rw [attrsOffset_double_primary] at hAt
      exact double_to_nat _ a A n hA hAw hn
        (sizes_double_primary n inp.length A hA hlen hn hsize hT.2 hAt).2

/-! ## A file of one of the two sizes is decoded to its end -/

theorem fits_single (n X len : Int) (hn : 1 ≤ n) (hX : 0 ≤ X) (hlen : len < 2147483648)
    (h : len = 8 + 16 * n + X) :
    wrap32 (wrap32 (wrap32 (16 * n) + wrap32 X) + 8) = len
      ∧ wrap32 (wrap32 (wrap32 (wrap32 (16 * n) * 2) + wrap32 (wrap32 X * 2)) + 8) ≠ len
      ∧ wrap32 (4 + wrap32 (16 * n)) = 4 + 16 * n := by
  have e1 : wrap32 (16 * n) = 16 * n := wrap32_of_fits (by omega) (by omega)
  have e2 : wrap32 X = X := wrap32_of_fits (by omega) (by omega)
  rw [e1, e2]
  refine ⟨?_, ?_, ?_⟩
  · rw [wrap32_of_fits (x := 16 * n + X) (by omega) (by omega)]
    rw [wrap32_of_fits (by omega) (by omega)]
    omega
  · unfold wrap32; omega
  · exact wrap32_of_fits (by omega) (by omega)

theorem fits_double (n X len : Int) (hn : 1 ≤ n) (hX : 0 ≤ X) (hlen : len < 2147483648)
    (h : len = 8 + 2 * (16 * n) + 2 * X) :
    wrap32 (wrap32 (wrap32 (wrap32 (16 * n) * 2) + wrap32 (wrap32 X * 2)) + 8) = len
      ∧ wrap32 (4 + wrap32 (16 * n)) = 4 + 16 * n
      ∧ wrap32 (4 + wrap32 (wrap32 (16 * n) * 2)) = 4 + 2 * (16 * n)
      ∧ wrap32 (wrap32 (4 + wrap32 (wrap32 (16 * n) * 2)) + wrap32 X)
          = 4 + 2 * (16 * n) + X := by
  have e1 : wrap32 (16 * n) = 16 * n := wrap32_of_fits (by omega) (by omega)
  have e2 : wrap32 X = X := wrap32_of_fits (by omega) (by omega)
  have e3 : wrap32 (16 * n * 2) = 2 * (16 * n) := by
    rw [wrap32_of_fits (by omega) (by omega)]; omega
  have e4 : wrap32 (X * 2) = 2 * X := by
    rw [wrap32_of_fits (by omega) (by omega)]; omega
  have e5 : wrap32 (4 + 2 * (16 * n)) = 4 + 2 * (16 * n) :=
    wrap32_of_fits (by omega) (by omega)
  rw [e1, e2, e3, e4, e5]
  refine ⟨?_, ?_, rfl, ?_⟩
  · rw [wrap32_of_fits (x := 2 * (16 * n) + 2 * X) (by omega) (by omega)]
    rw [wrap32_of_fits (by omega) (by omega)]
    omega
  · exact wrap32_of_fits (by omega) (by omega)
  · exact wrap32_of_fits (by omega) (by omega)

/-- The offsets of record `k` when the `N` records of each block lie inside the
buffer: no wrap, tile record `k` starts at `T0 + 16 * k` and attribute record `k` at
`A0 + a * k`. -/
theorem record_offsets (len a T0 A0 N k : Nat) (hlen : len < 2147483648)
    (hT : T0 + 16 * N ≤ len) (hAin : A0 + a * N ≤ len) (hkN : k < N) :
    (wrap32 ((T0 : Int) + wrap32 ((k : Int) * 16)) = ((T0 + 16 * k : Nat) : Int)
      ∧ T0 + 16 * k + 16 ≤ len)
    ∧ (wrap32 ((A0 : Int) + wrap32 ((k : Int) * (a : Int))) = ((A0 + a * k : Nat) : Int)
      ∧ A0 + a * k + a ≤ len) := by
  have hmul : a * k + a ≤ a * N := by
    have := Nat.mul_le_mul_left a (Nat.succ_le_of_lt hkN)
    rw [Nat.mul_succ] at this
    exact this
  have e : (k : Int) * (a : Int) = ((a * k : Nat) : Int) := by push_cast; ring
  have hp : wrap32 ((T0 : Int) + wrap32 ((k : Int) * 16)) = ((T0 + 16 * k : Nat) : Int) := by
    clear hmul e
    rw [wrap32_of_fits (x := (k : Int) * 16) (by omega) (by omega)]
    rw [wrap32_of_fits (by omega) (by omega)]
    push_cast; ring
  have hq : wrap32 ((A0 : Int) + wrap32 ((k : Int) * (a : Int))) = ((A0 + a * k : Nat) : Int) := by
    rw [e]
    clear e hp
    generalize a * k = X at hmul ⊢
    generalize a * N = Y at hmul hAin
    rw [wrap32_of_fits (x := (X : Int)) (by omega) (by omega)]
    rw [wrap32_of_fits (by omega) (by omega)]
    push_cast; ring
  exact ⟨⟨hp, by clear * - hT hkN; omega⟩, ⟨hq, by clear * - hAin hmul; omega⟩⟩

/-- The loop over `N` metatiles whose records all lie inside the buffer: it gives the
`N` metatiles stored there. -/
theorem collect_readMetatile (inp : QByteArray) (tripleLayer : Bool)
    (version : BaseGameVersion) (A t0 a0 : Int) (a T0 A0 N : Nat)
    (ht : t0 = (T0 : Int)) (ha : a0 = (A0 : Int)) (hA : A = (a : Int)) (ha4 : a ≤ 4)
    (hT : T0 + 16 * N ≤ inp.data.length) (hAin : A0 + a * N ≤ inp.data.length) :
    collect (fun i : Nat => readMetatile inp tripleLayer version A t0 a0 (i : Int))
      (List.range N) = some (specMetatiles inp tripleLayer version a T0 A0 N) := by
  subst ht ha hA
  unfold specMetatiles
  apply collect_eq_map
  intro k hk
  obtain ⟨⟨hp, hpin⟩, ⟨hq, hqin⟩⟩ := record_offsets inp.data.length a T0 A0 N k
    inp.size_fits_int hT hAin (List.mem_range.mp hk)
  exact readMetatile_eq inp tripleLayer version (a : Int) (T0 : Int) (A0 : Int) (k : Int) a
    (T0 + 16 * k) (A0 + a * k) hp hpin hq hqin (Int.toNat_ofNat a) ha4

theorem attrWidth_cases (version : BaseGameVersion) :
    attrWidth version = 2 ∨ attrWidth version = 4 := by
  cases version
  · exact Or.inl rfl
  · exact Or.inr rfl

theorem exact_size_ok (len a N : Nat) (doubleTileset : Bool) (ha : a = 2 ∨ a = 4)
    (h1 : 1 ≤ N) (h : len = exactFileSize doubleTileset a N) :
    ¬ ((len : Int) < 9 ∨ (len : Int) % 2 ≠ 0) := by
  cases doubleTileset
  · rw [exactFileSize_single] at h
    rcases ha with ha | ha <;> subst ha <;> omega
  · rw [exactFileSize_double] at h
    rcases ha with ha | ha <;> subst ha <;> omega

/-- The decisions of the code on a file of one of the two sizes: the size test it
passes, the offsets it computes (those of the chosen tileset, without a wrap), and the
room the records have. -/
theorem offsets_of_exact (len a N : Nat) (A L : Int) (doubleTileset primaryTileset : Bool)
    (hL : L = (len : Int)) (hlt : len < 2147483648)
    (hAw : (a : Int) = A) (h1 : 1 ≤ N) (hlen : len = exactFileSize doubleTileset a N) :
    (doubleTileset = true → L = expectedDoubleSize A (N : Int))
    ∧ (doubleTileset = false
        → L ≠ expectedDoubleSize A (N : Int) ∧ L = expectedSingleSize A (N : Int))
    ∧ tilesOffset doubleTileset primaryTileset (N : Int)
        = ((specTilesOffset doubleTileset primaryTileset N : Nat) : Int)
    ∧ attrsOffset doubleTileset primaryTileset A (N : Int)
        = ((specAttrsOffset doubleTileset primaryTileset a N : Nat) : Int)
    ∧ specTilesOffset doubleTileset primaryTileset N + 16 * N ≤ len
    ∧ specAttrsOffset doubleTileset primaryTileset a N + a * N ≤ len := by
  have hN1 : (1 : Int) ≤ (N : Int) := by clear * - h1; omega
  have hX : 0 ≤ A * (N : Int) := by subst hAw; positivity
  have hXe : A * (N : Int) = ((a * N : Nat) : Int) := by subst hAw; push_cast; ring
  have hlt2 : L < 2147483648 := by clear * - hL hlt; omega
  cases doubleTileset
  · rw [exactFileSize_single] at hlen
    have hi : L = 8 + 16 * (N : Int) + A * (N : Int) := by
      rw [hL, hlen, hXe]; push_cast; ring
    obtain ⟨f1, f2, f3⟩ := fits_single (N : Int) (A * (N : Int)) L hN1 hX hlt2 hi
    refine ⟨fun hf => Bool.noConfusion hf, fun _ => ⟨?_, ?_⟩, ?_, ?_, ?_, ?_⟩
    · rw [expectedDoubleSize_eq]; exact fun h => f2 h.symm
    · rw [expectedSingleSize_eq]; exact f1.symm
    · rw [tilesOffset_single, specTilesOffset_single]; rfl
    · rw [attrsOffset_single, specAttrsOffset_single, f3]; push_cast; ring
    · rw [specTilesOffset_single, hlen]; clear * - h1; omega
    · rw [specAttrsOffset_single, hlen]; clear * - h1; omega
  · rw [exactFileSize_double] at hlen
    have hi : L = 8 + 2 * (16 * (N : Int)) + 2 * (A * (N : Int)) := by
      rw [hL, hlen, hXe]; push_cast; ring
    obtain ⟨f1, f2, f3, f4⟩ := fits_double (N : Int) (A * (N : Int)) L hN1 hX hlt2 hi
    refine ⟨fun _ => ?_, fun hf => Bool.noConfusion hf, ?_, ?_, ?_, ?_⟩
    · rw [expectedDoubleSize_eq]; exact f1.symm
    · cases primaryTileset
      · rw [tilesOffset_double_secondary, specTilesOffset_double_secondary, f2]
        push_cast; ring
      · rw [tilesOffset_double_primary, specTilesOffset_double_primary]; rfl
    · cases primaryTileset
      · rw [attrsOffset_double_secondary, specAttrsOffset_double_secondary, f4, hXe]
        push_cast; ring
      · rw [attrsOffset_double_primary, specAttrsOffset_double_primary, f3]
        push_cast; ring
    · cases primaryTileset
      · rw [specTilesOffset_double_secondary, hlen]; clear * - h1; omega
      · rw [specTilesOffset_double_primary, hlen]; clear * - h1; omega
    · cases primaryTileset
      · rw [specAttrsOffset_double_secondary, hlen]; clear * - h1; omega
      · rw [specAttrsOffset_double_primary, hlen]; clear * - h1; omega

/-- Every file of one of the two sizes, with a recognised signature and a count within
the bounds, is decoded: the run returns the metatiles stored at the offsets of the
chosen tileset. -/
theorem parseMetatiles_of_exact (inp : QByteArray) (cfg : MetatileConfig)
    (primaryTileset : Bool) (version : BaseGameVersion) (N : Nat) (doubleTileset : Bool)
    (hv : detectVersion inp = some version) (hN : readInt32 inp 0 = (N : Int)) (h1 : 1 ≤ N)
    (hmax : (N : Int) ≤ maxMetatiles cfg primaryTileset)
    (hlen : inp.data.length = exactFileSize doubleTileset (attrWidth version) N) :
    parseMetatiles inp cfg primaryTileset
      = .ok (specMetatiles inp cfg.tripleLayerMetatilesEnabled version (attrWidth version)
          (specTilesOffset doubleTileset primaryTileset N)
          (specAttrsOffset doubleTileset primaryTileset (attrWidth version) N) N) := by
  have ha := attrWidth_cases version
  have hok : ¬ (inp.length < 9 ∨ inp.length % 2 ≠ 0) :=
    exact_size_ok _ _ N doubleTileset ha h1 hlen
  have hAw := attrWidth_cast version
  have hN1 : ¬ (N : Int) < 1 := by clear * - h1; omega
  obtain ⟨hD, hS, ht, ha0, hT, hAin⟩ := offsets_of_exact inp.data.length (attrWidth version) N
    (getDefaultAttributesSize version) inp.length doubleTileset primaryTileset rfl
    inp.size_fits_int hAw h1 hlen
  have ha4 : attrWidth version ≤ 4 := by clear * - ha; omega
  have hcol := collect_readMetatile inp cfg.tripleLayerMetatilesEnabled version
    (getDefaultAttributesSize version) _ _ (attrWidth version) _ _ N ht ha0 hAw.symm ha4 hT hAin
  unfold parseMetatiles
  rw [if_neg hok, hv]
  change decodeMetatiles inp cfg primaryTileset version = _
  unfold decodeMetatiles
  rw [hN, if_neg (not_lt.mpr hmax), if_neg hN1]
  cases doubleTileset
  · rw [if_neg (hS rfl).1, if_neg (not_not.mpr (hS rfl).2)]
    apply readMetatiles_of_collect
    rw [Int.toNat_ofNat]
    exact hcol
  · rw [if_pos (hD rfl)]
    apply readMetatiles_of_collect
    rw [Int.toNat_ofNat]
    exact hcol

/-- What an accepted run of `parseMetatiles` decoded: the file has a recognised
signature, a count `N` within the bounds and exactly the size of the branch the run
took, and the run returned the `N` metatiles stored at the offsets of the chosen
tileset. -/
theorem parseMetatiles_exact {inp : QByteArray} {cfg : MetatileConfig} {primaryTileset : Bool}
    {ms : List Metatile} (h : parseMetatiles inp cfg primaryTileset = .ok ms) :
    ∃ (version : BaseGameVersion) (N : Nat) (doubleTileset : Bool),
      detectVersion inp = some version ∧ readInt32 inp 0 = (N : Int) ∧ 1 ≤ N
      ∧ (N : Int) ≤ maxMetatiles cfg primaryTileset
      ∧ (doubleTileset = true ↔
          inp.length = expectedDoubleSize (getDefaultAttributesSize version) (readInt32 inp 0))
      ∧ inp.data.length = exactFileSize doubleTileset (attrWidth version) N
      ∧ ms = specMetatiles inp cfg.tripleLayerMetatilesEnabled version (attrWidth version)
          (specTilesOffset doubleTileset primaryTileset N)
          (specAttrsOffset doubleTileset primaryTileset (attrWidth version) N) N := by
  obtain ⟨_, _, version, hv, hmax, h1, d, hD, hS, hc⟩ := parseMetatiles_ok h
  have hNe : readInt32 inp 0 = (((readInt32 inp 0).toNat : Nat) : Int) :=
    (Int.toNat_of_nonneg (le_trans (by decide) h1)).symm
  have hN1 : 1 ≤ (readInt32 inp 0).toNat := by
    clear * - h1
    generalize readInt32 inp 0 = n at h1
    omega
  have hsize := accepted_size d primaryTileset (getDefaultAttributesSize_cases version)
    (attrWidth_cast version) h1 hD.mp hS hc
  have hmax2 : (((readInt32 inp 0).toNat : Nat) : Int) ≤ maxMetatiles cfg primaryTileset := by
    rw [← hNe]; exact hmax
  have hfwd := parseMetatiles_of_exact inp cfg primaryTileset version (readInt32 inp 0).toNat d
    hv hNe hN1 hmax2 hsize
  rw [h] at hfwd
  exact ⟨version, (readInt32 inp 0).toNat, d, hv, hNe, hN1, hmax2, hD, hsize,
    Outcome.ok.inj hfwd⟩

/-! ## The signature, the count and the decoded list -/

theorem detectVersion_rse (inp : QByteArray) (h4 : 4 ≤ inp.data.length) :
    detectVersion inp = some .pokeemerald ↔ trailingSignature inp = signatureRSE := by
  have e1 : inp.data.length - 4 + 0 = inp.data.length - 4 := rfl
  have e2 : inp.data.length - 4 + 1 = inp.data.length - 3 := by omega
  have e3 : inp.data.length - 4 + 2 = inp.data.length - 2 := by omega
  have e4 : inp.data.length - 4 + 3 = inp.data.length - 1 := by omega
  unfold detectVersion trailingSignature signatureRSE
  rw [e1, e2, e3, e4]
  generalize inp.at (inp.data.length - 4) = a
  generalize inp.at (inp.data.length - 3) = b
  generalize inp.at (inp.data.length - 2) = c
  generalize inp.at (inp.data.length - 1) = d
  by_cases h : a = 82 ∧ b = 83 ∧ c = 69 ∧ d = 32
  · rw [if_pos h]
    obtain ⟨rfl, rfl, rfl, rfl⟩ := h
    simp
  · rw [if_neg h]
    have hl : ¬ [a, b, c, d] = [82, 83, 69, 32] := by
      intro hl
      simp only [List.cons.injEq, and_true] at hl
      exact h hl
    by_cases h2 : a = 70 ∧ b = 82 ∧ c = 76 ∧ d = 71
    · rw [if_pos h2]; simp [hl]
    · rw [if_neg h2]; simp [hl]

theorem detectVersion_frlg (inp : QByteArray) (h4 : 4 ≤ inp.data.length) :
    detectVersion inp = some .pokefirered ↔ trailingSignature inp = signatureFRLG := by
  have e1 : inp.data.length - 4 + 0 = inp.data.length - 4 := rfl
  have e2 : inp.data.length - 4 + 1 = inp.data.length - 3 := by omega
  have e3 : inp.data.length - 4 + 2 = inp.data.length - 2 := by omega
  have e4 : inp.data.length - 4 + 3 = inp.data.length - 1 := by omega
  unfold detectVersion trailingSignature signatureFRLG
  rw [e1, e2, e3, e4]
  generalize inp.at (inp.data.length - 4) = a
  generalize inp.at (inp.data.length - 3) = b
  generalize inp.at (inp.data.length - 2) = c
  generalize inp.at (inp.data.length - 1) = d
  by_cases h : a = 82 ∧ b = 83 ∧ c = 69 ∧ d = 32
  · rw [if_pos h]
    obtain ⟨rfl, rfl, rfl, rfl⟩ := h
    simp
  · rw [if_neg h]
    by_cases h2 : a = 70 ∧ b = 82 ∧ c = 76 ∧ d = 71
    · rw [if_pos h2]
      obtain ⟨rfl, rfl, rfl, rfl⟩ := h2
      simp
    · rw [if_neg h2]
      have hl : ¬ [a, b, c, d] = [70, 82, 76, 71] := by
        intro hl
        simp only [List.cons.injEq, and_true] at hl
        exact h2 hl
      simp [hl]

theorem detectVersion_none (inp : QByteArray) (h4 : 4 ≤ inp.data.length)
    (h1 : trailingSignature inp ≠ signatureRSE) (h2 : trailingSignature inp ≠ signatureFRLG) :
    detectVersion inp = none := by
  cases hv : detectVersion inp with
  | none => rfl
  | some version =>
    cases version
    · exact absurd ((detectVersion_rse inp h4).mp hv) h1
    · exact absurd ((detectVersion_frlg inp h4).mp hv) h2

theorem or_shift_lt (acc b k : Nat) (hacc : acc < 2 ^ k) :
    acc ||| (b <<< k) = acc + 2 ^ k * b := by
  have h := Nat.mul_add_lt_is_or hacc b
  rw [Nat.lor_comm, Nat.shiftLeft_eq, Nat.mul_comm b, ← h]
  omega

/-- The count the code reads is the unsigned little-endian word at the offset, taken
as a signed 32-bit `int`. -/
theorem readInt32_eq_le32 (inp : QByteArray) (o : Nat) :
    readInt32 inp o = wrap32 ((le32 inp o : Nat) : Int) := by
  have h0 := inp.at_lt o
  have h1 := inp.at_lt (o + 1)
  have h2 := inp.at_lt (o + 2)
  unfold readInt32 le32
  generalize inp.at o = a at h0
  generalize inp.at (o + 1) = b at h1
  generalize inp.at (o + 2) = c at h2
  generalize inp.at (o + 3) = d
  have s1 : a ||| (b <<< 8) = a + 2 ^ 8 * b := or_shift_lt a b 8 (by omega)
  have s2 : (a + 2 ^ 8 * b) ||| (c <<< 16) = a + 2 ^ 8 * b + 2 ^ 16 * c :=
    or_shift_lt _ c 16 (by omega)
  have s3 : (a + 2 ^ 8 * b + 2 ^ 16 * c) ||| (d <<< 24)
      = a + 2 ^ 8 * b + 2 ^ 16 * c + 2 ^ 24 * d := or_shift_lt _ d 24 (by omega)
  rw [s1, s2, s3]
  norm_num

theorem readInt32_of_le32 (inp : QByteArray) (o N : Nat) (h : le32 inp o = N)
    (hN : N < 2147483648) : readInt32 inp o = (N : Int) := by
  rw [readInt32_eq_le32, h]
  exact wrap32_of_fits (by omega) (by omega)

theorem specMetatiles_length (inp : QByteArray) (tripleLayer : Bool) (version : BaseGameVersion)
    (a t0 a0 n : Nat) : (specMetatiles inp tripleLayer version a t0 a0 n).length = n := by
  unfold specMetatiles
  rw [List.length_map, List.length_range]

theorem specMetatiles_get? (inp : QByteArray) (tripleLayer : Bool) (version : BaseGameVersion)
    (a t0 a0 n i : Nat) (hi : i < n) :
    (specMetatiles inp tripleLayer version a t0 a0 n).get? i
      = some (specMetatile inp tripleLayer version a (t0 + 16 * i) (a0 + a * i)) := by
  unfold specMetatiles
  rw [List.get?_eq_getElem?, List.getElem?_map, List.getElem?_range hi]
  rfl

theorem specMetatiles_mem {inp : QByteArray} {tripleLayer : Bool} {version : BaseGameVersion}
    {a t0 a0 n : Nat} {m : Metatile}
    (h : m ∈ specMetatiles inp tripleLayer version a t0 a0 n) :
    ∃ i, i < n ∧ m = specMetatile inp tripleLayer version a (t0 + 16 * i) (a0 + a * i) := by
  unfold specMetatiles at h
  obtain ⟨i, hi, he⟩ := List.mem_map.mp h
  exact ⟨i, List.mem_range.mp hi, he.symm⟩

theorem fileTiles_length (inp : QByteArray) (start : Nat) : (fileTiles inp start).length = 8 := by
  unfold fileTiles
  rw [List.length_map, List.length_range]

theorem fileTiles_get? (inp : QByteArray) (start j : Nat) (hj : j < 8) :
    (fileTiles inp start).get? j = some (Tile.ofRaw (le16At inp (start + 2 * j))) := by
  unfold fileTiles
  rw [List.get?_eq_getElem?, List.getElem?_map, List.getElem?_range hj]
  rfl

theorem le16At_lt (inp : QByteArray) (k : Nat) : le16At inp k < 65536 := by
  have h0 := inp.at_lt k
  have h1 := inp.at_lt (k + 1)
  unfold le16At
  omega

/-! ## Tile words and attribute values -/

theorem toNat_decide_mod_two (x : Nat) : (decide (x % 2 = 1)).toNat = x % 2 := by
  rcases Nat.mod_two_eq_zero_or_one x with h | h <;> simp [h]

/-- The fields of the tile made from a 16-bit word, and the word they pack to. -/
theorem Tile.ofRaw_fields (w : Nat) (hw : w < 65536) :
    (Tile.ofRaw w).tileId = w % 1024
    ∧ (Tile.ofRaw w).xflip = w.testBit 10
    ∧ (Tile.ofRaw w).yflip = w.testBit 11
    ∧ (Tile.ofRaw w).palette = w / 4096
    ∧ (Tile.ofRaw w).tileId ||| ((Tile.ofRaw w).xflip.toNat <<< 10)
        ||| ((Tile.ofRaw w).yflip.toNat <<< 11) ||| ((Tile.ofRaw w).palette <<< 12) = w := by
  have hp : w / 4096 % 16 = w / 4096 := Nat.mod_eq_of_lt (by omega)
  refine ⟨rfl, ?_, ?_, ?_, ?_⟩
  · rw [Nat.testBit_to_div_mod]; rfl
  · rw [Nat.testBit_to_div_mod]; rfl
  · exact hp
  · show w % 1024 ||| ((decide (w / 1024 % 2 = 1)).toNat <<< 10)
        ||| ((decide (w / 2048 % 2 = 1)).toNat <<< 11) ||| ((w / 4096 % 16) <<< 12) = w
    rw [toNat_decide_mod_two, toNat_decide_mod_two]
    have s1 : w % 1024 ||| ((w / 1024 % 2) <<< 10) = w % 1024 + 2 ^ 10 * (w / 1024 % 2) :=
      or_shift_lt _ _ 10 (by omega)
    have s2 : (w % 1024 + 2 ^ 10 * (w / 1024 % 2)) ||| ((w / 2048 % 2) <<< 11)
        = w % 1024 + 2 ^ 10 * (w / 1024 % 2) + 2 ^ 11 * (w / 2048 % 2) :=
      or_shift_lt _ _ 11 (by omega)
    have s3 : (w % 1024 + 2 ^ 10 * (w / 1024 % 2) + 2 ^ 11 * (w / 2048 % 2))
          ||| ((w / 4096 % 16) <<< 12)
        = w % 1024 + 2 ^ 10 * (w / 1024 % 2) + 2 ^ 11 * (w / 2048 % 2)
          + 2 ^ 12 * (w / 4096 % 16) :=
      or_shift_lt _ _ 12 (by omega)
    rw [s1, s2, s3]
    omega

/-- The attribute value of `a` bytes as the sum of `byte_j * 256^j`. -/
theorem leValue_eq_sum (inp : QByteArray) :
    ∀ (a start : Nat),
      leValue inp start a = ∑ j in Finset.range a, inp.at (start + j) * 256 ^ j := by
  intro a
  induction a with
  | zero => intro start; rfl
  | succ a ih =>
    intro start
    rw [leValue_succ, ih (start + 1), Finset.sum_range_succ', Finset.mul_sum]
    have e : ∀ j, 256 * (inp.at (start + 1 + j) * 256 ^ j)
        = inp.at (start + (j + 1)) * 256 ^ (j + 1) := by
      intro j
      rw [Nat.add_right_comm start 1 j, Nat.add_assoc start j 1, pow_succ]
      ring
    rw [Finset.sum_congr rfl (fun j _ => e j)]
    simp only [Nat.add_zero, pow_zero, Nat.mul_one]
    exact Nat.add_comm _ _

/-- The two expected sizes when the larger one fits a 32-bit `int`. -/
theorem expected_sizes_fit (n X : Int) (hn : 0 ≤ n) (hX : 0 ≤ X)
    (h : 8 + 2 * (16 * n) + 2 * X < 2147483648) :
    wrap32 (wrap32 (wrap32 (16 * n) + wrap32 X) + 8) = 8 + 16 * n + X
      ∧ wrap32 (wrap32 (wrap32 (wrap32 (16 * n) * 2) + wrap32 (wrap32 X * 2)) + 8)
          = 8 + 2 * (16 * n) + 2 * X := by
  have e1 : wrap32 (16 * n) = 16 * n := wrap32_of_fits (by omega) (by omega)
  have e2 : wrap32 X = X := wrap32_of_fits (by omega) (by omega)
  have e3 : wrap32 (16 * n * 2) = 2 * (16 * n) := by
    rw [wrap32_of_fits (by omega) (by omega)]; omega
  have e4 : wrap32 (X * 2) = 2 * X := by
    rw [wrap32_of_fits (by omega) (by omega)]; omega
  rw [e1, e2, e3, e4]
  constructor
  · rw [wrap32_of_fits (x := 16 * n + X) (by omega) (by omega)]
    rw [wrap32_of_fits (by omega) (by omega)]
    omega
  · rw [wrap32_of_fits (x := 2 * (16 * n) + 2 * X) (by omega) (by omega)]
    rw [wrap32_of_fits (by omega) (by omega)]
    omega

/-! ## The palette loop -/

theorem readColors_done (inp : QByteArray) (fuel : Nat) (i : Int) (h : ¬ i < inp.length) :
    readColors inp (fuel + 1) i = some [] := by
  rw [readColors, if_neg h]

theorem readColors_step (inp : QByteArray) (fuel : Nat) (i : Int) (red green blue : Nat)
    (h : i < inp.length) (h0 : inp.at? (wrap32 (i + 0)) = some red)
    (h1 : inp.at? (wrap32 (i + 1)) = some green) (h2 : inp.at? (wrap32 (i + 2)) = some blue) :
    readColors inp (fuel + 1) i
      = (readColors inp fuel (wrap32 (i + 4))).map (fun rest => qRgb red green blue :: rest) := by
  rw [readColors, if_pos h, h0, h1, h2]

theorem colorsFrom_succ (inp : QByteArray) (i n : Nat) :
    colorsFrom inp i (n + 1)
      = qRgb (inp.at i) (inp.at (i + 1)) (inp.at (i + 2)) :: colorsFrom inp (i + 4) n := rfl

/-- The loop from a position `4 * n` bytes before the end, with more than `n` steps
allowed: it ends without a read outside the buffer and gives the `n` colours stored
from there on. -/
theorem readColors_eq (inp : QByteArray) :
    ∀ (n fuel i : Nat), i + 4 * n = inp.data.length → n < fuel →
      readColors inp fuel (i : Int) = some (colorsFrom inp i n) := by
  intro n
  induction n with
  | zero =>
    intro fuel i hi hf
    obtain ⟨f, rfl⟩ : ∃ f, fuel = f + 1 := ⟨fuel - 1, by omega⟩
    have hn : ¬ (i : Int) < inp.length := by
      unfold QByteArray.length; omega
    rw [readColors_done inp f _ hn]
    rfl
  | succ n ih =>
    intro fuel i hi hf
    obtain ⟨f, rfl⟩ : ∃ f, fuel = f + 1 := ⟨fuel - 1, by omega⟩
    have hlen := inp.size_fits_int
    have hlt : (i : Int) < inp.length := by
      unfold QByteArray.length; omega
    have w0 : wrap32 ((i : Int) + 0) = ((i : Nat) : Int) := by
      rw [wrap32_of_fits (by omega) (by omega)]; omega
    have w1 : wrap32 ((i : Int) + 1) = ((i + 1 : Nat) : Int) := by
      rw [wrap32_of_fits (by omega) (by omega)]; omega
    have w2 : wrap32 ((i : Int) + 2) = ((i + 2 : Nat) : Int) := by
      rw [wrap32_of_fits (by omega) (by omega)]; omega
    have w4 : wrap32 ((i : Int) + 4) = ((i + 4 : Nat) : Int) := by
      rw [wrap32_of_fits (by omega) (by omega)]; omega
    have r0 := inp.at?_of_lt i (by omega)
    have r1 := inp.at?_of_lt (i + 1) (by omega)
    have r2 := inp.at?_of_lt (i + 2) (by omega)
    rw [← w0] at r0
    rw [← w1] at r1
    rw [← w2] at r2
    rw [readColors_step inp f _ _ _ _ hlt r0 r1 r2, w4, ih f (i + 4) (by omega) (by omega),
      colorsFrom_succ]
    rfl

/-- The bound `parsePalette` gives the loop is never exhausted: on a buffer whose
length is a multiple of 4 the loop ends and gives the colours of the file. -/
theorem readColors_enough (inp : QByteArray) (h : inp.data.length % 4 = 0) :
    readColors inp (inp.data.length + 1) 0 = some (colorsFrom inp 0 (inp.data.length / 4)) := by
  exact readColors_eq inp (inp.data.length / 4) (inp.data.length + 1) 0 (by omega) (by omega)

theorem colorsFrom_length (inp : QByteArray) : ∀ (n i : Nat), (colorsFrom inp i n).length = n := by
  intro n
  induction n with
  | zero => intro i; rfl
  | succ n ih => intro i; rw [colorsFrom_succ, List.length_cons, ih]

/-! ## Claims on the size check and the count of `parseMetatiles` -/

/-- C15. `parseMetatiles` rejects every buffer whose length is less than 9 or odd: the
run fails with the unexpected-size diagnostic, whatever the last four bytes, the count
word and the ambient values are (the size test is the first thing the run does), the
error flag is raised and the list handed back is empty. -/
theorem parseMetatiles_rejects_bad_size (inp : QByteArray) (cfg : MetatileConfig)
    (primaryTileset before : Bool) (h : inp.length < 9 ∨ inp.length % 2 ≠ 0) :
    parseMetatiles inp cfg primaryTileset = .failed .unexpectedSize
    ∧ (parseMetatiles inp cfg primaryTileset).errorFlag before = true
    ∧ (parseMetatiles inp cfg primaryTileset).returnedList = [] := by
  have e : parseMetatiles inp cfg primaryTileset = .failed .unexpectedSize := by
    unfold parseMetatiles
    rw [if_pos h]
  rw [e]
  exact ⟨rfl, rfl, rfl⟩

/-- C15, on an 11-byte file that ends in `"RSE "` and has the count 1: the odd length
alone rejects it. -/
theorem parseMetatiles_rejects_bad_size_witness :
    (oddMetatileFile.length < 9 ∨ oddMetatileFile.length % 2 ≠ 0)
    ∧ parseMetatiles oddMetatileFile sampleConfig true = .failed .unexpectedSize
    ∧ (parseMetatiles oddMetatileFile sampleConfig true).errorFlag false = true
    ∧ (parseMetatiles oddMetatileFile sampleConfig true).returnedList = [] :=
  ⟨by decide, parseMetatiles_rejects_bad_size oddMetatileFile sampleConfig true false (by decide)⟩

/-- C14, as stated, fails on the 10-byte file of family A whose count word is
`0xFFFFFFFF`: the file passes the size and signature checks, its unsigned count
4294967295 exceeds the maximum of 512, and the run fails with the no-data diagnostic,
not with the too-many diagnostic. -/
theorem parseMetatiles_huge_count_no_data :
    ¬ (hugeCountFile.length < 9 ∨ hugeCountFile.length % 2 ≠ 0)
    ∧ detectVersion hugeCountFile = some .pokeemerald
    ∧ le32 hugeCountFile 0 = 4294967295
    ∧ maxMetatiles sampleConfig true = 512
    ∧ readInt32 hugeCountFile 0 = -1
    ∧ parseMetatiles hugeCountFile sampleConfig true = .failed .noMetatileData := by
  exact ⟨by decide, by decide, by decide, by decide, by decide, by decide⟩

/-- C14, amended. For every buffer that passes the size and signature checks, with the
count read as the signed 32-bit value of the little-endian word at offset 0: the run
fails with the too-many diagnostic (naming the count and the maximum) when the count
exceeds `maxMetatiles`, and otherwise with the no-data diagnostic when the count is
below 1. -/
theorem parseMetatiles_count_checks (inp : QByteArray) (cfg : MetatileConfig)
    (primaryTileset : Bool) (version : BaseGameVersion)
    (hsize : ¬ (inp.length < 9 ∨ inp.length % 2 ≠ 0))
    (hv : detectVersion inp = some version) :
    readInt32 inp 0 = wrap32 ((le32 inp 0 : Nat) : Int)
    ∧ (readInt32 inp 0 > maxMetatiles cfg primaryTileset →
        parseMetatiles inp cfg primaryTileset
          = .failed (.tooManyMetatiles (readInt32 inp 0) (maxMetatiles cfg primaryTileset)))
    ∧ (readInt32 inp 0 ≤ maxMetatiles cfg primaryTileset → readInt32 inp 0 < 1 →
        parseMetatiles inp cfg primaryTileset = .failed .noMetatileData) := by
  have e : parseMetatiles inp cfg primaryTileset
      = decodeMetatiles inp cfg primaryTileset version := by
    unfold parseMetatiles
    rw [if_neg hsize, hv]
  rw [e]
  refine ⟨readInt32_eq_le32 inp 0, fun h => ?_, fun h1 h2 => ?_⟩
  · unfold decodeMetatiles
    rw [if_pos h]
  · unfold decodeMetatiles
    rw [if_neg (not_lt.mpr h1), if_pos h2]

/-- C14, amended, on the 10-byte file of family A with the count 513 and the maximum
512: the run fails with the too-many diagnostic. -/
theorem parseMetatiles_count_checks_witness :
    ¬ (largeCountFile.length < 9 ∨ largeCountFile.length % 2 ≠ 0)
    ∧ detectVersion largeCountFile = some .pokeemerald
    ∧ readInt32 largeCountFile 0 = 513
    ∧ parseMetatiles largeCountFile sampleConfig true = .failed (.tooManyMetatiles 513 512) :=
  ⟨by decide, by decide, by decide,
    (parseMetatiles_count_checks largeCountFile sampleConfig true .pokeemerald (by decide)
      (by decide)).2.1 (by decide)⟩

/-- On the 10-byte file of family A with the count 0 the run fails with the no-data
diagnostic. -/
theorem parseMetatiles_zero_count :
    parseMetatiles zeroCountFile sampleConfig true = .failed .noMetatileData := by
  decide

/-! ## Claims on the two file sizes -/

/-- The whole of what an accepted run decided and decoded: the family, the count `N`,
the branch, the two offsets it computed (those of the chosen tileset), the room the
records have, and the list returned. -/
theorem parseMetatiles_layout {inp : QByteArray} {cfg : MetatileConfig} {primaryTileset : Bool}
    {ms : List Metatile} (h : parseMetatiles inp cfg primaryTileset = .ok ms) :
    ∃ (version : BaseGameVersion) (N : Nat) (doubleTileset : Bool),
      detectVersion inp = some version ∧ readInt32 inp 0 = (N : Int) ∧ 1 ≤ N
      ∧ (doubleTileset = true ↔
          inp.length = expectedDoubleSize (getDefaultAttributesSize version) (readInt32 inp 0))
      ∧ tilesOffset doubleTileset primaryTileset (readInt32 inp 0)
          = ((specTilesOffset doubleTileset primaryTileset N : Nat) : Int)
      ∧ attrsOffset doubleTileset primaryTileset (getDefaultAttributesSize version)
            (readInt32 inp 0)
          = ((specAttrsOffset doubleTileset primaryTileset (attrWidth version) N : Nat) : Int)
      ∧ specTilesOffset doubleTileset primaryTileset N + 16 * N ≤ inp.data.length
      ∧ specAttrsOffset doubleTileset primaryTileset (attrWidth version) N
          + attrWidth version * N ≤ inp.data.length
      ∧ ms = specMetatiles inp cfg.tripleLayerMetatilesEnabled version (attrWidth version)
          (specTilesOffset doubleTileset primaryTileset N)
          (specAttrsOffset doubleTileset primaryTileset (attrWidth version) N) N := by
  obtain ⟨version, N, d, hv, hN, h1, _, hD, hsize, hms⟩ := parseMetatiles_exact h
  obtain ⟨_, _, ht, ha0, hT, hAin⟩ := offsets_of_exact inp.data.length (attrWidth version) N
    (getDefaultAttributesSize version) inp.length d primaryTileset rfl
    inp.size_fits_int (attrWidth_cast version) h1 hsize
  rw [← hN] at ht ha0
  exact ⟨version, N, d, hv, hN, h1, hD, ht, ha0, hT, hAin, hms⟩

/-- C11, as stated, fails: the 26-byte file of family A with the count 1 is accepted
although its length is neither `4 + 1*16 + 1*2 = 22` nor `4 + 2*(1*16) + 2*(1*2) = 40`,
and the 22-byte file of family A with the count 1 is rejected although its length is
`4 + 1*16 + 1*2`. -/
theorem parseMetatiles_spec_size_refuted :
    detectVersion rseMetatileFile = some .pokeemerald
    ∧ readInt32 rseMetatileFile 0 = 1
    ∧ maxMetatiles sampleConfig true = 512
    ∧ rseMetatileFile.data.length = 26
    ∧ specSingleSize 2 1 = 22 ∧ specDoubleSize 2 1 = 40
    ∧ parseMetatiles rseMetatileFile sampleConfig true
        = .ok (specMetatiles rseMetatileFile false .pokeemerald 2 4 20 1)
    ∧ detectVersion specSizedFile = some .pokeemerald
    ∧ readInt32 specSizedFile 0 = 1
    ∧ specSizedFile.data.length = specSingleSize 2 1
    ∧ parseMetatiles specSizedFile sampleConfig true
        = .failed (.unexpectedFileSize 26 44 22) := by
  exact ⟨by decide, by decide, by decide, by decide, by decide, by decide, by decide,
    by decide, by decide, by decide, by decide⟩

/-- C11, amended. Given a recognised signature and a count `N` with
`1 ≤ N ≤ maxMetatiles`, `parseMetatiles` accepts the buffer exactly when its length is
`8 + N*16 + N*attrSize` (single tileset) or `8 + 2*(N*16) + 2*(N*attrSize)` (double
tileset); and when the double size fits a 32-bit `int`, a buffer of any other length
is rejected with one of the two size diagnostics. -/
theorem parseMetatiles_accepts_iff (inp : QByteArray) (cfg : MetatileConfig)
    (primaryTileset : Bool) (version : BaseGameVersion) (N : Nat)
    (hv : detectVersion inp = some version) (hN : readInt32 inp 0 = (N : Int)) (h1 : 1 ≤ N)
    (hmax : (N : Int) ≤ maxMetatiles cfg primaryTileset) :
    ((∃ ms, parseMetatiles inp cfg primaryTileset = .ok ms) ↔
        (inp.data.length = 8 + N * 16 + N * attrWidth version
          ∨ inp.data.length = 8 + 2 * (N * 16) + 2 * (N * attrWidth version)))
    ∧ (8 + 2 * (N * 16) + 2 * (N * attrWidth version) < 2147483648 →
        inp.data.length ≠ 8 + N * 16 + N * attrWidth version →
        inp.data.length ≠ 8 + 2 * (N * 16) + 2 * (N * attrWidth version) →
        parseMetatiles inp cfg primaryTileset = .failed .unexpectedSize
        ∨ parseMetatiles inp cfg primaryTileset
            = .failed (.unexpectedFileSize
                ((8 + N * 16 + N * attrWidth version : Nat) : Int)
                ((8 + 2 * (N * 16) + 2 * (N * attrWidth version) : Nat) : Int)
                inp.length)) := by
  have es : exactFileSize false (attrWidth version) N = 8 + N * 16 + N * attrWidth version := by
    rw [exactFileSize_single]; ring
  have ed : exactFileSize true (attrWidth version) N
      = 8 + 2 * (N * 16) + 2 * (N * attrWidth version) := by
    rw [exactFileSize_double]; ring
  refine ⟨⟨fun hacc => ?_, fun hlen => ?_⟩, fun hfit hns hnd => ?_⟩
  · obtain ⟨ms, hms⟩ := hacc
    obtain ⟨version2, N2, d, hv2, hN2, _, _, _, hsize, _⟩ := parseMetatiles_exact hms
    have ev : version2 = version := Option.some.inj (hv2.symm.trans hv)
    have eN : N2 = N := Int.ofNat.inj (hN2.symm.trans hN)
    subst ev eN
    cases d
    · exact Or.inl (hsize.trans es)
    · exact Or.inr (hsize.trans ed)
  · rcases hlen with hlen | hlen
    · exact ⟨_, parseMetatiles_of_exact inp cfg primaryTileset version N false hv hN h1 hmax
        (hlen.trans es.symm)⟩
    · exact ⟨_, parseMetatiles_of_exact inp cfg primaryTileset version N true hv hN h1 hmax
        (hlen.trans ed.symm)⟩
  · by_cases hsize : inp.length < 9 ∨ inp.length % 2 ≠ 0
    · left
      unfold parseMetatiles
      rw [if_pos hsize]
    · right
      have hAw := attrWidth_cast version
      have hN1 : ¬ (N : Int) < 1 := by clear * - h1; omega
      have hL : inp.length = (inp.data.length : Int) := rfl
      have hXe : getDefaultAttributesSize version * (N : Int)
          = ((N * attrWidth version : Nat) : Int) := by
        rw [← hAw]; push_cast; ring
      have hX : 0 ≤ getDefaultAttributesSize version * (N : Int) := by
        rw [hXe]; exact Int.ofNat_nonneg _
      have hfit2 : 8 + 2 * (16 * (N : Int)) + 2 * (getDefaultAttributesSize version * (N : Int))
          < 2147483648 := by
        rw [hXe]
        clear * - hfit
        generalize N * attrWidth version = Y at hfit ⊢
        omega
      obtain ⟨e1, e2⟩ := expected_sizes_fit (N : Int)
        (getDefaultAttributesSize version * (N : Int)) (Int.ofNat_nonneg N) hX hfit2
      have e1n : expectedSingleSize (getDefaultAttributesSize version) (N : Int)
          = ((8 + N * 16 + N * attrWidth version : Nat) : Int) := by
        rw [expectedSingleSize_eq, e1, hXe]; push_cast; ring
      have e2n : expectedDoubleSize (getDefaultAttributesSize version) (N : Int)
          = ((8 + 2 * (N * 16) + 2 * (N * attrWidth version) : Nat) : Int) := by
        rw [expectedDoubleSize_eq, e2, hXe]; push_cast; ring
      have c1 : ¬ inp.length
          = ((8 + 2 * (N * 16) + 2 * (N * attrWidth version) : Nat) : Int) := by
        rw [hL]; exact fun hc => hnd (Int.ofNat.inj hc)
      have c2 : inp.length ≠ ((8 + N * 16 + N * attrWidth version : Nat) : Int) := by
        rw [hL]; exact fun hc => hns (Int.ofNat.inj hc)
      unfold parseMetatiles
      rw [if_neg hsize, hv]
      change decodeMetatiles inp cfg primaryTileset version = _
      unfold decodeMetatiles
      rw [hN, if_neg (not_lt.mpr hmax), if_neg hN1, e1n, e2n, if_neg c1, if_pos c2]

/-- C11, amended, on the 26-byte file of family A with the count 1: its length is
`8 + 1*16 + 1*2` and it is accepted. -/
theorem parseMetatiles_accepts_iff_witness :
    detectVersion rseMetatileFile = some .pokeemerald
    ∧ readInt32 rseMetatileFile 0 = ((1 : Nat) : Int)
    ∧ rseMetatileFile.data.length = 8 + 1 * 16 + 1 * attrWidth .pokeemerald
    ∧ ∃ ms, parseMetatiles rseMetatileFile sampleConfig true = .ok ms :=
  ⟨by decide, by decide, by decide,
    (parseMetatiles_accepts_iff rseMetatileFile sampleConfig true .pokeemerald 1 (by decide)
      (by decide) (by decide) (by decide)).1.mpr (Or.inl (by decide))⟩

/-- C12. For every count `N` with `1 ≤ N ≤ maxMetatiles` and every single-tileset file
made of the little-endian count `N`, `N*16` tile bytes, `N*a` attribute bytes and the
signature (`"RSE "` with `a = 2`, or `"FRLG"` with `a = 4`), `parseMetatiles` with
triple-layer mode disabled succeeds and returns exactly `N` metatiles, each with
exactly 8 tiles. -/
theorem parseMetatiles_single_file (inp : QByteArray) (cfg : MetatileConfig)
    (primaryTileset : Bool) (N a : Nat)
    (hsig : (trailingSignature inp = signatureRSE ∧ a = 2)
      ∨ (trailingSignature inp = signatureFRLG ∧ a = 4))
    (hcount : le32 inp 0 = N) (h1 : 1 ≤ N)
    (hmax : (N : Int) ≤ maxMetatiles cfg primaryTileset)
    (hlen : inp.data.length = 4 + N * 16 + N * a + 4)
    (htriple : cfg.tripleLayerMetatilesEnabled = false) :
    ∃ ms, parseMetatiles inp cfg primaryTileset = .ok ms ∧ ms.length = N
      ∧ ∀ m, m ∈ ms → m.tiles.length = 8 := by
  have hlt := inp.size_fits_int
  have h4 : 4 ≤ inp.data.length := by clear * - hlen; omega
  have hNlt : N < 2147483648 := by
    clear * - hlen hlt
    generalize N * a = Y at hlen
    omega
  obtain ⟨version, hv, haw⟩ :
      ∃ version, detectVersion inp = some version ∧ attrWidth version = a := by
    rcases hsig with ⟨hs, ha⟩ | ⟨hs, ha⟩
    · exact ⟨.pokeemerald, (detectVersion_rse inp h4).mpr hs, ha.symm⟩
    · exact ⟨.pokefirered, (detectVersion_frlg inp h4).mpr hs, ha.symm⟩
  have hN := readInt32_of_le32 inp 0 N hcount hNlt
  have hex : inp.data.length = exactFileSize false (attrWidth version) N := by
    rw [exactFileSize_single, haw, hlen]; ring
  have hfwd := parseMetatiles_of_exact inp cfg primaryTileset version N false hv hN h1 hmax hex
  refine ⟨_, hfwd, specMetatiles_length _ _ _ _ _ _ _, fun m hm => ?_⟩
  obtain ⟨i, _, rfl⟩ := specMetatiles_mem hm
  show (fileTiles inp _ ++ (if cfg.tripleLayerMetatilesEnabled = true then
      List.replicate 4 Tile.zero else [])).length = 8
  rw [htriple, if_neg Bool.false_ne_true, List.append_nil, fileTiles_length]

/-- C12, on the 26-byte file of family A with the count 1: the run returns one
metatile with 8 tiles. -/
theorem parseMetatiles_single_file_witness :
    trailingSignature rseMetatileFile = signatureRSE
    ∧ le32 rseMetatileFile 0 = 1
    ∧ rseMetatileFile.data.length = 4 + 1 * 16 + 1 * 2 + 4
    ∧ ∃ ms, parseMetatiles rseMetatileFile sampleConfig true = .ok ms ∧ ms.length = 1
        ∧ ∀ m, m ∈ ms → m.tiles.length = 8 :=
  ⟨by decide, by decide, by decide,
    parseMetatiles_single_file rseMetatileFile sampleConfig true 1 2 (Or.inl ⟨by decide, rfl⟩)
      (by decide) (by decide) (by decide) (by decide) rfl⟩

/-! ## Claims on the decoded metatiles -/

theorem specMetatile_tiles_get? (inp : QByteArray) (tripleLayer : Bool)
    (version : BaseGameVersion) (a tileStart attrStart j : Nat) (hj : j < 8) :
    (specMetatile inp tripleLayer version a tileStart attrStart).tiles.get? j
      = some (Tile.ofRaw (le16At inp (tileStart + 2 * j))) := by
  show (fileTiles inp tileStart ++ _).get? j = _
  rw [List.get?_eq_getElem?,
    List.getElem?_append_left (by rw [fileTiles_length]; exact hj), ← List.get?_eq_getElem?]
  exact fileTiles_get? inp tileStart j hj

/-- C16. For every buffer that `parseMetatiles` accepts with triple-layer mode enabled,
every returned metatile has exactly 12 tiles: the first 8 are the tiles decoded from a
record of 16 bytes of the file, and the last 4 are the zero tile (tile id 0, no flip,
palette 0), whatever the bytes of the file are. -/
theorem parseMetatiles_triple_layer (inp : QByteArray) (cfg : MetatileConfig)
    (primaryTileset : Bool) (ms : List Metatile)
    (hT : cfg.tripleLayerMetatilesEnabled = true)
    (h : parseMetatiles inp cfg primaryTileset = .ok ms) :
    Tile.zero = { tileId := 0, xflip := false, yflip := false, palette := 0 }
    ∧ ∀ m, m ∈ ms →
      m.tiles.length = 12
      ∧ m.tiles.drop 8 = [Tile.zero, Tile.zero, Tile.zero, Tile.zero]
      ∧ ∃ start, start + 16 ≤ inp.data.length ∧ m.tiles.take 8 = fileTiles inp start := by
  refine ⟨rfl, fun m hm => ?_⟩
  obtain ⟨version, N, d, _, _, _, _, _, _, hTin, _, rfl⟩ := parseMetatiles_layout h
  obtain ⟨i, hi, rfl⟩ := specMetatiles_mem hm
  have e : (specMetatile inp cfg.tripleLayerMetatilesEnabled version (attrWidth version)
        (specTilesOffset d primaryTileset N + 16 * i)
        (specAttrsOffset d primaryTileset (attrWidth version) N + attrWidth version * i)).tiles
      = fileTiles inp (specTilesOffset d primaryTileset N + 16 * i)
        ++ [Tile.zero, Tile.zero, Tile.zero, Tile.zero] := by
    show fileTiles inp _ ++ (if cfg.tripleLayerMetatilesEnabled = true then
      List.replicate 4 Tile.zero else []) = _
    rw [hT, if_pos rfl]
    rfl
  have hl := fileTiles_length inp (specTilesOffset d primaryTileset N + 16 * i)
  rw [e]
  refine ⟨?_, ?_, specTilesOffset d primaryTileset N + 16 * i, ?_, ?_⟩
  · rw [List.length_append, hl]; rfl
  · exact List.drop_left' hl
  · clear * - hTin hi; omega
  · exact List.take_left' hl

/-- C16, on the 26-byte file of family A with the count 1. -/
theorem parseMetatiles_triple_layer_witness :
    parseMetatiles rseMetatileFile tripleLayerConfig true
        = .ok (specMetatiles rseMetatileFile true .pokeemerald 2 4 20 1)
    ∧ Tile.zero = { tileId := 0, xflip := false, yflip := false, palette := 0 }
    ∧ ∀ m, m ∈ specMetatiles rseMetatileFile true .pokeemerald 2 4 20 1 →
      m.tiles.length = 12
      ∧ m.tiles.drop 8 = [Tile.zero, Tile.zero, Tile.zero, Tile.zero]
      ∧ ∃ start, start + 16 ≤ rseMetatileFile.data.length
          ∧ m.tiles.take 8 = fileTiles rseMetatileFile start :=
  ⟨by decide,
    parseMetatiles_triple_layer rseMetatileFile tripleLayerConfig true _ rfl (by decide)⟩

/-- C17. For every accepted buffer that the run takes for a double-tileset file, with
the count `n` and the attribute width `a`: for the primary tileset the run reads the
tiles of metatile `i` from offset `4 + 16*i` and its attributes from offset
`4 + 2*16*n + a*i`; for the secondary tileset it reads the tiles from offset
`4 + 16*n + 16*i` and the attributes from offset `4 + 2*16*n + a*n + a*i`; and the
metatile returned is the one stored at these offsets. -/
theorem parseMetatiles_double_offsets (inp : QByteArray) (cfg : MetatileConfig)
    (primaryTileset : Bool) (ms : List Metatile) (version : BaseGameVersion)
    (h : parseMetatiles inp cfg primaryTileset = .ok ms)
    (hv : detectVersion inp = some version)
    (hd : inp.length
      = expectedDoubleSize (getDefaultAttributesSize version) (readInt32 inp 0))
    (i : Nat) (hi : i < ms.length) :
    (primaryTileset = true →
      wrap32 (tilesOffset true true (readInt32 inp 0) + wrap32 ((i : Int) * 16))
          = ((4 + 16 * i : Nat) : Int)
      ∧ wrap32 (attrsOffset true true (getDefaultAttributesSize version) (readInt32 inp 0)
            + wrap32 ((i : Int) * getDefaultAttributesSize version))
          = ((4 + 2 * 16 * (readInt32 inp 0).toNat + attrWidth version * i : Nat) : Int)
      ∧ ms.get? i
          = some (specMetatile inp cfg.tripleLayerMetatilesEnabled version (attrWidth version)
              (4 + 16 * i)
              (4 + 2 * 16 * (readInt32 inp 0).toNat + attrWidth version * i)))
    ∧ (primaryTileset = false →
      wrap32 (tilesOffset true false (readInt32 inp 0) + wrap32 ((i : Int) * 16))
          = ((4 + 16 * (readInt32 inp 0).toNat + 16 * i : Nat) : Int)
      ∧ wrap32 (attrsOffset true false (getDefaultAttributesSize version) (readInt32 inp 0)
            + wrap32 ((i : Int) * getDefaultAttributesSize version))
          = ((4 + 2 * 16 * (readInt32 inp 0).toNat
              + attrWidth version * (readInt32 inp 0).toNat + attrWidth version * i : Nat) : Int)
      ∧ ms.get? i
          = some (specMetatile inp cfg.tripleLayerMetatilesEnabled version (attrWidth version)
              (4 + 16 * (readInt32 inp 0).toNat + 16 * i)
              (4 + 2 * 16 * (readInt32 inp 0).toNat
                + attrWidth version * (readInt32 inp 0).toNat + attrWidth version * i))) := by
  obtain ⟨version2, N, d, hv2, hN, h1, hD, ht, ha0, hTin, hAin, hms⟩ := parseMetatiles_layout h
  have ev : version2 = version := Option.some.inj (hv2.symm.trans hv)
  subst ev
  have hdt : d = true := hD.mpr hd
  subst hdt
  have hlen : ms.length = N := by rw [hms]; exact specMetatiles_length _ _ _ _ _ _ _
  have hiN : i < N := hlen ▸ hi
  have hget := specMetatiles_get? inp cfg.tripleLayerMetatilesEnabled version2
    (attrWidth version2) (specTilesOffset true primaryTileset N)
    (specAttrsOffset true primaryTileset (attrWidth version2) N) N i hiN
  rw [← hms] at hget
  obtain ⟨⟨hp, _⟩, ⟨hq, _⟩⟩ := record_offsets inp.data.length (attrWidth version2)
    (specTilesOffset true primaryTileset N)
    (specAttrsOffset true primaryTileset (attrWidth version2) N) N i inp.size_fits_int
    hTin hAin hiN
  rw [← ht] at hp
  rw [← ha0, attrWidth_cast] at hq
  have eN : (readInt32 inp 0).toNat = N := by rw [hN]; exact Int.toNat_ofNat N
  rw [eN]
  have e2 : 2 * 16 * N = 2 * (16 * N) := Nat.mul_assoc 2 16 N
  rw [e2]
  constructor
  · intro hpt
    subst hpt
    exact ⟨hp, hq, hget⟩
  · intro hpt
    subst hpt
    exact ⟨hp, hq, hget⟩

/-- C17, on the 44-byte double-tileset file of family A with the count 1, read for the
secondary tileset: the tiles come from offset 20 and the attributes from offset 38. -/
theorem parseMetatiles_double_offsets_witness :
    parseMetatiles doubleMetatileFile sampleConfig false
        = .ok [specMetatile doubleMetatileFile false .pokeemerald 2 20 38]
    ∧ doubleMetatileFile.length = expectedDoubleSize 2 1
    ∧ (specMetatile doubleMetatileFile false .pokeemerald 2 20 38).attributes = 22136
    ∧ [specMetatile doubleMetatileFile false .pokeemerald 2 20 38].get? 0
        = some (specMetatile doubleMetatileFile false .pokeemerald 2 20 38) :=
  ⟨by decide, by decide, by decide,
    ((parseMetatiles_double_offsets doubleMetatileFile sampleConfig false
      [specMetatile doubleMetatileFile false .pokeemerald 2 20 38] .pokeemerald (by decide)
      (by decide) (by decide) 0 (by decide)).2 rfl).2.2⟩

/-- C18. For every buffer that `parseMetatiles` accepts, with `T0` the tiles offset the
run computed: tile `j < 8` of metatile `i` is made from the little-endian 16-bit word
`w` in the two bytes at `T0 + 16*i + 2*j`, which lie inside the buffer, with
`tileId = w mod 1024`, `xflip` = bit 10 of `w`, `yflip` = bit 11 of `w` and
`palette = w div 4096`, so that `tileId | xflip<<10 | yflip<<11 | palette<<12 = w`. -/
theorem parseMetatiles_tile_fields (inp : QByteArray) (cfg : MetatileConfig)
    (primaryTileset : Bool) (ms : List Metatile)
    (h : parseMetatiles inp cfg primaryTileset = .ok ms) :
    ∃ (version : BaseGameVersion) (doubleTileset : Bool) (T0 : Nat),
      detectVersion inp = some version
      ∧ (doubleTileset = true ↔
          inp.length = expectedDoubleSize (getDefaultAttributesSize version) (readInt32 inp 0))
      ∧ tilesOffset doubleTileset primaryTileset (readInt32 inp 0) = (T0 : Int)
      ∧ ∀ i j, i < ms.length → j < 8 →
        T0 + 16 * i + 2 * j + 1 < inp.data.length
        ∧ ∃ m t, ms.get? i = some m ∧ m.tiles.get? j = some t
          ∧ t.tileId = le16At inp (T0 + 16 * i + 2 * j) % 1024
          ∧ t.xflip = (le16At inp (T0 + 16 * i + 2 * j)).testBit 10
          ∧ t.yflip = (le16At inp (T0 + 16 * i + 2 * j)).testBit 11
          ∧ t.palette = le16At inp (T0 + 16 * i + 2 * j) / 4096
          ∧ t.tileId ||| (t.xflip.toNat <<< 10) ||| (t.yflip.toNat <<< 11)
              ||| (t.palette <<< 12) = le16At inp (T0 + 16 * i + 2 * j) := by
  obtain ⟨version, N, d, hv, _, _, hD, ht, _, hTin, _, hms⟩ := parseMetatiles_layout h
  refine ⟨version, d, specTilesOffset d primaryTileset N, hv, hD, ht, fun i j hi hj => ?_⟩
  have hlen : ms.length = N := by rw [hms]; exact specMetatiles_length _ _ _ _ _ _ _
  have hiN : i < N := hlen ▸ hi
  have hget := specMetatiles_get? inp cfg.tripleLayerMetatilesEnabled version
    (attrWidth version) (specTilesOffset d primaryTileset N)
    (specAttrsOffset d primaryTileset (attrWidth version) N) N i hiN
  rw [← hms] at hget
  refine ⟨by clear * - hTin hiN hj; omega, _, _, hget,
    specMetatile_tiles_get? inp _ version _ _ _ j hj, ?_⟩
  exact Tile.ofRaw_fields _ (le16At_lt inp _)

/-- C18, on the 26-byte file of family A with the count 1: tile 4 of metatile 0 comes
from the word `0xF005` at offset 12: tile id 5, no flip, palette 15. -/
theorem parseMetatiles_tile_fields_witness :
    parseMetatiles rseMetatileFile sampleConfig true
        = .ok (specMetatiles rseMetatileFile false .pokeemerald 2 4 20 1)
    ∧ le16At rseMetatileFile 12 = 61445
    ∧ ((specMetatiles rseMetatileFile false .pokeemerald 2 4 20 1).get? 0).map
          (fun m => m.tiles.get? 4)
        = some (some { tileId := 5, xflip := false, yflip := false, palette := 15 })
    ∧ ∃ (version : BaseGameVersion) (doubleTileset : Bool) (T0 : Nat),
      detectVersion rseMetatileFile = some version
      ∧ (doubleTileset = true ↔
          rseMetatileFile.length
            = expectedDoubleSize (getDefaultAttributesSize version)
                (readInt32 rseMetatileFile 0))
      ∧ tilesOffset doubleTileset true (readInt32 rseMetatileFile 0) = (T0 : Int)
      ∧ ∀ i j, i < (specMetatiles rseMetatileFile false .pokeemerald 2 4 20 1).length →
        j < 8 →
        T0 + 16 * i + 2 * j + 1 < rseMetatileFile.data.length
        ∧ ∃ m t, (specMetatiles rseMetatileFile false .pokeemerald 2 4 20 1).get? i = some m
          ∧ m.tiles.get? j = some t
          ∧ t.tileId = le16At rseMetatileFile (T0 + 16 * i + 2 * j) % 1024
          ∧ t.xflip = (le16At rseMetatileFile (T0 + 16 * i + 2 * j)).testBit 10
          ∧ t.yflip = (le16At rseMetatileFile (T0 + 16 * i + 2 * j)).testBit 11
          ∧ t.palette = le16At rseMetatileFile (T0 + 16 * i + 2 * j) / 4096
          ∧ t.tileId ||| (t.xflip.toNat <<< 10) ||| (t.yflip.toNat <<< 11)
              ||| (t.palette <<< 12) = le16At rseMetatileFile (T0 + 16 * i + 2 * j) :=
  ⟨by decide, by decide, by decide,
    parseMetatiles_tile_fields rseMetatileFile sampleConfig true _ (by decide)⟩

/-- C19. For every buffer that `parseMetatiles` accepts, with `A0` the attributes
offset the run computed and `a` the attribute width of the file's family (2 for a file
that ends in `"RSE "`, 4 for one that ends in `"FRLG"`): the raw attribute value of
metatile `i` is the little-endian unsigned integer in the `a` bytes at `A0 + a*i`,
which lie inside the buffer, that is the sum of `byte_j * 256^j` for `j < a`; for a
file that ends in `"RSE "` it is below 65536. -/
theorem parseMetatiles_attributes (inp : QByteArray) (cfg : MetatileConfig)
    (primaryTileset : Bool) (ms : List Metatile)
    (h : parseMetatiles inp cfg primaryTileset = .ok ms) :
    ∃ (version : BaseGameVersion) (doubleTileset : Bool) (A0 : Nat),
      detectVersion inp = some version
      ∧ (trailingSignature inp = signatureRSE → attrWidth version = 2)
      ∧ (trailingSignature inp = signatureFRLG → attrWidth version = 4)
      ∧ (attrWidth version : Int) = getDefaultAttributesSize version
      ∧ (doubleTileset = true ↔
          inp.length = expectedDoubleSize (getDefaultAttributesSize version) (readInt32 inp 0))
      ∧ attrsOffset doubleTileset primaryTileset (getDefaultAttributesSize version)
          (readInt32 inp 0) = (A0 : Int)
      ∧ ∀ i, i < ms.length →
        A0 + attrWidth version * i + attrWidth version ≤ inp.data.length
        ∧ ∃ m, ms.get? i = some m
          ∧ m.attributes
              = ∑ j in Finset.range (attrWidth version),
                  inp.at (A0 + attrWidth version * i + j) * 256 ^ j
          ∧ (trailingSignature inp = signatureRSE → m.attributes < 65536) := by
  obtain ⟨h9, _, _⟩ := parseMetatiles_ok h
  have h4 : 4 ≤ inp.data.length := by
    unfold QByteArray.length at h9; omega
  obtain ⟨version, N, d, hv, _, _, hD, _, ha0, _, hAin, hms⟩ := parseMetatiles_layout h
  have hrse : trailingSignature inp = signatureRSE → attrWidth version = 2 := by
    intro hs
    have e := (detectVersion_rse inp h4).mpr hs
    rw [hv] at e
    rw [Option.some.inj e]
    rfl
  have hfrlg : trailingSignature inp = signatureFRLG → attrWidth version = 4 := by
    intro hs
    have e := (detectVersion_frlg inp h4).mpr hs
    rw [hv] at e
    rw [Option.some.inj e]
    rfl
  refine ⟨version, d, specAttrsOffset d primaryTileset (attrWidth version) N, hv, hrse, hfrlg,
    attrWidth_cast version, hD, ha0, fun i hi => ?_⟩
  have hlen : ms.length = N := by rw [hms]; exact specMetatiles_length _ _ _ _ _ _ _
  have hiN : i < N := hlen ▸ hi
  have hget := specMetatiles_get? inp cfg.tripleLayerMetatilesEnabled version
    (attrWidth version) (specTilesOffset d primaryTileset N)
    (specAttrsOffset d primaryTileset (attrWidth version) N) N i hiN
  rw [← hms] at hget
  have hmul : attrWidth version * i + attrWidth version ≤ attrWidth version * N := by
    have := Nat.mul_le_mul_left (attrWidth version) (Nat.succ_le_of_lt hiN)
    rw [Nat.mul_succ] at this
    exact this
  refine ⟨by clear * - hAin hmul; omega, _, hget, leValue_eq_sum inp _ _, fun hs => ?_⟩
  show leValue inp _ (attrWidth version) < 65536
  rw [hrse hs]
  exact leValue_lt inp 2 _

/-- C19, on the 28-byte file of family B with the count 1: the attribute value is
`0xF8561234`, from the four bytes at offset 20. -/
theorem parseMetatiles_attributes_witness :
    parseMetatiles frlgMetatileFile sampleConfig true
        = .ok (specMetatiles frlgMetatileFile false .pokefirered 4 4 20 1)
    ∧ ((specMetatiles frlgMetatileFile false .pokefirered 4 4 20 1).get? 0).map
        (fun m => m.attributes) = some 4166390324
    ∧ ∃ (version : BaseGameVersion) (doubleTileset : Bool) (A0 : Nat),
      detectVersion frlgMetatileFile = some version
      ∧ (trailingSignature frlgMetatileFile = signatureRSE → attrWidth version = 2)
      ∧ (trailingSignature frlgMetatileFile = signatureFRLG → attrWidth version = 4)
      ∧ (attrWidth version : Int) = getDefaultAttributesSize version
      ∧ (doubleTileset = true ↔
          frlgMetatileFile.length
            = expectedDoubleSize (getDefaultAttributesSize version)
                (readInt32 frlgMetatileFile 0))
      ∧ attrsOffset doubleTileset true (getDefaultAttributesSize version)
          (readInt32 frlgMetatileFile 0) = (A0 : Int)
      ∧ ∀ i, i < (specMetatiles frlgMetatileFile false .pokefirered 4 4 20 1).length →
        A0 + attrWidth version * i + attrWidth version ≤ frlgMetatileFile.data.length
        ∧ ∃ m, (specMetatiles frlgMetatileFile false .pokefirered 4 4 20 1).get? i = some m
          ∧ m.attributes
              = ∑ j in Finset.range (attrWidth version),
                  frlgMetatileFile.at (A0 + attrWidth version * i + j) * 256 ^ j
          ∧ (trailingSignature frlgMetatileFile = signatureRSE → m.attributes < 65536) :=
  ⟨by decide, by decide,
    parseMetatiles_attributes frlgMetatileFile sampleConfig true _ (by decide)⟩

/-! ## Claims on `parsePalette` -/

/-- C20. `parsePalette` fails exactly when the length of the buffer is not a multiple of
4: on every buffer whose length is a multiple of 4, whatever its bytes, the run
succeeds (no read outside the buffer, the error flag left as it was) and returns one
colour for every four bytes; on every other buffer it fails with the format diagnostic,
raises the error flag and hands back the empty list. -/
theorem parsePalette_total (inp : QByteArray) (before : Bool) :
    (inp.length % 4 = 0 →
      parsePalette inp = .ok (colorsFrom inp 0 (inp.data.length / 4))
      ∧ (parsePalette inp).errorFlag before = before
      ∧ (parsePalette inp).returnedList.length = inp.data.length / 4)
    ∧ (inp.length % 4 ≠ 0 →
      parsePalette inp = .failed (.unexpectedFormat inp.length)
      ∧ (parsePalette inp).errorFlag before = true
      ∧ (parsePalette inp).returnedList = [])
    ∧ ((∃ e, parsePalette inp = .failed e) ↔ inp.length % 4 ≠ 0) := by
  by_cases h : inp.length % 4 ≠ 0
  · have e : parsePalette inp = .failed (.unexpectedFormat inp.length) := by
      unfold parsePalette
      rw [if_pos h]
    rw [e]
    exact ⟨fun h0 => absurd h0 h, fun _ => ⟨rfl, rfl, rfl⟩, ⟨fun _ => h, fun _ => ⟨_, rfl⟩⟩⟩
  · have hm : inp.data.length % 4 = 0 := by
      unfold QByteArray.length at h; omega
    have e : parsePalette inp = .ok (colorsFrom inp 0 (inp.data.length / 4)) := by
      unfold parsePalette
      rw [if_neg h, readColors_enough inp hm]
    rw [e]
    refine ⟨fun _ => ⟨rfl, rfl, colorsFrom_length inp _ _⟩, fun h0 => absurd h0 h, ⟨?_, ?_⟩⟩
    · rintro ⟨_, he⟩
      cases he
    · exact fun h0 => absurd h0 h

/-- C20, on an 8-byte palette, a 6-byte palette and the empty palette. -/
theorem parsePalette_total_witness :
    parsePalette samplePalette = .ok [4278256131, 4278519303]
    ∧ parsePalette shortPalette = .failed (.unexpectedFormat 6)
    ∧ parsePalette emptyPalette = .ok []
    ∧ (parsePalette samplePalette).returnedList.length = samplePalette.data.length / 4 :=
  ⟨by decide, by decide, by decide,
    ((parsePalette_total samplePalette false).1 (by decide)).2.2⟩

/-! ## Claims on the colours of `parsePalette` -/

theorem qRgb_eq_specColor (r g b : Nat) (hr : r < 256) (hg : g < 256) (hb : b < 256) :
    qRgb r g b = specColor r g b := by
  have er : r &&& 255 = r := Nat.and_pow_two_sub_one_of_lt_two_pow (n := 8) hr
  have eg : g &&& 255 = g := Nat.and_pow_two_sub_one_of_lt_two_pow (n := 8) hg
  have eb : b &&& 255 = b := Nat.and_pow_two_sub_one_of_lt_two_pow (n := 8) hb
  unfold qRgb specColor
  rw [er, eg, eb]
  rfl

theorem colorsFrom_get? (inp : QByteArray) :
    ∀ (n i k : Nat), k < n →
      (colorsFrom inp i n).get? k
        = some (qRgb (inp.at (i + 4 * k)) (inp.at (i + 4 * k + 1)) (inp.at (i + 4 * k + 2))) := by
  intro n
  induction n with
  | zero => intro i k hk; exact absurd hk (Nat.not_lt_zero _)
  | succ n ih =>
    intro i k hk
    rw [colorsFrom_succ]
    cases k with
    | zero => rfl
    | succ k =>
      have e : i + 4 + 4 * k = i + 4 * (k + 1) := by omega
      rw [List.get?_cons_succ, ih (i + 4) k (by omega), e]

theorem colorsFrom_congr (a b : QByteArray) (m : Nat)
    (hab : ∀ j, j < m → j % 4 ≠ 3 → a.at j = b.at j) :
    ∀ (n i : Nat), i % 4 = 0 → i + 4 * n ≤ m → colorsFrom a i n = colorsFrom b i n := by
  intro n
  induction n with
  | zero => intro i _ _; rfl
  | succ n ih =>
    intro i hi hm
    rw [colorsFrom_succ, colorsFrom_succ, hab i (by omega) (by omega),
      hab (i + 1) (by omega) (by omega), hab (i + 2) (by omega) (by omega),
      ih (i + 4) (by omega) (by omega)]

/-- The run of `parsePalette` on a buffer whose length is a multiple of 4. -/
theorem parsePalette_ok (inp : QByteArray) (h : inp.length % 4 = 0) :
    parsePalette inp = .ok (colorsFrom inp 0 (inp.data.length / 4)) := by
  have hm : inp.data.length % 4 = 0 := by
    unfold QByteArray.length at h; omega
  unfold parsePalette
  rw [if_neg (not_not.mpr h), readColors_enough inp hm]

/-- C21. For every buffer whose length is a multiple of 4, `parsePalette` returns
exactly `length/4` colours in file order, the `k`-th being the opaque colour
`0xFF000000 | red<<16 | green<<8 | blue` with red the byte at `4k`, green the byte at
`4k+1` and blue the byte at `4k+2`; the buffer of length 0 yields the empty list. -/
theorem parsePalette_colors (inp : QByteArray) (h : inp.length % 4 = 0) :
    ∃ palette, parsePalette inp = .ok palette
      ∧ palette.length = inp.data.length / 4
      ∧ (∀ k, k < inp.data.length / 4 →
          palette.get? k
            = some (specColor (inp.at (4 * k)) (inp.at (4 * k + 1)) (inp.at (4 * k + 2))))
      ∧ (inp.data.length = 0 → palette = []) := by
  refine ⟨_, parsePalette_ok inp h, colorsFrom_length inp _ _, fun k hk => ?_, fun h0 => ?_⟩
  · rw [colorsFrom_get? inp _ 0 k hk, Nat.zero_add,
      qRgb_eq_specColor _ _ _ (inp.at_lt _) (inp.at_lt _) (inp.at_lt _)]
  · rw [h0]
    rfl

/-- C21, on a palette of two colours and on the empty palette. -/
theorem parsePalette_colors_witness :
    samplePalette.length % 4 = 0
    ∧ parsePalette samplePalette = .ok [0xFF010203, 0xFF050607]
    ∧ parsePalette emptyPalette = .ok []
    ∧ ∃ palette, parsePalette samplePalette = .ok palette
      ∧ palette.length = samplePalette.data.length / 4
      ∧ (∀ k, k < samplePalette.data.length / 4 →
          palette.get? k
            = some (specColor (samplePalette.at (4 * k)) (samplePalette.at (4 * k + 1))
                (samplePalette.at (4 * k + 2))))
      ∧ (samplePalette.data.length = 0 → palette = []) :=
  ⟨by decide, by decide, by decide, parsePalette_colors samplePalette (by decide)⟩

/-- C22. The fourth byte of each palette group is ignored: two buffers of the same
length, a multiple of 4, that agree on every byte whose index is not congruent to 3
modulo 4 are decoded by `parsePalette` to the same colour list. -/
theorem parsePalette_ignores_fourth_byte (a b : QByteArray)
    (hlen : a.data.length = b.data.length) (h4 : a.length % 4 = 0)
    (hagree : ∀ j, j < a.data.length → j % 4 ≠ 3 → a.at j = b.at j) :
    parsePalette a = parsePalette b := by
  have h4b : b.length % 4 = 0 := by
    unfold QByteArray.length at h4 ⊢
    rw [← hlen]; exact h4
  rw [parsePalette_ok a h4, parsePalette_ok b h4b, ← hlen,
    colorsFrom_congr a b a.data.length hagree (a.data.length / 4) 0 rfl (by omega)]

/-- C22, on two palettes of two colours that differ in both fourth bytes. -/
theorem parsePalette_ignores_fourth_byte_witness :
    samplePalette.at 3 ≠ samplePaletteOtherPad.at 3
    ∧ samplePalette.at 7 ≠ samplePaletteOtherPad.at 7
    ∧ parsePalette samplePaletteOtherPad = .ok [0xFF010203, 0xFF050607]
    ∧ parsePalette samplePalette = parsePalette samplePaletteOtherPad :=
  ⟨by decide, by decide, by decide,
    parsePalette_ignores_fourth_byte samplePalette samplePaletteOtherPad (by decide) (by decide)
      (by decide)⟩

/-! ## The ambient values of `parseMetatiles` -/

/-- The run of `parseMetatiles` uses the ambient values only through the maximum of
the chosen tileset and the triple-layer flag. -/
theorem parseMetatiles_context (inp : QByteArray) (c d : MetatileConfig) (primaryTileset : Bool)
    (hmax : maxMetatiles c primaryTileset = maxMetatiles d primaryTileset)
    (htriple : c.tripleLayerMetatilesEnabled = d.tripleLayerMetatilesEnabled) :
    parseMetatiles inp c primaryTileset = parseMetatiles inp d primaryTileset := by
  unfold parseMetatiles
  by_cases hsize : inp.length < 9 ∨ inp.length % 2 ≠ 0
  · rw [if_pos hsize, if_pos hsize]
  · rw [if_neg hsize, if_neg hsize]
    cases detectVersion inp with
    | none => rfl
    | some version =>
      show decodeMetatiles inp c primaryTileset version
        = decodeMetatiles inp d primaryTileset version
      unfold decodeMetatiles
      rw [hmax, htriple]

/-! ## Claim on the default border dimensions -/

/-- The number of border tiles the format-variant branch leaves is the product of the
border width and height it leaves, as a 32-bit `int`. -/
theorem locateBorder_numBorderTiles (inp : QByteArray) :
    (locateBorder inp (readHeader inp)).numBorderTiles
      = wrap32 ((locateBorder inp (readHeader inp)).borderWidth
          * (locateBorder inp (readHeader inp)).borderHeight) := by
  by_cases h : rseAccepted inp
  · obtain ⟨h1, h2, h3, _, _⟩ := locateBorder_of_accepted inp h
    rw [h1, h2, h3, rseCandidate_rseNumBorderTiles, rseCandidate_borderWidthLE,
      rseCandidate_borderHeightLE]
  · obtain ⟨h1, h2, h3, _⟩ := locateBorder_of_not_accepted inp h
    rw [h1, h2, h3, readHeader_numBorderTiles]

theorem wrap32_zero : wrap32 0 = 0 := by unfold wrap32; omega

/-- C26. The default border dimensions are used only when no border bytes were
decoded: for every buffer that `parseLayout` accepts, if the effective border width or
the effective border height is zero (so that the returned `border_width` or
`border_height` is the default put in its place), the returned layout has no border
data. -/
theorem parseLayout_default_dimension_no_border (inp : QByteArray) (project : Project)
    (l : Layout) (hok : parseLayout inp project = .ok l)
    (hzero : effectiveBorderWidth inp = 0 ∨ effectiveBorderHeight inp = 0) :
    l.border = []
    ∧ (effectiveBorderWidth inp = 0 → l.border_width = DEFAULT_BORDER_WIDTH)
    ∧ (effectiveBorderHeight inp = 0 → l.border_height = DEFAULT_BORDER_HEIGHT) := by
  obtain ⟨_, _, _, blockdata, border, _, hbr, hl⟩ := parseLayout_ok hok
  have hn : (locateBorder inp (readHeader inp)).numBorderTiles = 0 := by
    rw [locateBorder_numBorderTiles, locateBorder_borderWidth, locateBorder_borderHeight]
    rcases hzero with hz | hz
    · rw [hz, Int.zero_mul]; exact wrap32_zero
    · rw [hz, Int.mul_zero]; exact wrap32_zero
  have hb : border = [] := by
    unfold readBorder at hbr
    rw [if_neg (not_not.mpr hn)] at hbr
    exact (Option.some.inj hbr).symm
  subst hl
  refine ⟨by rw [buildLayout_border, hb], fun hw => ?_, fun hh => ?_⟩
  · rw [buildLayout_border_width, locateBorder_borderWidth, if_pos hw]; rfl
  · rw [buildLayout_border_height, locateBorder_borderHeight, if_pos hh]; rfl

/-- C26, on a file whose header declares a border 3 wide and 0 high: the height is
the default and the layout has no border data. -/
theorem parseLayout_default_dimension_no_border_witness :
    parseLayout halfBorderFile sampleProject
        = .ok ⟨0, 0, 3, 2, "gTileset_General", "gTileset_Petalburg", [], []⟩
    ∧ effectiveBorderHeight halfBorderFile = 0
    ∧ ([] : List Nat) = []
    ∧ (effectiveBorderWidth halfBorderFile = 0 → (3 : Int) = DEFAULT_BORDER_WIDTH)
    ∧ (effectiveBorderHeight halfBorderFile = 0 → (2 : Int) = DEFAULT_BORDER_HEIGHT) :=
  ⟨by decide, by decide,
    parseLayout_default_dimension_no_border halfBorderFile sampleProject
      ⟨0, 0, 3, 2, "gTileset_General", "gTileset_Petalburg", [], []⟩ (by decide)
      (Or.inr (by decide))⟩

/-! ## Claim on the words of the trailing border -/

/-- C24. For every accepted buffer with no header border, a non-negative header width
and height, and tail values `bw`, `bh` (the little-endian 16-bit values in the last
four bytes) with `bw*bh > 0` and `rseBorderOffset = length - (bw*bh*2 + 4) >= mapDataEnd`:
the trailing-border candidate is accepted, the returned border has exactly `bw*bh`
entries, its `k`-th entry is the little-endian 16-bit word at `rseBorderOffset + 2k`
(so the border occupies exactly the bytes from `rseBorderOffset` up to `length - 4`),
and the layout's `border_width` and `border_height` are `bw` and `bh`. -/
theorem parseLayout_trailing_border_words (inp : QByteArray) (project : Project) (l : Layout)
    (hok : parseLayout inp project = .ok l)
    (hrse : inp.at 16 * inp.at 17 = 0)
    (hw : 0 ≤ (readHeader inp).mapWidth) (hh : 0 ≤ (readHeader inp).mapHeight)
    (hcand : exactMapDataEnd inp ≤ exactRseBorderOffset inp)
    (hpos : 0 < tailBorderWidth inp * tailBorderHeight inp) :
    rseAccepted inp
    ∧ exactRseBorderOffset inp
        = ((inp.data.length - (tailBorderWidth inp * tailBorderHeight inp * 2 + 4) : Nat) : Int)
    ∧ inp.data.length - (tailBorderWidth inp * tailBorderHeight inp * 2 + 4)
        + 2 * (tailBorderWidth inp * tailBorderHeight inp) = inp.data.length - 4
    ∧ l.border.length = tailBorderWidth inp * tailBorderHeight inp
    ∧ (∀ k, k < tailBorderWidth inp * tailBorderHeight inp →
        l.border.get? k
          = some (inp.at (inp.data.length
                - (tailBorderWidth inp * tailBorderHeight inp * 2 + 4) + 2 * k)
              + 256 * inp.at (inp.data.length
                - (tailBorderWidth inp * tailBorderHeight inp * 2 + 4) + 2 * k + 1)))
    ∧ l.border_width = (tailBorderWidth inp : Int)
    ∧ l.border_height = (tailBorderHeight inp : Int) := by
  have hy := mul_nonneg hw hh
  have hex := exactMapDataEnd_eq inp
  have her := exactRseBorderOffset_eq inp
  rw [hrse] at hex
  have hM20 : 20 ≤ exactMapDataEnd inp := by
    clear * - hy hex
    generalize (readHeader inp).mapWidth * (readHeader inp).mapHeight = y at hy hex
    generalize exactMapDataEnd inp = m at hex ⊢
    push_cast at hex; omega
  have hfit : tailBorderWidth inp * tailBorderHeight inp * 2 + 4 ≤ inp.data.length := by
    clear * - hcand her hM20
    generalize tailBorderWidth inp * tailBorderHeight inp = t at her ⊢
    generalize exactRseBorderOffset inp = r at her hcand
    generalize exactMapDataEnd inp = m at hcand hM20
    omega
  have htail : exactMapDataEnd inp + 4 ≤ inp.length := by
    unfold QByteArray.length
    clear * - hcand her hfit
    generalize tailBorderWidth inp * tailBorderHeight inp = t at her hfit
    generalize exactRseBorderOffset inp = r at her hcand
    generalize exactMapDataEnd inp = m at hcand ⊢
    omega
  obtain ⟨hacc, hrb⟩ := readBorder_trailing inp hrse hw hh htail hcand
  obtain ⟨_, _, _, blockdata, border, _, hbr, hl⟩ := parseLayout_ok hok
  rw [hrb] at hbr
  have hb := Option.some.inj hbr
  obtain ⟨v1, v2, _, _, _⟩ := locateBorder_of_accepted inp hacc
  have hbw : tailBorderWidth inp ≠ 0 := fun h0 => by
    rw [h0, Nat.zero_mul] at hpos; exact absurd hpos (Nat.lt_irrefl 0)
  have hbh : tailBorderHeight inp ≠ 0 := fun h0 => by
    rw [h0, Nat.mul_zero] at hpos; exact absurd hpos (Nat.lt_irrefl 0)
  subst hl
  rw [buildLayout_border, buildLayout_border_width, buildLayout_border_height, v1, v2, ← hb]
  refine ⟨hacc, ?_, ?_, wordsFrom_length inp _ _, fun k hk => wordsFrom_get? inp _ _ k hk, ?_, ?_⟩
  · rw [her]
    clear * - hfit
    generalize tailBorderWidth inp * tailBorderHeight inp = t at hfit ⊢
    omega
  · clear * - hfit
    generalize tailBorderWidth inp * tailBorderHeight inp = t at hfit ⊢
    omega
  · rw [if_neg (by exact_mod_cast hbw)]
  · rw [if_neg (by exact_mod_cast hbh)]

/-- C24, on a file with a 2 by 1 map, a 1 by 1 trailing border and the tail values 1
and 1: the border is the word at offset 24. -/
theorem parseLayout_trailing_border_words_witness :
    parseLayout rseSampleFile sampleProject
        = .ok ⟨2, 1, 1, 1, "gTileset_General", "gTileset_Petalburg", [17, 18], [3]⟩
    ∧ exactMapDataEnd rseSampleFile = 24 ∧ exactRseBorderOffset rseSampleFile = 24
    ∧ tailBorderWidth rseSampleFile = 1 ∧ tailBorderHeight rseSampleFile = 1
    ∧ ([3] : List Nat).length = tailBorderWidth rseSampleFile * tailBorderHeight rseSampleFile
    ∧ (1 : Int) = (tailBorderWidth rseSampleFile : Int) :=
  ⟨by decide, by decide, by decide, by decide, by decide,
    (parseLayout_trailing_border_words rseSampleFile sampleProject
      ⟨2, 1, 1, 1, "gTileset_General", "gTileset_Petalburg", [17, 18], [3]⟩
      (by decide) (by decide) (by decide) (by decide) (by decide) (by decide)).2.2.2.1,
    (parseLayout_trailing_border_words rseSampleFile sampleProject
      ⟨2, 1, 1, 1, "gTileset_General", "gTileset_Petalburg", [17, 18], [3]⟩
      (by decide) (by decide) (by decide) (by decide) (by decide) (by decide)).2.2.2.2.2.1⟩

/-! ## Claim on the bytes between the map and the trailing border -/

theorem QByteArray.eq_of_at {a b : QByteArray} (hlen : a.data.length = b.data.length)
    (h : ∀ j, j < a.data.length → a.at j = b.at j) : a = b := by
  apply QByteArray.eq_of_data
  apply List.ext_getElem hlen
  intro j h1 h2
  have e := h j h1
  unfold QByteArray.at at e
  rw [List.getD_eq_getElem _ _ h1, List.getD_eq_getElem _ _ h2] at e
  exact Fin.ext e

theorem wordsFrom_congr_range (a b : QByteArray) (m : Nat) :
    ∀ (n i : Nat), (∀ j, i ≤ j → j < m → a.at j = b.at j) → i + 2 * n ≤ m →
      wordsFrom a i n = wordsFrom b i n := by
  intro n
  induction n with
  | zero => intro i _ _; rfl
  | succ n ih =>
    intro i hab hm
    have e0 := hab i (Nat.le_refl i) (by omega)
    have e1 := hab (i + 1) (by omega) (by omega)
    have e2 := ih (i + 2) (fun j hj hjm => hab j (by omega) hjm) (by omega)
    simp only [wordsFrom]
    rw [e0, e1, e2]

theorem rseCandidate_congr {a b : QByteArray} (hlen : a.data.length = b.data.length)
    (h4 : 4 ≤ a.data.length)
    (h : ∀ j, a.data.length - 4 ≤ j → j < a.data.length → a.at j = b.at j) :
    rseCandidate b = rseCandidate a := by
  have e1 := h (a.data.length - 4) (by omega) (by omega)
  have e2 := h (a.data.length - 3) (by omega) (by omega)
  have e3 := h (a.data.length - 2) (by omega) (by omega)
  have e4 := h (a.data.length - 1) (by omega) (by omega)
  unfold rseCandidate QByteArray.length
  rw [← hlen]
  dsimp only
  rw [← e1, ← e2, ← e3, ← e4]

theorem locateBorder_congr {a b : QByteArray} (h : Header) (hlen : a.length = b.length)
    (hc : rseCandidate b = rseCandidate a) : locateBorder b h = locateBorder a h := by
  rw [locateBorder_unfold, locateBorder_unfold, hc, hlen]

theorem rseAccepted_congr {a b : QByteArray} (hh : readHeader b = readHeader a)
    (hlen : a.length = b.length) (hc : rseCandidate b = rseCandidate a) :
    rseAccepted b ↔ rseAccepted a := by
  unfold rseAccepted
  rw [hh, hc, hlen]

/-- The border of a file with no header border whose candidate is accepted and whose
tail border fits the file: the `bw*bh` words stored before the last four bytes. -/
theorem readBorder_of_accepted (inp : QByteArray) (hrse : inp.at 16 * inp.at 17 = 0)
    (hacc : rseAccepted inp)
    (hfit : tailBorderWidth inp * tailBorderHeight inp * 2 + 4 ≤ inp.data.length) :
    readBorder inp (readHeader inp) (locateBorder inp (readHeader inp))
      = some (wordsFrom inp
          (inp.data.length - (tailBorderWidth inp * tailBorderHeight inp * 2 + 4))
          (tailBorderWidth inp * tailBorderHeight inp)) := by
  have hlen := inp.size_fits_int
  obtain ⟨_, hoff, _⟩ := readHeader_border inp
  rw [hrse] at hoff
  obtain ⟨c1, c2, c3⟩ := rseCandidate_exact inp hfit
  obtain ⟨_, _, v3, v4, v5⟩ := locateBorder_of_accepted inp hacc
  have hoff20 : (readHeader inp).mapDataOffset = 20 := by rw [hoff]; rfl
  have hbo : borderOffset (readHeader inp) (locateBorder inp (readHeader inp))
      = ((inp.data.length - (tailBorderWidth inp * tailBorderHeight inp * 2 + 4) : Nat) : Int) := by
    rw [borderOffset_trailing _ _ hoff20 (by rw [v5, c3]; exact Int.ofNat_nonneg _), v5, c3]
  unfold readBorder
  rw [hbo, v3, v4, c1, c2]
  by_cases ht : tailBorderWidth inp * tailBorderHeight inp = 0
  · rw [ht, if_neg (by decide)]
    rfl
  · rw [if_pos (by exact_mod_cast ht)]
    clear * - hfit hlen ht
    generalize tailBorderWidth inp * tailBorderHeight inp = t at hfit ht ⊢
    generalize hn : inp.data.length = n at hfit hlen ⊢
    have e : wrap32 (((n - (t * 2 + 4) : Nat) : Int) + ((2 * t : Nat) : Int)) = (n : Int) - 4 := by
      unfold wrap32; push_cast; omega
    rw [e]
    apply readWords_eq
    · omega
    · intro _; rw [hn]; omega
    · left; omega
    · omega

/-- The border of a file with no header border whose candidate is not accepted: none. -/
theorem readBorder_of_not_accepted (inp : QByteArray) (hrse : inp.at 16 * inp.at 17 = 0)
    (hacc : ¬ rseAccepted inp) :
    readBorder inp (readHeader inp) (locateBorder inp (readHeader inp)) = some [] := by
  obtain ⟨_, _, v3, _⟩ := locateBorder_of_not_accepted inp hacc
  have hn : (locateBorder inp (readHeader inp)).numBorderTiles = 0 := by
    rw [v3, (readHeader_border inp).1, hrse]; rfl
  unfold readBorder
  rw [if_neg (not_not.mpr hn)]

/-- C25. For inputs with no header border, the bytes that lie between the end of the
first map copy and the start of the trailing border never affect the result: two
accepted buffers of the same length, the first with `borderWidth*borderHeight = 0` in
the header and a non-negative header width and height, that agree on the first
`mapDataEnd` bytes, on the last four bytes and on every byte from
`rseBorderOffset = length - (bw*bh*2 + 4)` onward decode, with the same tileset
registry, to the same layout. -/
theorem parseLayout_ignores_bytes_before_border (a b : QByteArray) (project : Project)
    (la lb : Layout)
    (ha : parseLayout a project = .ok la) (hb : parseLayout b project = .ok lb)
    (hlen : a.data.length = b.data.length)
    (hrse : a.at 16 * a.at 17 = 0)
    (hw : 0 ≤ (readHeader a).mapWidth) (hh : 0 ≤ (readHeader a).mapHeight)
    (hpre : ∀ j, j < a.data.length → (j : Int) < exactMapDataEnd a → a.at j = b.at j)
    (htail : ∀ j, j < a.data.length → a.data.length - 4 ≤ j → a.at j = b.at j)
    (hborder : ∀ j, j < a.data.length → exactRseBorderOffset a ≤ (j : Int) →
      a.at j = b.at j) :
    la = lb := by
  by_cases hneg : exactRseBorderOffset a < 0
  · have hab : a = b := QByteArray.eq_of_at hlen
      (fun j hj => hborder j hj (by clear * - hneg; omega))
    subst hab
    rw [ha] at hb
    exact Outcome.ok.inj hb
  · obtain ⟨a1, a2, a3, bda, bra, hbda, hbra, hla⟩ := parseLayout_ok ha
    obtain ⟨b1, b2, b3, bdb, brb, hbdb, hbrb, hlb⟩ := parseLayout_ok hb
    have hn20 : 20 ≤ a.data.length := by
      clear * - a1
      unfold QByteArray.length at a1; omega
    have hy := mul_nonneg hw hh
    have hex := exactMapDataEnd_eq a
    rw [hrse] at hex
    have her := exactRseBorderOffset_eq a
    have hle := mapDataEnd_le_exact a hw hh
    have hM20 : 20 ≤ exactMapDataEnd a := by
      clear * - hy hex
      generalize (readHeader a).mapWidth * (readHeader a).mapHeight = y at hy hex
      generalize exactMapDataEnd a = m at hex ⊢
      push_cast at hex; omega
    have hfit : tailBorderWidth a * tailBorderHeight a * 2 + 4 ≤ a.data.length := by
      clear * - hneg her
      generalize tailBorderWidth a * tailBorderHeight a = t at her ⊢
      generalize exactRseBorderOffset a = r at her hneg
      omega
    have hlenI : a.length = b.length := by
      unfold QByteArray.length; rw [hlen]
    have hhdr : readHeader b = readHeader a :=
      (readHeader_congr (fun j hj =>
        hpre j (by clear * - hj hn20; omega) (by clear * - hj hM20; omega))).symm
    have e16 : b.at 16 = a.at 16 :=
      (hpre 16 (by clear * - hn20; omega) (by clear * - hM20; omega)).symm
    have e17 : b.at 17 = a.at 17 :=
      (hpre 17 (by clear * - hn20; omega) (by clear * - hM20; omega)).symm
    have hrseb : b.at 16 * b.at 17 = 0 := by rw [e16, e17]; exact hrse
    have hrc := rseCandidate_congr hlen (by clear * - hn20; omega)
      (fun j h1 h2 => htail j h2 h1)
    have hloc := locateBorder_congr (readHeader a) hlenI hrc
    have htw : tailBorderWidth b = tailBorderWidth a := by
      unfold tailBorderWidth
      rw [← hlen, htail (a.data.length - 4) (by clear * - hn20; omega) (by omega),
        htail (a.data.length - 3) (by clear * - hn20; omega) (by omega)]
    have hth : tailBorderHeight b = tailBorderHeight a := by
      unfold tailBorderHeight
      rw [← hlen, htail (a.data.length - 2) (by clear * - hn20; omega) (by omega),
        htail (a.data.length - 1) (by clear * - hn20; omega) (by omega)]
    rw [readWords_blockdata a a1 a2 a3, hrse] at hbda
    rw [readWords_blockdata b b1 b2 b3, hhdr, hrseb] at hbdb
    have hbd : bda = bdb := by
      rw [← Option.some.inj hbda, ← Option.some.inj hbdb]
      apply wordsFrom_congr a b (min (exactMapDataEnd a).toNat a.data.length)
      · intro j hj
        exact hpre j (by clear * - hj; omega) (by clear * - hj hM20; omega)
      · unfold QByteArray.length at a3
        clear * - hle hM20 hn20 a3
        generalize (readHeader a).mapDataEnd = e at hle a3 ⊢
        generalize exactMapDataEnd a = m at hle hM20 ⊢
        omega
    have hbr : bra = brb := by
      by_cases hacc : rseAccepted a
      · have haccb : rseAccepted b := (rseAccepted_congr hhdr hlenI hrc).mpr hacc
        have hfitb : tailBorderWidth b * tailBorderHeight b * 2 + 4 ≤ b.data.length := by
          rw [htw, hth, ← hlen]; exact hfit
        rw [readBorder_of_accepted a hrse hacc hfit] at hbra
        rw [readBorder_of_accepted b hrseb haccb hfitb, htw, hth, ← hlen] at hbrb
        rw [← Option.some.inj hbra, ← Option.some.inj hbrb]
        apply wordsFrom_congr_range a b a.data.length
        · intro j hj hjm
          apply hborder j hjm
          rw [her]
          clear * - hj hfit
          generalize tailBorderWidth a * tailBorderHeight a = t at hj hfit ⊢
          omega
        · clear * - hfit
          generalize tailBorderWidth a * tailBorderHeight a = t at hfit ⊢
          omega
      · have haccb : ¬ rseAccepted b := fun h => hacc ((rseAccepted_congr hhdr hlenI hrc).mp h)
        rw [readBorder_of_not_accepted a hrse hacc] at hbra
        rw [readBorder_of_not_accepted b hrseb haccb] at hbrb
        rw [← Option.some.inj hbra, ← Option.some.inj hbrb]
    rw [hla, hlb, hhdr, hloc, hbd, hbr]

/-- C25, on a file with a second copy of its map between the map and the trailing
border, and the same file with four other bytes in that place. -/
theorem parseLayout_ignores_bytes_before_border_witness :
    exactMapDataEnd rseDoubleFile = 24 ∧ exactRseBorderOffset rseDoubleFile = 28
    ∧ rseDoubleFile.at 24 ≠ rseFillerFile.at 24
    ∧ parseLayout rseDoubleFile sampleProject
        = .ok ⟨2, 1, 1, 1, "gTileset_General", "gTileset_Petalburg", [17, 18], [3]⟩
    ∧ parseLayout rseFillerFile sampleProject
        = .ok ⟨2, 1, 1, 1, "gTileset_General", "gTileset_Petalburg", [17, 18], [3]⟩
    ∧ (⟨2, 1, 1, 1, "gTileset_General", "gTileset_Petalburg", [17, 18], [3]⟩ : Layout)
        = ⟨2, 1, 1, 1, "gTileset_General", "gTileset_Petalburg", [17, 18], [3]⟩ :=
  ⟨by decide, by decide, by decide, by decide, by decide,
    parseLayout_ignores_bytes_before_border rseDoubleFile rseFillerFile sampleProject _ _
      (by decide) (by decide) (by decide) (by decide) (by decide) (by decide) (by decide)
      (by decide) (by decide)⟩

/-! ## Claims on the byte indices the decoders read -/

/-- C27. The 24-byte file with the width word `0xFFFFFFFF`, the height 100, no header
border and the tail values 4 and 4 passes the size check and the truncation check of
`parseLayout` (`mapDataEnd` is -180), the trailing-border candidate is taken with 16
border tiles, and the border loop starts at index -380: the run reads outside the
buffer. -/
theorem parseLayout_reads_outside_buffer :
    ¬ (negativeOffsetFile.length < 20 ∨ negativeOffsetFile.length % 2 ≠ 0)
    ∧ (readHeader negativeOffsetFile).mapDataEnd = -180
    ∧ ¬ negativeOffsetFile.length < (readHeader negativeOffsetFile).mapDataEnd
    ∧ (locateBorder negativeOffsetFile (readHeader negativeOffsetFile)).numBorderTiles = 16
    ∧ borderOffset (readHeader negativeOffsetFile)
        (locateBorder negativeOffsetFile (readHeader negativeOffsetFile)) = -380
    ∧ negativeOffsetFile.index (-380) = none
    ∧ parseLayout negativeOffsetFile sampleProject = .fault := by
  exact ⟨by decide, by decide, by decide, by decide, by decide, by decide, by decide⟩

/-- Every run of `parseMetatiles` that returns a list read its tile words and attribute
bytes between the count and the signature: the tile block and the attribute block of
the chosen tileset lie in `[4, length - 4)`. -/
theorem parseMetatiles_reads_in_body {inp : QByteArray} {cfg : MetatileConfig}
    {primaryTileset : Bool} {ms : List Metatile}
    (h : parseMetatiles inp cfg primaryTileset = .ok ms) :
    ∃ (version : BaseGameVersion) (N : Nat) (doubleTileset : Bool) (T0 A0 : Nat),
      detectVersion inp = some version ∧ readInt32 inp 0 = (N : Int)
      ∧ tilesOffset doubleTileset primaryTileset (readInt32 inp 0) = (T0 : Int)
      ∧ attrsOffset doubleTileset primaryTileset (getDefaultAttributesSize version)
          (readInt32 inp 0) = (A0 : Int)
      ∧ ms = specMetatiles inp cfg.tripleLayerMetatilesEnabled version (attrWidth version)
          T0 A0 N
      ∧ 4 ≤ T0 ∧ T0 + 16 * N ≤ inp.data.length - 4
      ∧ 4 ≤ A0 ∧ A0 + attrWidth version * N ≤ inp.data.length - 4 := by
  obtain ⟨version, N, d, hv, hN, h1, _, hD, hsize, _⟩ := parseMetatiles_exact h
  obtain ⟨version2, N2, d2, hv2, hN2, _, hD2, ht, ha0, _, _, hms⟩ := parseMetatiles_layout h
  have ev : version2 = version := Option.some.inj (hv2.symm.trans hv)
  have eN : N2 = N := Int.ofNat.inj (hN2.symm.trans hN)
  subst ev eN
  have ed : d2 = d := Bool.eq_iff_iff.mpr (hD2.trans hD.symm)
  subst ed
  have hbounds : ∀ (dd : Bool), inp.data.length = exactFileSize dd (attrWidth version2) N2 →
      4 ≤ specTilesOffset dd primaryTileset N2
      ∧ specTilesOffset dd primaryTileset N2 + 16 * N2 ≤ inp.data.length - 4
      ∧ 4 ≤ specAttrsOffset dd primaryTileset (attrWidth version2) N2
      ∧ specAttrsOffset dd primaryTileset (attrWidth version2) N2 + attrWidth version2 * N2
          ≤ inp.data.length - 4 := by
    intro dd hs
    clear * - hs
    generalize inp.data.length = len at hs ⊢
    cases dd
    · rw [exactFileSize_single] at hs
      rw [specTilesOffset_single, specAttrsOffset_single]
      generalize attrWidth version2 * N2 = Y at hs ⊢
      omega
    · rw [exactFileSize_double] at hs
      cases primaryTileset
      · rw [specTilesOffset_double_secondary, specAttrsOffset_double_secondary]
        generalize attrWidth version2 * N2 = Y at hs ⊢
        omega
      · rw [specTilesOffset_double_primary, specAttrsOffset_double_primary]
        generalize attrWidth version2 * N2 = Y at hs ⊢
        omega
  exact ⟨version2, N2, d2, _, _, hv2, hN2, ht, ha0, hms, hbounds d2 hsize⟩

/-! ## Claim on the two halves of a double-tileset file -/

/-- A byte of a buffer made of three parts, inside the middle part. -/
theorem at_of_split (x : QByteArray) (P M Q : List (Fin 256)) (h : x.data = P ++ (M ++ Q))
    (p : Nat) (hp : P.length = p) (k : Nat) (hk : k < M.length) :
    x.at (p + k) = (M.getD k 0).val := by
  subst hp
  unfold QByteArray.at
  rw [h, List.getD_append_right _ _ _ _ (Nat.le_add_right _ _), Nat.add_sub_cancel_left,
    List.getD_append _ _ _ _ hk]

theorem leValue_congr (x y : QByteArray) :
    ∀ (w s t : Nat), (∀ j, j < w → x.at (s + j) = y.at (t + j)) →
      leValue x s w = leValue y t w := by
  intro w
  induction w with
  | zero => intro s t _; rfl
  | succ w ih =>
    intro s t h
    have e0 := h 0 (Nat.succ_pos w)
    rw [Nat.add_zero, Nat.add_zero] at e0
    have e1 := ih (s + 1) (t + 1) (fun j hj => by
      have e := h (j + 1) (Nat.succ_lt_succ hj)
      rw [Nat.add_assoc, Nat.add_comm 1 j, Nat.add_assoc, Nat.add_comm 1 j]
      exact e)
    rw [leValue_succ, leValue_succ, e0, e1]

theorem fileTiles_congr (x y : QByteArray) (s t : Nat)
    (h : ∀ j, j < 16 → x.at (s + j) = y.at (t + j)) : fileTiles x s = fileTiles y t := by
  unfold fileTiles
  apply List.map_congr_left
  intro j hj
  have hj8 : j < 8 := List.mem_range.mp hj
  have e0 := h (2 * j) (by omega)
  have e1 := h (2 * j + 1) (by omega)
  unfold le16At
  rw [e0, Nat.add_assoc s, Nat.add_assoc t, e1]

/-- Two buffers that hold the same `N` tile records and the same `N` attribute records,
each at its own offsets, hold the same metatiles. -/
theorem specMetatiles_congr (x y : QByteArray) (tripleLayer : Bool) (version : BaseGameVersion)
    (a tx ax ty ay N : Nat)
    (ht : ∀ k, k < 16 * N → x.at (tx + k) = y.at (ty + k))
    (ha : ∀ k, k < a * N → x.at (ax + k) = y.at (ay + k)) :
    specMetatiles x tripleLayer version a tx ax N
      = specMetatiles y tripleLayer version a ty ay N := by
  unfold specMetatiles
  apply List.map_congr_left
  intro i hi
  have hiN : i < N := List.mem_range.mp hi
  have hmul : a * i + a ≤ a * N := by
    have := Nat.mul_le_mul_left a (Nat.succ_le_of_lt hiN)
    rw [Nat.mul_succ] at this
    exact this
  have e1 : fileTiles x (tx + 16 * i) = fileTiles y (ty + 16 * i) :=
    fileTiles_congr x y _ _ (fun j hj => by
      rw [Nat.add_assoc, Nat.add_assoc]
      exact ht (16 * i + j) (by omega))
  have e2 : leValue x (ax + a * i) a = leValue y (ay + a * i) a :=
    leValue_congr x y a _ _ (fun j hj => by
      rw [Nat.add_assoc, Nat.add_assoc]
      exact ha (a * i + j) (by omega))
  unfold specMetatile
  rw [e1, e2]

theorem detectVersion_congr (x y : QByteArray)
    (h : ∀ k, k < 4 → x.at (x.data.length - 4 + k) = y.at (y.data.length - 4 + k)) :
    detectVersion x = detectVersion y := by
  unfold detectVersion
  rw [h 0 (by omega), h 1 (by omega), h 2 (by omega), h 3 (by omega)]

/-- One half of a double-tileset file against the single-tileset file that holds the
same count, records and signature: a run that accepts the double file for the chosen
tileset gives the list the run on the single file gives. -/
theorem parseMetatiles_half (dbl s : QByteArray) (cfg : MetatileConfig) (primaryTileset : Bool)
    (version : BaseGameVersion) (n : Nat)
    (hv : detectVersion dbl = some version)
    (hNd : readInt32 dbl 0 = (n : Int))
    (hLd : dbl.data.length = exactFileSize true (attrWidth version) n)
    (hLs : s.data.length = exactFileSize false (attrWidth version) n)
    (hsig : ∀ k, k < 4 → dbl.at (dbl.data.length - 4 + k) = s.at (s.data.length - 4 + k))
    (hcnt : ∀ j, j < 0 + 4 → s.at j = dbl.at j)
    (ht : ∀ k, k < 16 * n →
      s.at (4 + k) = dbl.at (specTilesOffset true primaryTileset n + k))
    (ha : ∀ k, k < attrWidth version * n →
      s.at (4 + 16 * n + k)
        = dbl.at (specAttrsOffset true primaryTileset (attrWidth version) n + k))
    (ms : List Metatile) (hacc : parseMetatiles dbl cfg primaryTileset = .ok ms) :
    parseMetatiles s cfg primaryTileset = .ok ms := by
  obtain ⟨version2, N, d, hv2, hN, hN1, hmax, _, hsize, hms⟩ := parseMetatiles_exact hacc
  have ev : version2 = version := Option.some.inj (hv2.symm.trans hv)
  have eN : N = n := Int.ofNat.inj (hN.symm.trans hNd)
  subst ev eN
  have hd : d = true := by
    cases d
    · exfalso
      rw [hLd, exactFileSize_double, exactFileSize_single] at hsize
      clear * - hsize hN1
      generalize attrWidth version2 * N = Y at hsize
      omega
    · rfl
  subst hd
  have hvs : detectVersion s = some version2 := by
    rw [← detectVersion_congr dbl s hsig]; exact hv
  have hNs : readInt32 s 0 = (N : Int) := by
    rw [readInt32_congr 0 hcnt]; exact hNd
  rw [parseMetatiles_of_exact s cfg primaryTileset version2 N false hvs hNs hN1 hmax hLs, hms,
    specTilesOffset_single, specAttrsOffset_single]
  exact congrArg Outcome.ok
    (specMetatiles_congr s dbl cfg.tripleLayerMetatilesEnabled version2 (attrWidth version2)
      4 (4 + 16 * N) _ _ N ht ha)

/-- C29. Decoding one half of a double-tileset file equals decoding the corresponding
single-tileset file: for every double-tileset buffer `H ++ T1 ++ T2 ++ A1 ++ A2 ++ S`
(`H` the 4-byte count `n`, `T1`, `T2` tile blocks of `16*n` bytes, `A1`, `A2` attribute
blocks of `attrSize*n` bytes, `S` the signature) and the same ambient values, a run of
`parseMetatiles` with `primaryTileset = true` that accepts the buffer returns the list
the run on `H ++ T1 ++ A1 ++ S` returns, and a run with `primaryTileset = false` that
accepts it returns the list the run on `H ++ T2 ++ A2 ++ S` returns. -/
theorem parseMetatiles_double_halves (dbl s1 s2 : QByteArray) (cfg : MetatileConfig)
    (H T1 T2 A1 A2 S : List (Fin 256)) (n : Nat) (version : BaseGameVersion)
    (hd : dbl.data = H ++ T1 ++ T2 ++ A1 ++ A2 ++ S)
    (h1 : s1.data = H ++ T1 ++ A1 ++ S)
    (h2 : s2.data = H ++ T2 ++ A2 ++ S)
    (hH : H.length = 4) (hS : S.length = 4)
    (hT1 : T1.length = 16 * n) (hT2 : T2.length = 16 * n)
    (hA1 : A1.length = attrWidth version * n) (hA2 : A2.length = attrWidth version * n)
    (hcount : le32 dbl 0 = n) (hv : detectVersion dbl = some version) :
    (∀ ms, parseMetatiles dbl cfg true = .ok ms → parseMetatiles s1 cfg true = .ok ms)
    ∧ (∀ ms, parseMetatiles dbl cfg false = .ok ms → parseMetatiles s2 cfg false = .ok ms) := by
  have hLd : dbl.data.length = 4 + 16 * n + 16 * n + attrWidth version * n
      + attrWidth version * n + 4 := by
    rw [hd]; simp only [List.length_append]; rw [hH, hT1, hT2, hA1, hA2, hS]
  have hL1 : s1.data.length = 4 + 16 * n + attrWidth version * n + 4 := by
    rw [h1]; simp only [List.length_append]; rw [hH, hT1, hA1, hS]
  have hL2 : s2.data.length = 4 + 16 * n + attrWidth version * n + 4 := by
    rw [h2]; simp only [List.length_append]; rw [hH, hT2, hA2, hS]
  have hLdE : dbl.data.length = exactFileSize true (attrWidth version) n := by
    rw [hLd, exactFileSize_double]
    clear * -
    generalize attrWidth version * n = Y
    omega
  have hL1E : s1.data.length = exactFileSize false (attrWidth version) n := by
    rw [hL1, exactFileSize_single]
    clear * -
    generalize attrWidth version * n = Y
    omega
  have hL2E : s2.data.length = exactFileSize false (attrWidth version) n := by
    rw [hL2, exactFileSize_single]
    clear * -
    generalize attrWidth version * n = Y
    omega
  have hnlt : n < 2147483648 := by
    have hfits := dbl.size_fits_int
    rw [hLd] at hfits
    clear * - hfits
    generalize attrWidth version * n = Y at hfits
    omega
  have hNd : readInt32 dbl 0 = (n : Int) := readInt32_of_le32 dbl 0 n hcount hnlt
  -- the parts of the double file
  have dH : dbl.data = [] ++ (H ++ (T1 ++ T2 ++ A1 ++ A2 ++ S)) := by
    rw [hd]; simp only [List.append_assoc, List.nil_append]
  have dT1 : dbl.data = H ++ (T1 ++ (T2 ++ A1 ++ A2 ++ S)) := by
    rw [hd]; simp only [List.append_assoc]
  have dT2 : dbl.data = (H ++ T1) ++ (T2 ++ (A1 ++ A2 ++ S)) := by
    rw [hd]; simp only [List.append_assoc]
  have dA1 : dbl.data = (H ++ T1 ++ T2) ++ (A1 ++ (A2 ++ S)) := by
    rw [hd]; simp only [List.append_assoc]
  have dA2 : dbl.data = (H ++ T1 ++ T2 ++ A1) ++ (A2 ++ S) := by
    rw [hd, List.append_assoc]
  have dS : dbl.data = (H ++ T1 ++ T2 ++ A1 ++ A2) ++ (S ++ []) := by
    rw [hd, List.append_nil]
  -- the parts of the two single files
  have s1H : s1.data = [] ++ (H ++ (T1 ++ A1 ++ S)) := by
    rw [h1]; simp only [List.append_assoc, List.nil_append]
  have s1T : s1.data = H ++ (T1 ++ (A1 ++ S)) := by
    rw [h1]; simp only [List.append_assoc]
  have s1A : s1.data = (H ++ T1) ++ (A1 ++ S) := by
    rw [h1, List.append_assoc]
  have s1S : s1.data = (H ++ T1 ++ A1) ++ (S ++ []) := by
    rw [h1, List.append_nil]
  have s2H : s2.data = [] ++ (H ++ (T2 ++ A2 ++ S)) := by
    rw [h2]; simp only [List.append_assoc, List.nil_append]
  have s2T : s2.data = H ++ (T2 ++ (A2 ++ S)) := by
    rw [h2]; simp only [List.append_assoc]
  have s2A : s2.data = (H ++ T2) ++ (A2 ++ S) := by
    rw [h2, List.append_assoc]
  have s2S : s2.data = (H ++ T2 ++ A2) ++ (S ++ []) := by
    rw [h2, List.append_nil]
  -- the lengths of the prefixes
  have pHT1 : (H ++ T1).length = 4 + 16 * n := by
    rw [List.length_append, hH, hT1]
  have pHT2 : (H ++ T2).length = 4 + 16 * n := by
    rw [List.length_append, hH, hT2]
  have pHTT : (H ++ T1 ++ T2).length = 4 + 2 * (16 * n) := by
    simp only [List.length_append]; rw [hH, hT1, hT2]; clear * -; omega
  have pHTTA : (H ++ T1 ++ T2 ++ A1).length = 4 + 2 * (16 * n) + attrWidth version * n := by
    simp only [List.length_append]; rw [hH, hT1, hT2, hA1]; clear * -; omega
  have pdS : (H ++ T1 ++ T2 ++ A1 ++ A2).length = dbl.data.length - 4 := by
    rw [hLd]; simp only [List.length_append]; rw [hH, hT1, hT2, hA1, hA2]
    clear * -
    generalize attrWidth version * n = Y
    omega
  have p1S : (H ++ T1 ++ A1).length = s1.data.length - 4 := by
    rw [hL1]; simp only [List.length_append]; rw [hH, hT1, hA1]
    clear * -
    generalize attrWidth version * n = Y
    omega
  have p2S : (H ++ T2 ++ A2).length = s2.data.length - 4 := by
    rw [hL2]; simp only [List.length_append]; rw [hH, hT2, hA2]
    clear * -
    generalize attrWidth version * n = Y
    omega
  have z4 : ∀ j, j < 0 + 4 → j < H.length := fun j hj => by rw [hH]; exact hj
  constructor
  · refine parseMetatiles_half dbl s1 cfg true version n hv hNd hLdE hL1E ?_ ?_ ?_ ?_
    · intro k hk
      rw [at_of_split dbl _ S [] dS _ pdS k (by rw [hS]; exact hk),
        at_of_split s1 _ S [] s1S _ p1S k (by rw [hS]; exact hk)]
    · intro j hj
      have e1 := at_of_split s1 [] H _ s1H 0 rfl j (z4 j hj)
      have e2 := at_of_split dbl [] H _ dH 0 rfl j (z4 j hj)
      rw [Nat.zero_add] at e1 e2
      rw [e1, e2]
    · intro k hk
      rw [specTilesOffset_double_primary,
        at_of_split s1 H T1 _ s1T 4 hH k (by rw [hT1]; exact hk),
        at_of_split dbl H T1 _ dT1 4 hH k (by rw [hT1]; exact hk)]
    · intro k hk
      rw [specAttrsOffset_double_primary,
        at_of_split s1 _ A1 _ s1A _ pHT1 k (by rw [hA1]; exact hk),
        at_of_split dbl _ A1 _ dA1 _ pHTT k (by rw [hA1]; exact hk)]
  · refine parseMetatiles_half dbl s2 cfg false version n hv hNd hLdE hL2E ?_ ?_ ?_ ?_
    · intro k hk
      rw [at_of_split dbl _ S [] dS _ pdS k (by rw [hS]; exact hk),
        at_of_split s2 _ S [] s2S _ p2S k (by rw [hS]; exact hk)]
    · intro j hj
      have e1 := at_of_split s2 [] H _ s2H 0 rfl j (z4 j hj)
      have e2 := at_of_split dbl [] H _ dH 0 rfl j (z4 j hj)
      rw [Nat.zero_add] at e1 e2
      rw [e1, e2]
    · intro k hk
      rw [specTilesOffset_double_secondary,
        at_of_split s2 H T2 _ s2T 4 hH k (by rw [hT2]; exact hk),
        at_of_split dbl _ T2 _ dT2 _ pHT1 k (by rw [hT2]; exact hk)]
    · intro k hk
      rw [specAttrsOffset_double_secondary,
        at_of_split s2 _ A2 _ s2A _ pHT2 k (by rw [hA2]; exact hk),
        at_of_split dbl _ A2 _ dA2 _ pHTTA k (by rw [hA2]; exact hk)]

/-- C29, on the 44-byte double-tileset file of family A with the count 1 and the two
26-byte single-tileset files made of its halves. -/
theorem parseMetatiles_double_halves_witness :
    parseMetatiles doubleMetatileFile sampleConfig true
        = .ok (specMetatiles doubleMetatileFile false .pokeemerald 2 4 36 1)
    ∧ parseMetatiles doubleMetatileFile sampleConfig false
        = .ok (specMetatiles doubleMetatileFile false .pokeemerald 2 20 38 1)
    ∧ parseMetatiles rseMetatileFile sampleConfig true
        = .ok (specMetatiles doubleMetatileFile false .pokeemerald 2 4 36 1)
    ∧ parseMetatiles secondaryMetatileFile sampleConfig false
        = .ok (specMetatiles doubleMetatileFile false .pokeemerald 2 20 38 1) :=
  ⟨by decide, by decide,
    (parseMetatiles_double_halves doubleMetatileFile rseMetatileFile secondaryMetatileFile
      sampleConfig [1, 0, 0, 0] [1, 0, 2, 4, 3, 8, 4, 28, 5, 240, 6, 0, 7, 0, 8, 0]
      [9, 0, 10, 4, 11, 8, 12, 28, 13, 240, 14, 0, 15, 0, 16, 0] [52, 18] [120, 86]
      [82, 83, 69, 32] 1 .pokeemerald rfl rfl rfl rfl rfl rfl rfl rfl rfl (by decide)
      (by decide)).1 _ (by decide),
    (parseMetatiles_double_halves doubleMetatileFile rseMetatileFile secondaryMetatileFile
      sampleConfig [1, 0, 0, 0] [1, 0, 2, 4, 3, 8, 4, 28, 5, 240, 6, 0, 7, 0, 8, 0]
      [9, 0, 10, 4, 11, 8, 12, 28, 13, 240, 14, 0, 15, 0, 16, 0] [52, 18] [120, 86]
      [82, 83, 69, 32] 1 .pokeemerald rfl rfl rfl rfl rfl rfl rfl rfl rfl (by decide)
      (by decide)).2 _ (by decide)⟩

/-- When the expected double size fits a 32-bit `int`, every buffer that passes the
validation of `parseMetatiles` (signature, count bounds, and a total length equal to
the expected single or double size) is decoded to its end: the run returns a list. -/
theorem parseMetatiles_validated_ok (inp : QByteArray) (cfg : MetatileConfig)
    (primaryTileset : Bool) (version : BaseGameVersion) (N : Nat)
    (hv : detectVersion inp = some version) (hN : readInt32 inp 0 = (N : Int)) (h1 : 1 ≤ N)
    (hmax : (N : Int) ≤ maxMetatiles cfg primaryTileset)
    (hfit : 8 + 2 * (16 * N) + 2 * (attrWidth version * N) < 2147483648)
    (hlen : inp.length = expectedSingleSize (getDefaultAttributesSize version) (readInt32 inp 0)
      ∨ inp.length
        = expectedDoubleSize (getDefaultAttributesSize version) (readInt32 inp 0)) :
    ∃ ms, parseMetatiles inp cfg primaryTileset = .ok ms := by
  have hAw := attrWidth_cast version
  have hL : inp.length = (inp.data.length : Int) := rfl
  have hXe : getDefaultAttributesSize version * (N : Int)
      = ((attrWidth version * N : Nat) : Int) := by
    rw [← hAw]; push_cast; ring
  have hX : 0 ≤ getDefaultAttributesSize version * (N : Int) := by
    rw [hXe]; exact Int.ofNat_nonneg _
  have hfit2 : 8 + 2 * (16 * (N : Int)) + 2 * (getDefaultAttributesSize version * (N : Int))
      < 2147483648 := by
    rw [hXe]
    clear * - hfit
    generalize attrWidth version * N = Y at hfit ⊢
    omega
  obtain ⟨e1, e2⟩ := expected_sizes_fit (N : Int)
    (getDefaultAttributesSize version * (N : Int)) (Int.ofNat_nonneg N) hX hfit2
  rw [hN, expectedSingleSize_eq, expectedDoubleSize_eq, e1, e2, hXe, hL] at hlen
  rcases hlen with hs | hd
  · refine ⟨_, parseMetatiles_of_exact inp cfg primaryTileset version N false hv hN h1 hmax ?_⟩
    rw [exactFileSize_single]
    clear * - hs
    generalize attrWidth version * N = Y at hs ⊢
    omega
  · refine ⟨_, parseMetatiles_of_exact inp cfg primaryTileset version N true hv hN h1 hmax ?_⟩
    rw [exactFileSize_double]
    clear * - hd
    generalize attrWidth version * N = Y at hd ⊢
    omega


/-! ## Claim on the byte indices `parseMetatiles` reads -/

/-- In a file of one of the two exact sizes the tile block and the attribute block of
the chosen tileset lie between the count and the signature. -/
theorem body_blocks (len a N : Nat) (doubleTileset primaryTileset : Bool)
    (hs : len = exactFileSize doubleTileset a N) :
    4 ≤ specTilesOffset doubleTileset primaryTileset N
    ∧ specTilesOffset doubleTileset primaryTileset N + 16 * N ≤ len - 4
    ∧ 4 ≤ specAttrsOffset doubleTileset primaryTileset a N
    ∧ specAttrsOffset doubleTileset primaryTileset a N + a * N ≤ len - 4 := by
  cases doubleTileset
  · rw [exactFileSize_single] at hs
    rw [specTilesOffset_single, specAttrsOffset_single]
    generalize a * N = Y at hs ⊢
    omega
  · rw [exactFileSize_double] at hs
    cases primaryTileset
    · rw [specTilesOffset_double_secondary, specAttrsOffset_double_secondary]
      generalize a * N = Y at hs ⊢
      omega
    · rw [specTilesOffset_double_primary, specAttrsOffset_double_primary]
      generalize a * N = Y at hs ⊢
      omega

theorem leValue_two (inp : QByteArray) (s : Nat) :
    leValue inp s 2 = inp.at s + 256 * inp.at (s + 1) := by
  show inp.at s + 256 * (inp.at (s + 1) + 256 * 0) = _
  omega

theorem leValue_four (inp : QByteArray) (s : Nat) :
    leValue inp s 4
      = inp.at s + 256 * inp.at (s + 1) + 65536 * inp.at (s + 2) + 16777216 * inp.at (s + 3) := by
  show inp.at s + 256 * (inp.at (s + 1) + 256 * (inp.at (s + 1 + 1)
    + 256 * (inp.at (s + 1 + 1 + 1) + 256 * 0))) = _
  have e2 : s + 1 + 1 = s + 2 := rfl
  have e3 : s + 2 + 1 = s + 3 := rfl
  rw [e2, e3]
  omega

/-- The loop over the metatiles never ends in a diagnostic. -/
theorem readMetatiles_not_failed (inp : QByteArray) (tripleLayer : Bool)
    (version : BaseGameVersion) (attrSize t0 a0 n : Int) (e : MetatileError) :
    readMetatiles inp tripleLayer version attrSize t0 a0 n ≠ .failed e := by
  unfold readMetatiles
  generalize collect
    (fun i : Nat => readMetatile inp tripleLayer version attrSize t0 a0 (i : Int))
    (List.range n.toNat) = c
  cases c with
  | none => intro h; cases h
  | some ms => intro h; cases h

/-- Once the game family is known the decoder never logs the unsupported-type
diagnostic. -/
theorem decodeMetatiles_not_unsupported (inp : QByteArray) (cfg : MetatileConfig)
    (primaryTileset : Bool) (version : BaseGameVersion) :
    decodeMetatiles inp cfg primaryTileset version ≠ .failed .unsupportedGameType := by
  unfold decodeMetatiles
  by_cases h2 : readInt32 inp 0 > maxMetatiles cfg primaryTileset
  · rw [if_pos h2]; intro h; cases h
  · rw [if_neg h2]
    by_cases h3 : readInt32 inp 0 < 1
    · rw [if_pos h3]; intro h; cases h
    · rw [if_neg h3]
      by_cases h4 : inp.length
          = expectedDoubleSize (getDefaultAttributesSize version) (readInt32 inp 0)
      · rw [if_pos h4]
        exact readMetatiles_not_failed _ _ _ _ _ _ _ _
      · rw [if_neg h4]
        by_cases h5 : inp.length
            ≠ expectedSingleSize (getDefaultAttributesSize version) (readInt32 inp 0)
        · rw [if_pos h5]; intro h; cases h
        · rw [if_neg h5]
          exact readMetatiles_not_failed _ _ _ _ _ _ _ _

/-- The run on a buffer whose game family is known is the run of `decodeMetatiles`. -/
theorem parseMetatiles_of_version {inp : QByteArray} (cfg : MetatileConfig)
    (primaryTileset : Bool) {version : BaseGameVersion}
    (hsize : ¬ (inp.length < 9 ∨ inp.length % 2 ≠ 0))
    (hv : detectVersion inp = some version) :
    parseMetatiles inp cfg primaryTileset = decodeMetatiles inp cfg primaryTileset version := by
  unfold parseMetatiles
  rw [if_neg hsize, hv]

/-- What a decoded list is made of, for the game family found: the count `N >= 1` of
the header, a file of one of the two exact sizes for the attribute width of the
family, and for each `i < N` a metatile of that family whose attribute value is the
little-endian integer in the bytes of record `i` of the attribute block, which starts
at the `attrsOffset` of the code and lies before the signature. -/
theorem parseMetatiles_attribute_records {inp : QByteArray} {cfg : MetatileConfig}
    {primaryTileset : Bool} {ms : List Metatile} {version : BaseGameVersion}
    (hv : detectVersion inp = some version)
    (h : parseMetatiles inp cfg primaryTileset = .ok ms) :
    ∃ (N A0 : Nat) (doubleTileset : Bool),
      readInt32 inp 0 = (N : Int) ∧ 1 ≤ N ∧ ms.length = N
      ∧ inp.data.length = exactFileSize doubleTileset (attrWidth version) N
      ∧ attrsOffset doubleTileset primaryTileset (getDefaultAttributesSize version)
          (readInt32 inp 0) = (A0 : Int)
      ∧ ∀ i, i < N →
          A0 + attrWidth version * i + attrWidth version ≤ inp.data.length - 4
          ∧ ∃ m, ms.get? i = some m ∧ m.version = version
            ∧ m.attributes = leValue inp (A0 + attrWidth version * i) (attrWidth version) := by
  obtain ⟨version1, N, d, hv1, hN, h1, _, hD, hsize, _⟩ := parseMetatiles_exact h
  obtain ⟨version2, N2, d2, hv2, hN2, _, hD2, _, ha0, _, _, hms⟩ := parseMetatiles_layout h
  have ev1 : version1 = version := Option.some.inj (hv1.symm.trans hv)
  have ev : version2 = version := Option.some.inj (hv2.symm.trans hv)
  have eN : N2 = N := Int.ofNat.inj (hN2.symm.trans hN)
  subst ev1 ev eN
  have ed : d2 = d := Bool.eq_iff_iff.mpr (hD2.trans hD.symm)
  subst ed
  obtain ⟨_, _, _, b4⟩ := body_blocks inp.data.length (attrWidth version2) N2 d2
    primaryTileset hsize
  refine ⟨N2, specAttrsOffset d2 primaryTileset (attrWidth version2) N2, d2, hN, h1, ?_, hsize,
    ha0, ?_⟩
  · rw [hms, specMetatiles_length]
  · intro i hi
    constructor
    · clear * - b4 hi
      generalize specAttrsOffset d2 primaryTileset (attrWidth version2) N2 = A0 at b4 ⊢
      generalize inp.data.length - 4 = L at b4 ⊢
      have hm : attrWidth version2 * (i + 1) ≤ attrWidth version2 * N2 :=
        Nat.mul_le_mul_left _ hi
      rw [Nat.mul_succ] at hm
      generalize attrWidth version2 * i = Y at hm ⊢
      generalize attrWidth version2 * N2 = Z at hm b4
      omega
    · refine ⟨specMetatile inp cfg.tripleLayerMetatilesEnabled version2 (attrWidth version2)
        (specTilesOffset d2 primaryTileset N2 + 16 * i)
        (specAttrsOffset d2 primaryTileset (attrWidth version2) N2 + attrWidth version2 * i),
        ?_, rfl, rfl⟩
      rw [hms]
      exact specMetatiles_get? _ _ _ _ _ _ _ _ hi

/-- C13: for every buffer of even length at least 9, whatever its count and its size:
(1) when its last four bytes are neither `"RSE "` nor `"FRLG"`, `parseMetatiles`
rejects it with the unsupported-type diagnostic; (2) when they are `"RSE "`, the run
never ends in that diagnostic, a file of an exact size for 2-byte attributes is
decoded, and every decoded list has, for the count `N >= 1` of the header, `N`
metatiles of family `pokeemerald`, metatile `i` with the attribute value of the 2
bytes at `attrsOffset + 2 * i`, in a file of an exact size for 2-byte attributes;
(3) when they are `"FRLG"`, the same holds with family `pokefirered` and the 4 bytes at
`attrsOffset + 4 * i`. -/
theorem parseMetatiles_signature (inp : QByteArray) (cfg : MetatileConfig)
    (primaryTileset : Bool) (h9 : 9 ≤ inp.length) (heven : inp.length % 2 = 0) :
    (trailingSignature inp ≠ signatureRSE → trailingSignature inp ≠ signatureFRLG →
      parseMetatiles inp cfg primaryTileset = .failed .unsupportedGameType)
    ∧ (trailingSignature inp = signatureRSE →
        parseMetatiles inp cfg primaryTileset ≠ .failed .unsupportedGameType
        ∧ (∀ (N : Nat) (doubleTileset : Bool), readInt32 inp 0 = (N : Int) → 1 ≤ N →
            (N : Int) ≤ maxMetatiles cfg primaryTileset →
            inp.data.length = exactFileSize doubleTileset 2 N →
            ∃ ms, parseMetatiles inp cfg primaryTileset = .ok ms)
        ∧ ∀ ms, parseMetatiles inp cfg primaryTileset = .ok ms →
          ∃ (N A0 : Nat) (doubleTileset : Bool),
            readInt32 inp 0 = (N : Int) ∧ 1 ≤ N ∧ ms.length = N
            ∧ inp.data.length = exactFileSize doubleTileset 2 N
            ∧ attrsOffset doubleTileset primaryTileset 2 (readInt32 inp 0) = (A0 : Int)
            ∧ ∀ i, i < N →
                A0 + 2 * i + 2 ≤ inp.data.length - 4
                ∧ ∃ m, ms.get? i = some m ∧ m.version = .pokeemerald
                  ∧ m.attributes = inp.at (A0 + 2 * i) + 256 * inp.at (A0 + 2 * i + 1))
    ∧ (trailingSignature inp = signatureFRLG →
        parseMetatiles inp cfg primaryTileset ≠ .failed .unsupportedGameType
        ∧ (∀ (N : Nat) (doubleTileset : Bool), readInt32 inp 0 = (N : Int) → 1 ≤ N →
            (N : Int) ≤ maxMetatiles cfg primaryTileset →
            inp.data.length = exactFileSize doubleTileset 4 N →
            ∃ ms, parseMetatiles inp cfg primaryTileset = .ok ms)
        ∧ ∀ ms, parseMetatiles inp cfg primaryTileset = .ok ms →
          ∃ (N A0 : Nat) (doubleTileset : Bool),
            readInt32 inp 0 = (N : Int) ∧ 1 ≤ N ∧ ms.length = N
            ∧ inp.data.length = exactFileSize doubleTileset 4 N
            ∧ attrsOffset doubleTileset primaryTileset 4 (readInt32 inp 0) = (A0 : Int)
            ∧ ∀ i, i < N →
                A0 + 4 * i + 4 ≤ inp.data.length - 4
                ∧ ∃ m, ms.get? i = some m ∧ m.version = .pokefirered
                  ∧ m.attributes = inp.at (A0 + 4 * i) + 256 * inp.at (A0 + 4 * i + 1)
                      + 65536 * inp.at (A0 + 4 * i + 2)
                      + 16777216 * inp.at (A0 + 4 * i + 3)) := by
  have hsize : ¬ (inp.length < 9 ∨ inp.length % 2 ≠ 0) := by omega
  have h4 : 4 ≤ inp.data.length := by
    have hL : inp.length = (inp.data.length : Int) := rfl
    omega
  refine ⟨?_, ?_, ?_⟩
  · intro hr hf
    unfold parseMetatiles
    rw [if_neg hsize, detectVersion_none inp h4 hr hf]
  · intro hsig
    have hv := (detectVersion_rse inp h4).mpr hsig
    refine ⟨?_, ?_, ?_⟩
    · rw [parseMetatiles_of_version cfg primaryTileset hsize hv]
      exact decodeMetatiles_not_unsupported _ _ _ _
    · intro N d hN h1 hmax hlen
      exact ⟨_, parseMetatiles_of_exact inp cfg primaryTileset .pokeemerald N d hv hN h1 hmax
        hlen⟩
    · intro ms hms
      obtain ⟨N, A0, d, hN, h1, hl, hs, ha0, hrec⟩ := parseMetatiles_attribute_records hv hms
      refine ⟨N, A0, d, hN, h1, hl, hs, ha0, ?_⟩
      intro i hi
      obtain ⟨hb, m, hm, hmv, hma⟩ := hrec i hi
      exact ⟨hb, m, hm, hmv, hma.trans (leValue_two inp _)⟩
  · intro hsig
    have hv := (detectVersion_frlg inp h4).mpr hsig
    refine ⟨?_, ?_, ?_⟩
    · rw [parseMetatiles_of_version cfg primaryTileset hsize hv]
      exact decodeMetatiles_not_unsupported _ _ _ _
    · intro N d hN h1 hmax hlen
      exact ⟨_, parseMetatiles_of_exact inp cfg primaryTileset .pokefirered N d hv hN h1 hmax
        hlen⟩
    · intro ms hms
      obtain ⟨N, A0, d, hN, h1, hl, hs, ha0, hrec⟩ := parseMetatiles_attribute_records hv hms
      refine ⟨N, A0, d, hN, h1, hl, hs, ha0, ?_⟩
      intro i hi
      obtain ⟨hb, m, hm, hmv, hma⟩ := hrec i hi
      exact ⟨hb, m, hm, hmv, hma.trans (leValue_four inp _)⟩

/-- C13, on sample files: `unknownSignatureFile`, which ends in `"XYZ "`, is
rejected; `rseMetatileFile` is decoded to one `pokeemerald` metatile with the
attribute `0x1234` of its 2 attribute bytes 34 12; `frlgMetatileFile` is decoded to
one `pokefirered` metatile with the attribute `0xF8561234` of its 4 attribute bytes
34 12 56 F8. -/
theorem parseMetatiles_signature_witness :
    parseMetatiles unknownSignatureFile sampleConfig true = .failed .unsupportedGameType
    ∧ (∃ (N A0 : Nat) (doubleTileset : Bool),
        readInt32 rseMetatileFile 0 = (N : Int) ∧ 1 ≤ N
        ∧ (parseMetatiles rseMetatileFile sampleConfig true).returnedList.length = N
        ∧ rseMetatileFile.data.length = exactFileSize doubleTileset 2 N
        ∧ attrsOffset doubleTileset true 2 (readInt32 rseMetatileFile 0) = (A0 : Int)
        ∧ ∀ i, i < N →
            A0 + 2 * i + 2 ≤ rseMetatileFile.data.length - 4
            ∧ ∃ m, (parseMetatiles rseMetatileFile sampleConfig true).returnedList.get? i
                = some m ∧ m.version = .pokeemerald
              ∧ m.attributes
                = rseMetatileFile.at (A0 + 2 * i) + 256 * rseMetatileFile.at (A0 + 2 * i + 1))
    ∧ (parseMetatiles rseMetatileFile sampleConfig true).returnedList.map
        (fun m => (m.version, m.attributes)) = [(.pokeemerald, 4660)]
    ∧ (∃ (N A0 : Nat) (doubleTileset : Bool),
        readInt32 frlgMetatileFile 0 = (N : Int) ∧ 1 ≤ N
        ∧ (parseMetatiles frlgMetatileFile sampleConfig true).returnedList.length = N
        ∧ frlgMetatileFile.data.length = exactFileSize doubleTileset 4 N
        ∧ attrsOffset doubleTileset true 4 (readInt32 frlgMetatileFile 0) = (A0 : Int)
        ∧ ∀ i, i < N →
            A0 + 4 * i + 4 ≤ frlgMetatileFile.data.length - 4
            ∧ ∃ m, (parseMetatiles frlgMetatileFile sampleConfig true).returnedList.get? i
                = some m ∧ m.version = .pokefirered
              ∧ m.attributes
                = frlgMetatileFile.at (A0 + 4 * i) + 256 * frlgMetatileFile.at (A0 + 4 * i + 1)
                  + 65536 * frlgMetatileFile.at (A0 + 4 * i + 2)
                  + 16777216 * frlgMetatileFile.at (A0 + 4 * i + 3))
    ∧ (parseMetatiles frlgMetatileFile sampleConfig true).returnedList.map
        (fun m => (m.version, m.attributes)) = [(.pokefirered, 4166390324)] :=
  ⟨(parseMetatiles_signature unknownSignatureFile sampleConfig true (by decide)
      (by decide)).1 (by decide) (by decide),
   ((parseMetatiles_signature rseMetatileFile sampleConfig true (by decide)
      (by decide)).2.1 (by decide)).2.2
      (parseMetatiles rseMetatileFile sampleConfig true).returnedList (by decide),
   by decide,
   ((parseMetatiles_signature frlgMetatileFile sampleConfig true (by decide)
      (by decide)).2.2 (by decide)).2.2
      (parseMetatiles frlgMetatileFile sampleConfig true).returnedList (by decide),
   by decide⟩

/-! ## The layout decoder with the memory around the buffer -/

/-- Inside the buffer the compiled read is the read of `QByteArray.index`, whatever
the memory around the buffer holds. -/
theorem QByteArray.indexIn_of_index (mem : Int → Nat) (a : QByteArray) (i : Int) (v : Nat)
    (h : a.index i = some v) : a.indexIn mem i = v := by
  unfold QByteArray.index at h
  unfold QByteArray.indexIn
  by_cases hc : 0 ≤ i ∧ i < a.length
  · rw [if_pos hc] at h
    rw [if_pos hc]
    exact Option.some.inj h
  · rw [if_neg hc] at h
    cases h

/-- Outside the buffer the compiled read is the byte of the memory. -/
theorem QByteArray.indexIn_outside (mem : Int → Nat) (a : QByteArray) (i : Int)
    (h : i < 0 ∨ a.length ≤ i) : a.indexIn mem i = mem i &&& 0xff := by
  unfold QByteArray.indexIn
  rw [if_neg (by omega)]

/-- A loop that stays inside the buffer makes fewer steps than its bound. -/
theorem readWords_length_lt (inp : QByteArray) (stop : Int) :
    ∀ (fuel : Nat) (i : Int) (ws : List Nat),
      readWords inp stop fuel i = some ws → ws.length < fuel := by
  intro fuel
  induction fuel with
  | zero => intro i ws h; cases h
  | succ f ih =>
    intro i ws h
    rw [readWords] at h
    by_cases hc : wrap32 (i + 1) < stop ∧ wrap32 (i + 1) < inp.length
    · rw [if_pos hc] at h
      cases hlo : inp.index i with
      | none => simp only [hlo] at h; cases h
      | some lo =>
        cases hhi : inp.index (wrap32 (i + 1)) with
        | none => simp only [hlo, hhi] at h; cases h
        | some hi =>
          simp only [hlo, hhi, Option.map_eq_some'] at h
          obtain ⟨rest, hr, rfl⟩ := h
          have := ih _ _ hr
          simp only [List.length_cons]
          omega
    · rw [if_neg hc] at h
      cases Option.some.inj h
      simp

/-- A loop that stays inside the buffer yields the same words with the reads of the
compiled code, whatever the memory around the buffer holds. -/
theorem readWordsIn_of_readWords (mem : Int → Nat) (inp : QByteArray) (stop : Int) :
    ∀ (fuel : Nat) (i : Int) (ws : List Nat),
      readWords inp stop fuel i = some ws →
      ∀ bound : Nat, ws.length < bound → readWordsIn mem inp stop bound i = ws := by
  intro fuel
  induction fuel with
  | zero => intro i ws h; cases h
  | succ f ih =>
    intro i ws h bound hb
    obtain ⟨g, rfl⟩ : ∃ g, bound = g + 1 := ⟨bound - 1, by omega⟩
    rw [readWords] at h
    rw [readWordsIn]
    by_cases hc : wrap32 (i + 1) < stop ∧ wrap32 (i + 1) < inp.length
    · rw [if_pos hc] at h
      rw [if_pos hc]
      cases hlo : inp.index i with
      | none => simp only [hlo] at h; cases h
      | some lo =>
        cases hhi : inp.index (wrap32 (i + 1)) with
        | none => simp only [hlo, hhi] at h; cases h
        | some hi =>
          simp only [hlo, hhi, Option.map_eq_some'] at h
          obtain ⟨rest, hr, rfl⟩ := h
          simp only [List.length_cons] at hb
          rw [inp.indexIn_of_index mem i lo hlo, inp.indexIn_of_index mem _ hi hhi,
            ih _ _ hr g (by omega)]
    · rw [if_neg hc] at h
      rw [if_neg hc]
      exact Option.some.inj h

/-- One more step of the bound changes nothing once the bound covers the steps that
remain. From an index below `2^31 - 1` the loop makes at most `(length - i) / 2` steps
after the one that tests the condition; from `2^31 - 1` the index wraps once to
`-2^31 + 1` and goes on from there. The length is below `2^31 - 1`, as it is for every
buffer of even length. -/
theorem readWordsIn_stable (mem : Int → Nat) (inp : QByteArray) (stop : Int)
    (hlen : inp.length < 2147483647) (fuel : Nat) :
    ∀ (i : Int), -2147483648 ≤ i → i < 2147483648 →
      (i < 2147483647 → ((inp.length - i) / 2).toNat + 1 ≤ fuel) →
      (i = 2147483647 → 2147483650 ≤ fuel) →
      readWordsIn mem inp stop (fuel + 1) i = readWordsIn mem inp stop fuel i := by
  induction fuel with
  | zero =>
    intro i _ _ h1 h2
    exfalso
    rename_i hhi
    clear * - h1 h2 hhi
    by_cases h : i < 2147483647
    · have := h1 h; omega
    · have := h2 (by omega); omega
  | succ f ih =>
    intro i hlo hhi h1 h2
    have hlen0 := inp.length_nonneg
    rw [readWordsIn, readWordsIn.eq_def mem inp stop (f + 1) i]
    by_cases hc : wrap32 (i + 1) < stop ∧ wrap32 (i + 1) < inp.length
    · simp only [if_pos hc]
      by_cases hi : i < 2147483647
      · have hw1 : wrap32 (i + 1) = i + 1 := wrap32_of_fits (by omega) (by omega)
        have hlt : i + 1 < inp.length := by rw [hw1] at hc; exact hc.2
        have hw2 : wrap32 (i + 2) = i + 2 := wrap32_of_fits (by omega) (by omega)
        have hf := h1 hi
        rw [hw2, ih (i + 2) (by omega) (by omega)
          (fun _ => by clear * - hf hlt; omega) (fun h => by clear * - h hlt hlen; omega)]
      · have hi2 : i = 2147483647 := by omega
        have hf := h2 hi2
        have hw2 : wrap32 (i + 2) = -2147483647 := by rw [hi2]; decide
        rw [hw2, ih (-2147483647) (by omega) (by omega)
          (fun _ => by clear * - hf hlen hlen0; omega) (fun h => by clear * - h; omega)]
    · simp only [if_neg hc]

/-- The bound `2^32` used by `parseLayoutIn` is never exhausted: with any larger bound
the loop yields the same words. -/
theorem readWordsIn_enough (mem : Int → Nat) (inp : QByteArray) (stop : Int) (i : Int)
    (hlen : inp.length < 2147483647) (hlo : -2147483648 ≤ i) (hhi : i < 2147483648) :
    ∀ fuel : Nat, 4294967296 ≤ fuel →
      readWordsIn mem inp stop fuel i = readWordsIn mem inp stop 4294967296 i := by
  have hlen0 := inp.length_nonneg
  intro fuel hf
  induction fuel, hf using Nat.le_induction with
  | base => rfl
  | succ n hn ih =>
    rw [← ih]
    exact readWordsIn_stable mem inp stop hlen n i hlo hhi
      (fun _ => by clear * - hn hlen hlen0 hlo; omega) (fun _ => by clear * - hn; omega)

/-- A run of `parseLayout` that returns a layout returns the same layout with the
reads of the compiled code, whatever the memory around the buffer holds. -/
theorem parseLayoutIn_of_ok (mem : Int → Nat) {inp : QByteArray} {project : Project}
    {l : Layout} (hok : parseLayout inp project = .ok l) :
    parseLayoutIn mem inp project = .ok l := by
  obtain ⟨h1, h2, h3, blockdata, border, hb, hbd, rfl⟩ := parseLayout_ok hok
  have hsz := inp.size_fits_int
  have hbl := readWords_length_lt inp _ _ _ _ hb
  have e1 : readWordsIn mem inp (readHeader inp).mapDataEnd 4294967296
      (readHeader inp).mapDataOffset = blockdata :=
    readWordsIn_of_readWords mem inp _ _ _ _ hb 4294967296 (by clear * - hbl hsz; omega)
  have e2 : readBorderIn mem inp (readHeader inp) (locateBorder inp (readHeader inp))
      = border := by
    unfold readBorder at hbd
    unfold readBorderIn
    by_cases hn : (locateBorder inp (readHeader inp)).numBorderTiles ≠ 0
    · rw [if_pos hn] at hbd
      rw [if_pos hn]
      have hbl2 := readWords_length_lt inp _ _ _ _ hbd
      exact readWordsIn_of_readWords mem inp _ _ _ _ hbd 4294967296
        (by clear * - hbl2 hsz; omega)
    · rw [if_neg hn] at hbd
      rw [if_neg hn]
      exact Option.some.inj hbd
  rw [parseLayoutIn, if_neg (by omega), if_neg (by omega), e1, e2]

/-- The two size checks are those of `parseLayout`: the runs with the reads of the
compiled code fail on the same buffers, with the same diagnostic. -/
theorem parseLayoutIn_failed (mem : Int → Nat) (inp : QByteArray) (project : Project)
    (e : LayoutError) :
    parseLayoutIn mem inp project = .failed e ↔ parseLayout inp project = .failed e := by
  unfold parseLayoutIn parseLayout
  by_cases h1 : inp.length < 20 ∨ inp.length % 2 ≠ 0
  · rw [if_pos h1, if_pos h1]
  · rw [if_neg h1, if_neg h1]
    by_cases h2 : inp.length < (readHeader inp).mapDataEnd
    · rw [if_pos h2, if_pos h2]
    · rw [if_neg h2, if_neg h2]
      constructor
      · intro h; cases h
      · intro h
        generalize readWords inp (readHeader inp).mapDataEnd (inp.data.length + 1)
          (readHeader inp).mapDataOffset = rb at h
        generalize readBorder inp (readHeader inp) (locateBorder inp (readHeader inp)) = rbd
          at h
        cases rb with
        | none => cases h
        | some b =>
          cases rbd with
          | none => cases h
          | some bd => cases h

/-- With the reads of the compiled code every run ends: in a failure of one of the two
size checks or in a layout. -/
theorem parseLayoutIn_total (mem : Int → Nat) (inp : QByteArray) (project : Project) :
    parseLayoutIn mem inp project ≠ .fault := by
  unfold parseLayoutIn
  by_cases h1 : inp.length < 20 ∨ inp.length % 2 ≠ 0
  · rw [if_pos h1]; intro h; cases h
  · rw [if_neg h1]
    by_cases h2 : inp.length < (readHeader inp).mapDataEnd
    · rw [if_pos h2]; intro h; cases h
    · rw [if_neg h2]; intro h; cases h

/-- C23 (fails on the code, which never validates the width and height of the
header): the result of `parseLayout` is not a function of the buffer and the tileset
registry alone. The 24-byte buffer `negativeOffsetFile` (width -1, height 100) passes
both size checks; its border loop then reads 16 words at the offsets -380 to -349,
before the buffer. With the same buffer and the same project, the run returns a border
of 16 words 0 when the memory there holds `0x00` and a border of 16 words 65535 when it
holds `0xFF`: two decodings of one buffer in one context with different outputs. -/
theorem parseLayout_depends_on_memory :
    ¬ (negativeOffsetFile.length < 20 ∨ negativeOffsetFile.length % 2 ≠ 0)
    ∧ ¬ negativeOffsetFile.length < (readHeader negativeOffsetFile).mapDataEnd
    ∧ borderOffset (readHeader negativeOffsetFile)
        (locateBorder negativeOffsetFile (readHeader negativeOffsetFile)) = -380
    ∧ parseLayout negativeOffsetFile sampleProject = .fault
    ∧ parseLayoutIn zeroMemory negativeOffsetFile sampleProject
        = .ok ⟨-1, 100, 4, 4, "gTileset_General", "gTileset_Petalburg", [],
            List.replicate 16 0⟩
    ∧ parseLayoutIn onesMemory negativeOffsetFile sampleProject
        = .ok ⟨-1, 100, 4, 4, "gTileset_General", "gTileset_Petalburg", [],
            List.replicate 16 65535⟩
    ∧ parseLayoutIn zeroMemory negativeOffsetFile sampleProject
        ≠ parseLayoutIn onesMemory negativeOffsetFile sampleProject := by
  refine ⟨by decide, by decide, by decide, by decide, by decide, by decide, by decide⟩

/-! ## The runs on the caller's error flag -/

/-- The run of `parseLayout` on an opened file, by the way `parseLayout` ends on its
bytes: a rejected buffer raises the flag, logs the diagnostic and returns `nullptr`; a
decoded buffer leaves the flag as it was, logs nothing and returns the layout; a read
outside the buffer leaves the run without a result. -/
theorem parseLayoutRun_opened (inp : QByteArray) (project : Project) (error : Bool) :
    (∀ e, parseLayout inp project = .failed e →
      parseLayoutRun (some inp) project error = some ⟨true, [.rejected e], none⟩)
    ∧ (∀ l, parseLayout inp project = .ok l →
      parseLayoutRun (some inp) project error = some ⟨error, [], some l⟩)
    ∧ (parseLayout inp project = .fault → parseLayoutRun (some inp) project error = none) := by
  generalize hr : parseLayout inp project = r
  unfold parseLayout at hr
  show (∀ e, r = .failed e → (if inp.length < 20 ∨ inp.length % 2 ≠ 0 then _ else _) = _)
    ∧ (∀ l, r = .ok l → (if inp.length < 20 ∨ inp.length % 2 ≠ 0 then _ else _) = _)
    ∧ (r = .fault → (if inp.length < 20 ∨ inp.length % 2 ≠ 0 then _ else _) = _)
  by_cases h1 : inp.length < 20 ∨ inp.length % 2 ≠ 0
  · rw [if_pos h1] at hr
    rw [if_pos h1]
    subst hr
    exact ⟨fun e h => (by cases h; rfl), fun l h => (by cases h), fun h => (by cases h)⟩
  · rw [if_neg h1] at hr
    rw [if_neg h1]
    by_cases h2 : inp.length < (readHeader inp).mapDataEnd
    · rw [if_pos h2] at hr
      rw [if_pos h2]
      subst hr
      exact ⟨fun e h => (by cases h; rfl), fun l h => (by cases h), fun h => (by cases h)⟩
    · rw [if_neg h2] at hr
      rw [if_neg h2]
      generalize readWords inp (readHeader inp).mapDataEnd (inp.data.length + 1)
        (readHeader inp).mapDataOffset = rb at hr
      generalize readBorder inp (readHeader inp) (locateBorder inp (readHeader inp)) = rbd
        at hr
      cases rb with
      | none =>
        subst hr
        exact ⟨fun e h => (by cases h), fun l h => (by cases h), fun _ => rfl⟩
      | some b =>
        cases rbd with
        | none =>
          subst hr
          exact ⟨fun e h => (by cases h), fun l h => (by cases h), fun _ => rfl⟩
        | some bd =>
          subst hr
          exact ⟨fun e h => (by cases h), fun l h => (by rw [← Outcome.ok.inj h]),
            fun h => (by cases h)⟩

/-- The loop of `parseMetatiles` as a run, by the way `readMetatiles` ends. -/
theorem readMetatilesRun_eq (inp : QByteArray) (tripleLayer : Bool) (version : BaseGameVersion)
    (attrSize tilesOffset attrsOffset numMetatiles : Int) (error : Bool) :
    (∀ e, readMetatiles inp tripleLayer version attrSize tilesOffset attrsOffset numMetatiles
        = .failed e →
      readMetatilesRun inp tripleLayer version attrSize tilesOffset attrsOffset numMetatiles
        error = some ⟨true, [.rejected e], []⟩)
    ∧ (∀ ms, readMetatiles inp tripleLayer version attrSize tilesOffset attrsOffset
        numMetatiles = .ok ms →
      readMetatilesRun inp tripleLayer version attrSize tilesOffset attrsOffset numMetatiles
        error = some ⟨error, [], ms⟩)
    ∧ (readMetatiles inp tripleLayer version attrSize tilesOffset attrsOffset numMetatiles
        = .fault →
      readMetatilesRun inp tripleLayer version attrSize tilesOffset attrsOffset numMetatiles
        error = none) := by
  unfold readMetatilesRun readMetatiles
  generalize collect
    (fun i : Nat =>
      readMetatile inp tripleLayer version attrSize tilesOffset attrsOffset (i : Int))
    (List.range numMetatiles.toNat) = c
  cases c with
  | none => exact ⟨fun e h => (by cases h), fun l h => (by cases h), fun _ => rfl⟩
  | some ms =>
    exact ⟨fun e h => (by cases h), fun l h => (by rw [← Outcome.ok.inj h]),
      fun h => (by cases h)⟩

/-- The run of `parseMetatiles` once the game family is known, by the way
`decodeMetatiles` ends. -/
theorem decodeMetatilesRun_eq (inp : QByteArray) (cfg : MetatileConfig)
    (primaryTileset : Bool) (version : BaseGameVersion) (error : Bool) :
    (∀ e, decodeMetatiles inp cfg primaryTileset version = .failed e →
      decodeMetatilesRun inp cfg primaryTileset version error
        = some ⟨true, [.rejected e], []⟩)
    ∧ (∀ ms, decodeMetatiles inp cfg primaryTileset version = .ok ms →
      decodeMetatilesRun inp cfg primaryTileset version error = some ⟨error, [], ms⟩)
    ∧ (decodeMetatiles inp cfg primaryTileset version = .fault →
      decodeMetatilesRun inp cfg primaryTileset version error = none) := by
  generalize hr : decodeMetatiles inp cfg primaryTileset version = r
  unfold decodeMetatiles at hr
  unfold decodeMetatilesRun
  by_cases h2 : readInt32 inp 0 > maxMetatiles cfg primaryTileset
  · rw [if_pos h2] at hr
    rw [if_pos h2]
    subst hr
    exact ⟨fun e h => (by cases h; rfl), fun l h => (by cases h), fun h => (by cases h)⟩
  · rw [if_neg h2] at hr
    rw [if_neg h2]
    by_cases h3 : readInt32 inp 0 < 1
    · rw [if_pos h3] at hr
      rw [if_pos h3]
      subst hr
      exact ⟨fun e h => (by cases h; rfl), fun l h => (by cases h), fun h => (by cases h)⟩
    · rw [if_neg h3] at hr
      rw [if_neg h3]
      by_cases h4 : inp.length
          = expectedDoubleSize (getDefaultAttributesSize version) (readInt32 inp 0)
      · rw [if_pos h4] at hr
        rw [if_pos h4, ← hr]
        exact readMetatilesRun_eq _ _ _ _ _ _ _ _
      · rw [if_neg h4] at hr
        rw [if_neg h4]
        by_cases h5 : inp.length
            ≠ expectedSingleSize (getDefaultAttributesSize version) (readInt32 inp 0)
        · rw [if_pos h5] at hr
          rw [if_pos h5]
          subst hr
          exact ⟨fun e h => (by cases h; rfl), fun l h => (by cases h), fun h => (by cases h)⟩
        · rw [if_neg h5] at hr
          rw [if_neg h5, ← hr]
          exact readMetatilesRun_eq _ _ _ _ _ _ _ _

/-- The run of `parseMetatiles` on an opened file, by the way `parseMetatiles` ends on
its bytes. -/
theorem parseMetatilesRun_opened (inp : QByteArray) (cfg : MetatileConfig)
    (primaryTileset : Bool) (error : Bool) :
    (∀ e, parseMetatiles inp cfg primaryTileset = .failed e →
      parseMetatilesRun (some inp) cfg primaryTileset error
        = some ⟨true, [.rejected e], []⟩)
    ∧ (∀ ms, parseMetatiles inp cfg primaryTileset = .ok ms →
      parseMetatilesRun (some inp) cfg primaryTileset error = some ⟨error, [], ms⟩)
    ∧ (parseMetatiles inp cfg primaryTileset = .fault →
      parseMetatilesRun (some inp) cfg primaryTileset error = none) := by
  generalize hr : parseMetatiles inp cfg primaryTileset = r
  unfold parseMetatiles at hr
  show (∀ e, r = .failed e → (if inp.length < 9 ∨ inp.length % 2 ≠ 0 then _ else _) = _)
    ∧ (∀ l, r = .ok l → (if inp.length < 9 ∨ inp.length % 2 ≠ 0 then _ else _) = _)
    ∧ (r = .fault → (if inp.length < 9 ∨ inp.length % 2 ≠ 0 then _ else _) = _)
  by_cases h1 : inp.length < 9 ∨ inp.length % 2 ≠ 0
  · rw [if_pos h1] at hr
    rw [if_pos h1]
    subst hr
    exact ⟨fun e h => (by cases h; rfl), fun l h => (by cases h), fun h => (by cases h)⟩
  · rw [if_neg h1] at hr
    rw [if_neg h1]
    cases hv : detectVersion inp with
    | none =>
      rw [hv] at hr
      subst hr
      exact ⟨fun e h => (by cases h; rfl), fun l h => (by cases h), fun h => (by cases h)⟩
    | some version =>
      rw [hv] at hr
      subst hr
      exact decodeMetatilesRun_eq inp cfg primaryTileset version error

/-- The run of `parsePalette` on an opened file, by the way `parsePalette` ends on its
bytes. -/
theorem parsePaletteRun_opened (inp : QByteArray) (error : Bool) :
    (∀ e, parsePalette inp = .failed e →
      parsePaletteRun (some inp) error = some ⟨true, [.rejected e], []⟩)
    ∧ (∀ palette, parsePalette inp = .ok palette →
      parsePaletteRun (some inp) error = some ⟨error, [], palette⟩)
    ∧ (parsePalette inp = .fault → parsePaletteRun (some inp) error = none) := by
  generalize hr : parsePalette inp = r
  unfold parsePalette at hr
  show (∀ e, r = .failed e → (if inp.length % 4 ≠ 0 then _ else _) = _)
    ∧ (∀ l, r = .ok l → (if inp.length % 4 ≠ 0 then _ else _) = _)
    ∧ (r = .fault → (if inp.length % 4 ≠ 0 then _ else _) = _)
  by_cases h1 : inp.length % 4 ≠ 0
  · rw [if_pos h1] at hr
    rw [if_pos h1]
    subst hr
    exact ⟨fun e h => (by cases h; rfl), fun l h => (by cases h), fun h => (by cases h)⟩
  · rw [if_neg h1] at hr
    rw [if_neg h1]
    generalize readColors inp (inp.data.length + 1) 0 = rc at hr
    cases rc with
    | none =>
      subst hr
      exact ⟨fun e h => (by cases h), fun l h => (by cases h), fun _ => rfl⟩
    | some palette =>
      subst hr
      exact ⟨fun e h => (by cases h), fun l h => (by rw [← Outcome.ok.inj h]),
        fun h => (by cases h)⟩

/-- Every run of `parseLayout` that ends either raised the flag, logged a diagnostic
and returned `nullptr`, or left the flag as it was, logged nothing and returned a
layout. -/
theorem parseLayoutRun_cases (file : Option QByteArray) (project : Project) (error : Bool)
    (r : Run LayoutError (Option Layout)) (h : parseLayoutRun file project error = some r) :
    (r.error = true ∧ r.logged ≠ [] ∧ r.value = none)
    ∨ (r.error = error ∧ r.logged = [] ∧ r.value ≠ none) := by
  cases file with
  | none =>
    cases Option.some.inj h
    exact Or.inl ⟨rfl, List.cons_ne_nil _ _, rfl⟩
  | some inp =>
    obtain ⟨hf, ho, hx⟩ := parseLayoutRun_opened inp project error
    cases hp : parseLayout inp project with
    | failed e =>
      rw [hf e hp] at h
      cases Option.some.inj h
      exact Or.inl ⟨rfl, List.cons_ne_nil _ _, rfl⟩
    | ok l =>
      rw [ho l hp] at h
      cases Option.some.inj h
      exact Or.inr ⟨rfl, rfl, Option.some_ne_none _⟩
    | fault => rw [hx hp] at h; cases h

/-- Every run of `parseMetatiles` that ends either raised the flag, logged a diagnostic
and returned the empty list, or left the flag as it was and logged nothing. -/
theorem parseMetatilesRun_cases (file : Option QByteArray) (cfg : MetatileConfig)
    (primaryTileset : Bool) (error : Bool) (r : Run MetatileError (List Metatile))
    (h : parseMetatilesRun file cfg primaryTileset error = some r) :
    (r.error = true ∧ r.logged ≠ [] ∧ r.value = [])
    ∨ (r.error = error ∧ r.logged = []) := by
  cases file with
  | none =>
    cases Option.some.inj h
    exact Or.inl ⟨rfl, List.cons_ne_nil _ _, rfl⟩
  | some inp =>
    obtain ⟨hf, ho, hx⟩ := parseMetatilesRun_opened inp cfg primaryTileset error
    cases hp : parseMetatiles inp cfg primaryTileset with
    | failed e =>
      rw [hf e hp] at h
      cases Option.some.inj h
      exact Or.inl ⟨rfl, List.cons_ne_nil _ _, rfl⟩
    | ok l =>
      rw [ho l hp] at h
      cases Option.some.inj h
      exact Or.inr ⟨rfl, rfl⟩
    | fault => rw [hx hp] at h; cases h

/-- Every run of `parsePalette` that ends either raised the flag, logged a diagnostic
and returned the empty list, or left the flag as it was and logged nothing. -/
theorem parsePaletteRun_cases (file : Option QByteArray) (error : Bool)
    (r : Run PaletteError (List Nat)) (h : parsePaletteRun file error = some r) :
    (r.error = true ∧ r.logged ≠ [] ∧ r.value = [])
    ∨ (r.error = error ∧ r.logged = []) := by
  cases file with
  | none =>
    cases Option.some.inj h
    exact Or.inl ⟨rfl, List.cons_ne_nil _ _, rfl⟩
  | some inp =>
    obtain ⟨hf, ho, hx⟩ := parsePaletteRun_opened inp error
    cases hp : parsePalette inp with
    | failed e =>
      rw [hf e hp] at h
      cases Option.some.inj h
      exact Or.inl ⟨rfl, List.cons_ne_nil _ _, rfl⟩
    | ok l =>
      rw [ho l hp] at h
      cases Option.some.inj h
      exact Or.inr ⟨rfl, rfl⟩
    | fault => rw [hx hp] at h; cases h

/-- C30: the decoders only ever raise the caller's error flag. With `error` the value
of the flag before the call, for each of `parseLayout`, `parseMetatiles` and
`parsePalette`: when the file cannot be opened, and when the decoder rejects the bytes
of the file, the run sets the flag to true, logs the diagnostic and returns the empty
value (`nullptr`, the empty list); when the decoder accepts the bytes, the run leaves
the flag at `error`, logs nothing and returns the decoded value; and no run that ends
leaves the flag false when it was true before. -/
theorem decoders_error_flag (error : Bool) :
    ((∀ project, parseLayoutRun none project error = some ⟨true, [.couldNotOpen], none⟩)
      ∧ (∀ inp project e, parseLayout inp project = .failed e →
          parseLayoutRun (some inp) project error = some ⟨true, [.rejected e], none⟩)
      ∧ (∀ inp project l, parseLayout inp project = .ok l →
          parseLayoutRun (some inp) project error = some ⟨error, [], some l⟩)
      ∧ (∀ file project r, parseLayoutRun file project error = some r →
          (error = true → r.error = true)
          ∧ ((r.error = true ∧ r.logged ≠ [] ∧ r.value = none)
            ∨ (r.error = error ∧ r.logged = [] ∧ r.value ≠ none))))
    ∧ ((∀ cfg primaryTileset,
          parseMetatilesRun none cfg primaryTileset error = some ⟨true, [.couldNotOpen], []⟩)
      ∧ (∀ inp cfg primaryTileset e, parseMetatiles inp cfg primaryTileset = .failed e →
          parseMetatilesRun (some inp) cfg primaryTileset error
            = some ⟨true, [.rejected e], []⟩)
      ∧ (∀ inp cfg primaryTileset ms, parseMetatiles inp cfg primaryTileset = .ok ms →
          parseMetatilesRun (some inp) cfg primaryTileset error = some ⟨error, [], ms⟩)
      ∧ (∀ file cfg primaryTileset r,
          parseMetatilesRun file cfg primaryTileset error = some r →
          (error = true → r.error = true)
          ∧ ((r.error = true ∧ r.logged ≠ [] ∧ r.value = [])
            ∨ (r.error = error ∧ r.logged = []))))
    ∧ ((parsePaletteRun none error = some ⟨true, [.couldNotOpen], []⟩)
      ∧ (∀ inp e, parsePalette inp = .failed e →
          parsePaletteRun (some inp) error = some ⟨true, [.rejected e], []⟩)
      ∧ (∀ inp palette, parsePalette inp = .ok palette →
          parsePaletteRun (some inp) error = some ⟨error, [], palette⟩)
      ∧ (∀ file r, parsePaletteRun file error = some r →
          (error = true → r.error = true)
          ∧ ((r.error = true ∧ r.logged ≠ [] ∧ r.value = [])
            ∨ (r.error = error ∧ r.logged = [])))) := by
  refine ⟨⟨fun _ => rfl, ?_, ?_, ?_⟩, ⟨fun _ _ => rfl, ?_, ?_, ?_⟩, ⟨rfl, ?_, ?_, ?_⟩⟩
  · intro inp project e h
    exact (parseLayoutRun_opened inp project error).1 e h
  · intro inp project l h
    exact (parseLayoutRun_opened inp project error).2.1 l h
  · intro file project r h
    have hc := parseLayoutRun_cases file project error r h
    refine ⟨fun he => ?_, hc⟩
    rcases hc with hc | hc
    · exact hc.1
    · rw [hc.1]; exact he
  · intro inp cfg primaryTileset e h
    exact (parseMetatilesRun_opened inp cfg primaryTileset error).1 e h
  · intro inp cfg primaryTileset ms h
    exact (parseMetatilesRun_opened inp cfg primaryTileset error).2.1 ms h
  · intro file cfg primaryTileset r h
    have hc := parseMetatilesRun_cases file cfg primaryTileset error r h
    refine ⟨fun he => ?_, hc⟩
    rcases hc with hc | hc
    · exact hc.1
    · rw [hc.1]; exact he
  · intro inp e h
    exact (parsePaletteRun_opened inp error).1 e h
  · intro inp palette h
    exact (parsePaletteRun_opened inp error).2.1 palette h
  · intro file r h
    have hc := parsePaletteRun_cases file error r h
    refine ⟨fun he => ?_, hc⟩
    rcases hc with hc | hc
    · exact hc.1
    · rw [hc.1]; exact he

/-- C30, on sample files, with the flag false before the call: the
3-byte file raises the flag in each decoder; `rseSampleFile`, `rseMetatileFile` and
`samplePalette` are decoded and leave the flag false. -/
theorem decoders_error_flag_witness :
    parseLayoutRun (some threeByteFile) sampleProject false
        = some ⟨true, [.rejected .unexpectedSize], none⟩
    ∧ parseLayoutRun (some rseSampleFile) sampleProject false
        = some ⟨false, [],
            some ⟨2, 1, 1, 1, "gTileset_General", "gTileset_Petalburg", [17, 18], [3]⟩⟩
    ∧ parseMetatilesRun (some threeByteFile) sampleConfig true false
        = some ⟨true, [.rejected .unexpectedSize], []⟩
    ∧ parseMetatilesRun (some unknownSignatureFile) sampleConfig true false
        = some ⟨true, [.rejected .unsupportedGameType], []⟩
    ∧ (∃ ms, parseMetatiles rseMetatileFile sampleConfig true = .ok ms
        ∧ parseMetatilesRun (some rseMetatileFile) sampleConfig true false
          = some ⟨false, [], ms⟩)
    ∧ parsePaletteRun (some threeByteFile) false
        = some ⟨true, [.rejected (.unexpectedFormat 3)], []⟩
    ∧ parsePaletteRun (some samplePalette) false
        = some ⟨false, [], [4278256131, 4278519303]⟩ :=
  ⟨(decoders_error_flag false).1.2.1 threeByteFile sampleProject .unexpectedSize (by decide),
   (decoders_error_flag false).1.2.2.1 rseSampleFile sampleProject
     ⟨2, 1, 1, 1, "gTileset_General", "gTileset_Petalburg", [17, 18], [3]⟩ (by decide),
   (decoders_error_flag false).2.1.2.1 threeByteFile sampleConfig true .unexpectedSize
     (by decide),
   (decoders_error_flag false).2.1.2.1 unknownSignatureFile sampleConfig true
     .unsupportedGameType (by decide),
   ⟨(parseMetatiles rseMetatileFile sampleConfig true).returnedList, by decide,
     (decoders_error_flag false).2.1.2.2.1 rseMetatileFile sampleConfig true _ (by decide)⟩,
   (decoders_error_flag false).2.2.2.1 threeByteFile (.unexpectedFormat 3) (by decide),
   (decoders_error_flag false).2.2.2.2.1 samplePalette [4278256131, 4278519303] (by decide)⟩

end AdvanceMapParser
